import Mathlib

/-!
Verification of the INVDB single-file storage engine against its
natural-language specification.

The development is a shallow embedding of the Rust sources.  Machine
integers are modelled as `Nat` with explicit `% 2 ^ w` reductions where the
source relies on wrapping semantics; byte buffers are `List Nat` whose
elements are below 256 in every reachable state; fallible Rust functions
returning `InvResult<T> = Result<T, InvError>` become `Except InvError`
computations.  The pager's page cache and the backing file are collapsed
into a single store, which is sound because every read and write in the
sources goes through the cache and `flush` only copies cached bytes to the
file.  Dynamic `details` strings attached to errors are abstracted to `""`;
the static `context` labels are kept verbatim, since the specification
refers to them.
-/

set_option maxHeartbeats 1000000

namespace INVDB

/-- Error taxonomy mirroring `error.rs` (`InvError`).  The `Io` variant is
named `ioError` here; it carries no payload because the file layer is not
part of the embedding.  Dynamic detail strings are abstracted to `""`. -/
inductive InvError where
  | ioError
  | invalidMagic
  | invalidVersion (found min max : Nat)
  | corruption (context : String) (details : String)
  | overflow (context : String)
  | invalidArgument (name : String) (details : String)
  | unsupported (feature : String)
deriving DecidableEq, Repr

/-- Result alias mirroring `InvResult<T>` from `error.rs`. -/
abbrev InvResult (α : Type) := Except InvError α

/-- Logical page size in bytes, `config.rs` `PAGE_SIZE`. -/
def PAGE_SIZE : Nat := 4096

/-- Payload base offset inside a page, `node.rs` `PAYLOAD_BASE`. -/
def PAYLOAD_BASE : Nat := 16

/-!
## Encoding primitives (`encoding.rs`)

Byte streams are `List Nat`.  Readers take the stream and a position and
return the parsed value together with the new position, mirroring the Rust
`&mut usize` position threading.  `x & 0x7F` is written `x &&& 127`,
`x >> 7` is `x / 128` (definitionally `x >>> 7`), and u64 truncation of a
shifted septet is an explicit `% 2 ^ 64`.
-/

/-- Structural-fuel implementation of the varint writer.  Ten iterations
always suffice on the u64 domain (a u64 has at most ten base-128 digits,
the same bound the decoder enforces); `writeVarAux_fuel` shows the result
does not depend on the fuel as long as it covers the digit count. -/
def writeVarAux : Nat → Nat → List Nat
  | 0, v => [v % 128]
  | fuel + 1, v =>
    let byte := v % 128
    let v' := v / 128
    if v' = 0 then [byte] else (byte + 128) :: writeVarAux fuel v'

/-- Write an unsigned LEB128-style varint, `encoding.rs` `write_var_u64`.
Each iteration emits `v & 0x7F`, sets the continuation bit `0x80` when the
remaining value `v >> 7` is nonzero, and stops otherwise. -/
def write_var_u64 (v : Nat) : List Nat := writeVarAux 10 v

/-- Fuel irrelevance for the varint writer. -/
theorem writeVarAux_fuel (f1 : Nat) : ∀ (f2 v : Nat), v < 128 ^ f1 →
    v < 128 ^ f2 → writeVarAux f1 v = writeVarAux f2 v := by
  induction f1 with
  | zero =>
    intro f2 v h1 _
    have hv : v = 0 := by simpa using h1
    subst hv
    cases f2 with
    | zero => rfl
    | succ f2 => simp [writeVarAux]
  | succ f1 ih =>
    intro f2 v h1 h2
    cases f2 with
    | zero =>
      have hv : v = 0 := by simpa using h2
      subst hv
      simp [writeVarAux]
    | succ f2 =>
      simp only [writeVarAux]
      by_cases h0 : v / 128 = 0
      · rw [if_pos h0, if_pos h0]
      · rw [if_neg h0, if_neg h0]
        have hd1 : v / 128 < 128 ^ f1 := by
          rw [Nat.div_lt_iff_lt_mul (by norm_num : (0 : Nat) < 128)]
          calc v < 128 ^ (f1 + 1) := h1
            _ = 128 ^ f1 * 128 := by rw [pow_succ]
        have hd2 : v / 128 < 128 ^ f2 := by
          rw [Nat.div_lt_iff_lt_mul (by norm_num : (0 : Nat) < 128)]
          calc v < 128 ^ (f2 + 1) := h2
            _ = 128 ^ f2 * 128 := by rw [pow_succ]
        rw [ih f2 (v / 128) hd1 hd2]

/-- Unfolding equation of the varint writer in the form of the Rust loop,
valid on the whole u64 domain. -/
theorem write_var_u64_eq (v : Nat) (h : v < 2 ^ 70) :
    write_var_u64 v =
      if v / 128 = 0 then [v % 128]
      else (v % 128 + 128) :: write_var_u64 (v / 128) := by
  unfold write_var_u64
  have h10 : v < 128 ^ 10 := by
    calc v < 2 ^ 70 := h
      _ = 128 ^ 10 := by norm_num
  rw [show writeVarAux 10 v =
      (if v / 128 = 0 then [v % 128]
       else (v % 128 + 128) :: writeVarAux 9 (v / 128)) from rfl]
  by_cases h0 : v / 128 = 0
  · rw [if_pos h0, if_pos h0]
  · rw [if_neg h0, if_neg h0]
    have hd : v / 128 < 128 ^ 9 := by
      rw [Nat.div_lt_iff_lt_mul (by norm_num : (0 : Nat) < 128)]
      calc v < 128 ^ 10 := h10
        _ = 128 ^ 9 * 128 := by norm_num
    rw [writeVarAux_fuel 9 10 (v / 128) hd
      (lt_trans hd (by norm_num))]

/-- Loop of `read_var_u64` operating on the stream suffix that starts at the
current position.  `shift` and `acc` mirror the Rust `shift` and `result`
accumulators, `bytesRead` the byte counter; `(b &&& 127) <<< shift` is
truncated to 64 bits exactly as the Rust `u64` shift-or is. -/
def readVarLoop : List Nat → Nat → Nat → Nat → InvResult (Nat × Nat)
  | [], _, _, _ => .error (.corruption "encoding.varint.eof" "")
  | b :: rest, shift, acc, bytesRead =>
    let br := bytesRead + 1
    if br > 10 then .error (.corruption "encoding.varint.too_long" "")
    else
      let acc' := acc ||| ((b &&& 127) * 2 ^ shift % 2 ^ 64)
      if b &&& 128 = 0 then .ok (acc', br)
      else readVarLoop rest (shift + 7) acc' br

/-- Read an unsigned LEB128-style varint, `encoding.rs` `read_var_u64`.
Returns the decoded value and the advanced position. -/
def read_var_u64 (input : List Nat) (pos : Nat) : InvResult (Nat × Nat) :=
  match readVarLoop (input.drop pos) 0 0 0 with
  | .ok (v, br) => .ok (v, pos + br)
  | .error e => .error e

/-- Little-endian bytes of a value, fixed width `w` bytes; used for the
`to_le_bytes` calls of `encoding.rs`, `row.rs` and `rowstore.rs`. -/
def leBytes : Nat → Nat → List Nat
  | 0, _ => []
  | w + 1, v => v % 256 :: leBytes w (v / 256)

/-- Little-endian value of a byte list, the `from_le_bytes` direction. -/
def leValue : List Nat → Nat
  | [] => 0
  | b :: rest => b % 256 + 256 * leValue rest

/-- Write a u32 little-endian, `encoding.rs` `write_u32_le`. -/
def write_u32_le (v : Nat) : List Nat := leBytes 4 v

/-- Write a u64 little-endian, `encoding.rs` `write_u64_le`. -/
def write_u64_le (v : Nat) : List Nat := leBytes 8 v

/-- Read a u32 little-endian, `encoding.rs` `read_u32_le`. -/
def read_u32_le (input : List Nat) (pos : Nat) : InvResult (Nat × Nat) :=
  if pos + 4 > input.length then .error (.corruption "encoding.fixed.eof" "")
  else .ok (leValue ((input.drop pos).take 4), pos + 4)

/-- Read a u64 little-endian, `encoding.rs` `read_u64_le`. -/
def read_u64_le (input : List Nat) (pos : Nat) : InvResult (Nat × Nat) :=
  if pos + 8 > input.length then .error (.corruption "encoding.fixed.eof" "")
  else .ok (leValue ((input.drop pos).take 8), pos + 8)

/-- Write a length-prefixed byte slice, `encoding.rs` `write_bytes`. -/
def write_bytes (bytes : List Nat) : List Nat :=
  write_var_u64 bytes.length ++ bytes

/-- Read a length-prefixed byte slice with a maximum length guard,
`encoding.rs` `read_bytes`. -/
def read_bytes (input : List Nat) (pos : Nat) (maxLen : Nat) :
    InvResult (List Nat × Nat) :=
  match read_var_u64 input pos with
  | .error e => .error e
  | .ok (len, pos1) =>
    if len > maxLen then .error (.corruption "encoding.bytes.too_large" "")
    else if pos1 + len > input.length then
      .error (.corruption "encoding.bytes.eof" "")
    else .ok ((input.drop pos1).take len, pos1 + len)

/-!
## Composite key (`table.rs`)
-/

/-- Mix `table_id` and `pk` into a composite u32 key, `table.rs`
`composite_key`.  `wrapping_mul` and `wrapping_add` are `% 2 ^ 32`; the
final `x ^ (x >> 16)` needs no reduction because both operands are below
`2 ^ 32`. -/
def composite_key (tableId pk : Nat) : Nat :=
  let x0 := tableId ^^^ 0x9E3779B9
  let x1 := x0 * 0x85EBCA6B % 2 ^ 32
  let x2 := x1 ^^^ ((pk + 0xC2B2AE35) % 2 ^ 32)
  let x3 := x2 * 0x27D4EB2F % 2 ^ 32
  x3 ^^^ x3 / 2 ^ 16

/-- Composite-key mixer transcribed from the specification text of §9
(Design notes, "Composite key mixer"): `x = table_id XOR 9E3779B9;
x = x * 85EBCA6B; x = x XOR (pk + C2B2AE35); x = x * 27D4EB2F;
return x XOR (x >> 16)`, all 32-bit wrap-around arithmetic. -/
def compositeKeySpec (tableId pk : Nat) : Nat :=
  let a := tableId ^^^ 0x9E3779B9
  let b := a * 0x85EBCA6B % 2 ^ 32
  let c := b ^^^ ((pk + 0xC2B2AE35) % 2 ^ 32)
  let d := c * 0x27D4EB2F % 2 ^ 32
  d ^^^ d >>> 16

/-!
## Row pointers (`rowstore.rs`)
-/

/-- Pointer to a stored row, `rowstore.rs` `RowPtr`. -/
structure RowPtr where
  page_id : Nat
  offset : Nat
  len : Nat
deriving DecidableEq, Repr

/-- Pack a row pointer into a u64, `rowstore.rs` `RowPtr::pack`:
`(page_id << 32) | (offset << 16) | len`. -/
def RowPtr.pack (r : RowPtr) : Nat :=
  r.page_id <<< 32 ||| r.offset <<< 16 ||| r.len

/-- Unpack a row pointer from a u64, `rowstore.rs` `RowPtr::unpack`; the
`as u32` cast of `v >> 32` is an explicit `% 2 ^ 32`. -/
def RowPtr.unpack (v : Nat) : RowPtr where
  page_id := v >>> 32 % 2 ^ 32
  offset := v >>> 16 &&& 0xFFFF
  len := v &&& 0xFFFF

/-- Validate pointer fields against invariants, `rowstore.rs`
`RowPtr::validate`. -/
def RowPtr.validate (r : RowPtr) : InvResult Unit :=
  if r.page_id = 0 then .error (.corruption "rowptr.invalid" "")
  else if r.offset < 32 then .error (.corruption "rowptr.invalid" "")
  else if r.len = 0 then .error (.corruption "rowptr.invalid" "")
  else if r.offset + r.len > PAGE_SIZE then
    .error (.corruption "rowptr.invalid" "")
  else .ok ()

/-!
## Arithmetic helper lemmas for bitwise reasoning
-/

/-- Bit extraction form of masking with a single power of two. -/
theorem and_two_pow_eq (x n : Nat) : x &&& 2 ^ n = x / 2 ^ n % 2 * 2 ^ n := by
  apply Nat.eq_of_testBit_eq
  intro i
  rw [Nat.testBit_and]
  by_cases h : n = i
  · subst h
    rw [Nat.testBit_two_pow_self, Bool.and_true]
    have h2 : x / 2 ^ n % 2 = 0 ∨ x / 2 ^ n % 2 = 1 := by omega
    rcases h2 with h2 | h2 <;> rw [h2]
    · simp [Nat.testBit_to_div_mod, h2]
    · simpa [Nat.testBit_to_div_mod] using h2
  · rw [Nat.testBit_two_pow_of_ne h, Bool.and_false]
    have h2 : x / 2 ^ n % 2 = 0 ∨ x / 2 ^ n % 2 = 1 := by omega
    rcases h2 with h2 | h2 <;> rw [h2]
    · simp
    · rw [Nat.one_mul]
      exact (Nat.testBit_two_pow_of_ne h).symm

/-- Masking with `0x80` is zero exactly on numbers whose bit 7 is clear. -/
theorem and_128_eq (x : Nat) : x &&& 128 = x / 128 % 2 * 128 := by
  have h : (128 : Nat) = 2 ^ 7 := by norm_num
  rw [h, and_two_pow_eq]

/-- Masking with `0x7F` is reduction modulo 128. -/
theorem and_127_eq (x : Nat) : x &&& 127 = x % 128 := by
  have h : (127 : Nat) = 2 ^ 7 - 1 := by norm_num
  rw [h, Nat.and_pow_two_sub_one_eq_mod]

/-- Masking with `0xFFFF` is reduction modulo `2 ^ 16`. -/
theorem and_65535_eq (x : Nat) : x &&& 65535 = x % 2 ^ 16 := by
  have h : (65535 : Nat) = 2 ^ 16 - 1 := by norm_num
  rw [h, Nat.and_pow_two_sub_one_eq_mod]

/-- A shifted value or-ed with a small remainder is their sum. -/
theorem shiftLeft_or_eq_add (a n b : Nat) (h : b < 2 ^ n) :
    a <<< n ||| b = a * 2 ^ n + b := by
  rw [Nat.shiftLeft_eq, Nat.mul_comm a (2 ^ n), ← Nat.mul_add_lt_is_or h a]

/-- Disjoint or with the low part on the left, as in the varint reader. -/
theorem or_shifted_eq_add (acc d n : Nat) (h : acc < 2 ^ n) :
    acc ||| d * 2 ^ n = acc + d * 2 ^ n := by
  rw [Nat.lor_comm, Nat.mul_comm d (2 ^ n), ← Nat.mul_add_lt_is_or h d,
    Nat.mul_comm (2 ^ n) d]
  omega

/-!
## Claim C6 — composite key mixer
-/

/-- C6: for every u32 `table_id` and `pk`, `composite_key` computes exactly
the specification's mixing chain `x = table_id XOR 9E3779B9;
x = x * 85EBCA6B; x = x XOR (pk + C2B2AE35); x = x * 27D4EB2F;
x XOR (x >> 16)` with 32-bit wrap-around arithmetic. -/
theorem composite_key_matches_spec (tableId pk : Nat)
    (ht : tableId < 2 ^ 32) (hp : pk < 2 ^ 32) :
    composite_key tableId pk = compositeKeySpec tableId pk := by
  unfold composite_key compositeKeySpec
  simp only [Nat.shiftRight_eq_div_pow]

/-- Witness for C6 at `table_id = 1`, `pk = 7`. -/
theorem composite_key_matches_spec_witness :
    (1 : Nat) < 2 ^ 32 ∧ (7 : Nat) < 2 ^ 32 ∧
      composite_key 1 7 = compositeKeySpec 1 7 :=
  ⟨by norm_num, by norm_num,
    composite_key_matches_spec 1 7 (by norm_num) (by norm_num)⟩

/-!
## Claim C9 — row pointer packing
-/

/-- Closed form of `RowPtr.pack` on in-range pointers. -/
theorem rowPtrPackEq (r : RowPtr) (h2 : r.offset < 2 ^ 16)
    (h3 : r.len < 2 ^ 16) :
    r.pack = r.page_id * 2 ^ 32 + r.offset * 2 ^ 16 + r.len := by
  unfold RowPtr.pack
  have hoff : r.offset <<< 16 < 2 ^ 32 := by
    rw [Nat.shiftLeft_eq]
    have e16 : (2 : Nat) ^ 16 = 65536 := by norm_num
    have e32 : (2 : Nat) ^ 32 = 4294967296 := by norm_num
    rw [e16, e32]
    rw [e16] at h2
    omega
  rw [shiftLeft_or_eq_add r.page_id 32 _ hoff, Nat.shiftLeft_eq]
  have hsplit : r.page_id * 2 ^ 32 + r.offset * 2 ^ 16 =
      2 ^ 16 * (r.page_id * 2 ^ 16 + r.offset) := by ring
  rw [hsplit, ← Nat.mul_add_lt_is_or h3 (r.page_id * 2 ^ 16 + r.offset)]

/-- Unpacking the packed form of an in-range pointer restores it. -/
theorem unpackPackEq (t : RowPtr) (h1 : t.page_id < 2 ^ 32)
    (h2 : t.offset < 2 ^ 16) (h3 : t.len < 2 ^ 16) :
    RowPtr.unpack t.pack = t := by
  obtain ⟨p, o, l⟩ := t
  have hpack := rowPtrPackEq ⟨p, o, l⟩ h2 h3
  simp only at hpack h1 h2 h3
  unfold RowPtr.unpack
  rw [hpack, Nat.shiftRight_eq_div_pow, Nat.shiftRight_eq_div_pow,
    and_65535_eq, and_65535_eq, RowPtr.mk.injEq]
  have e32 : (2 : Nat) ^ 32 = 4294967296 := by norm_num
  have e16 : (2 : Nat) ^ 16 = 65536 := by norm_num
  rw [e32, e16] at *
  refine ⟨by omega, by omega, by omega⟩

/-- C9: for every `RowPtr` with u32 `page_id` and u16 `offset` and `len`,
`unpack (pack ptr) = ptr`, and `pack` is injective on this domain. -/
theorem rowptr_pack_unpack_roundtrip (r : RowPtr) (h1 : r.page_id < 2 ^ 32)
    (h2 : r.offset < 2 ^ 16) (h3 : r.len < 2 ^ 16) :
    RowPtr.unpack r.pack = r ∧
      ∀ s : RowPtr, s.page_id < 2 ^ 32 → s.offset < 2 ^ 16 →
        s.len < 2 ^ 16 → s.pack = r.pack → s = r := by
  refine ⟨unpackPackEq r h1 h2 h3, ?_⟩
  intro s g1 g2 g3 hpk
  have hs := unpackPackEq s g1 g2 g3
  have hr := unpackPackEq r h1 h2 h3
  rw [hpk] at hs
  rw [hr] at hs
  exact hs.symm

/-- Witness for C9 at the concrete pointer `(5, 40, 3)`. -/
theorem rowptr_pack_unpack_roundtrip_witness :
    RowPtr.unpack (RowPtr.pack ⟨5, 40, 3⟩) = ⟨5, 40, 3⟩ :=
  (rowptr_pack_unpack_roundtrip ⟨5, 40, 3⟩ (by norm_num) (by norm_num)
    (by norm_num)).1

/-!
## Claim C10 — varint round trip
-/

/-- Main varint decoding invariant: running the reader loop over the
encoding of `v` placed after `i` already-consumed bytes adds `v`'s septets
above the accumulator and consumes exactly the encoding. -/
theorem readVarLoop_write (v : Nat) :
    ∀ (i acc : Nat) (rest : List Nat),
      7 * i ≤ 63 → acc < 2 ^ (7 * i) → v < 2 ^ (64 - 7 * i) →
      readVarLoop (write_var_u64 v ++ rest) (7 * i) acc i =
        .ok (acc + v * 2 ^ (7 * i), i + (write_var_u64 v).length) := by
  induction v using Nat.strong_induction_on with
  | _ v IH =>
    intro i acc rest h63 hacc hv
    have hpowle : (2 : Nat) ^ (64 - 7 * i) * 2 ^ (7 * i) = 2 ^ 64 := by
      rw [← pow_add]
      congr 1
      omega
    have hmul64 : v * 2 ^ (7 * i) < 2 ^ 64 := by
      calc v * 2 ^ (7 * i) < 2 ^ (64 - 7 * i) * 2 ^ (7 * i) :=
            (Nat.mul_lt_mul_right (Nat.two_pow_pos (7 * i))).mpr hv
        _ = 2 ^ 64 := hpowle
    have hv70 : v < 2 ^ 70 := by
      calc v < 2 ^ (64 - 7 * i) := hv
        _ ≤ 2 ^ 70 := Nat.pow_le_pow_right (by norm_num) (by omega)
    rw [write_var_u64_eq v hv70]
    by_cases h0 : v / 128 = 0
    · have hv128 : v < 128 := by omega
      rw [if_pos h0]
      simp only [List.cons_append, List.nil_append, readVarLoop, List.length_cons,
        List.length_nil]
      rw [if_neg (by omega)]
      rw [and_127_eq, and_128_eq]
      have e1 : v % 128 % 128 = v := by omega
      have e2 : v % 128 / 128 % 2 * 128 = 0 := by omega
      rw [e1, e2]
      rw [if_pos rfl]
      rw [Nat.mod_eq_of_lt hmul64]
      rw [or_shifted_eq_add acc v (7 * i) hacc]
    · have hge : 128 ≤ v := by omega
      rw [if_neg h0]
      simp only [List.cons_append, readVarLoop, List.length_cons]
      rw [if_neg (by omega)]
      rw [and_127_eq, and_128_eq]
      have hb1 : (v % 128 + 128) % 128 = v % 128 := by omega
      have hb2 : (v % 128 + 128) / 128 % 2 * 128 = 128 := by omega
      rw [hb1, hb2]
      have hmodmul : v % 128 * 2 ^ (7 * i) < 2 ^ 64 := by
        calc v % 128 * 2 ^ (7 * i) ≤ v * 2 ^ (7 * i) :=
              Nat.mul_le_mul_right _ (Nat.mod_le v 128)
          _ < 2 ^ 64 := hmul64
      rw [Nat.mod_eq_of_lt hmodmul]
      rw [if_neg (by omega)]
      rw [or_shifted_eq_add acc (v % 128) (7 * i) hacc]
      have h8 : 8 ≤ 64 - 7 * i := by
        by_contra hcon
        have hle7 : 64 - 7 * i ≤ 7 := by omega
        have hple : (2 : Nat) ^ (64 - 7 * i) ≤ 2 ^ 7 :=
          Nat.pow_le_pow_right (by norm_num) hle7
        have hvsm : v < 128 := by
          calc v < 2 ^ (64 - 7 * i) := hv
            _ ≤ 2 ^ 7 := hple
            _ = 128 := by norm_num
        omega
      have hstep : 7 * (i + 1) = 7 * i + 7 := by ring
      have happ : readVarLoop (write_var_u64 (v / 128) ++ rest) (7 * i + 7)
          (acc + v % 128 * 2 ^ (7 * i)) (i + 1) =
          .ok (acc + v % 128 * 2 ^ (7 * i) + v / 128 * 2 ^ (7 * (i + 1)),
            (i + 1) + (write_var_u64 (v / 128)).length) := by
        rw [← hstep]
        apply IH (v / 128) (Nat.div_lt_self (by omega) (by norm_num))
        · omega
        · rw [hstep, pow_add]
          have h127 : v % 128 ≤ 127 := by omega
          calc acc + v % 128 * 2 ^ (7 * i)
              < 2 ^ (7 * i) + 127 * 2 ^ (7 * i) := by
                have := Nat.mul_le_mul_right (2 ^ (7 * i)) h127
                omega
            _ = 2 ^ (7 * i) * 2 ^ 7 := by
                rw [show (2 : Nat) ^ 7 = 128 from by norm_num]
                ring
        · have hk : 64 - 7 * (i + 1) = 64 - 7 * i - 7 := by omega
          rw [hk]
          rw [Nat.div_lt_iff_lt_mul (by norm_num : (0 : Nat) < 128)]
          calc v < 2 ^ (64 - 7 * i) := hv
            _ = 2 ^ (64 - 7 * i - 7) * 128 := by
              rw [show (128 : Nat) = 2 ^ 7 from by norm_num, ← pow_add]
              congr 1
              omega
      have hval : acc + v % 128 * 2 ^ (7 * i) + v / 128 * 2 ^ (7 * (i + 1)) =
          acc + v * 2 ^ (7 * i) := by
        rw [hstep, pow_add]
        have hsplit : v % 128 + 128 * (v / 128) = v := Nat.mod_add_div v 128
        rw [show (2 : Nat) ^ 7 = 128 from by norm_num]
        nlinarith [hsplit]
      have hidx : i + 1 + (write_var_u64 (v / 128)).length =
          i + ((write_var_u64 (v / 128)).length + 1) := by ring
      show readVarLoop (write_var_u64 (v / 128) ++ rest) (7 * i + 7)
          (acc + v % 128 * 2 ^ (7 * i)) (i + 1) =
        .ok (acc + v * 2 ^ (7 * i), i + ((write_var_u64 (v / 128)).length + 1))
      rw [happ, hval, hidx]

/-- C10: for every u64 value `v`, reading back the varint encoding of `v`
from position 0 returns `v` and advances the position to exactly the
number of bytes written. -/
theorem read_var_write_var_roundtrip (v : Nat) (h : v < 2 ^ 64) :
    read_var_u64 (write_var_u64 v) 0 = .ok (v, (write_var_u64 v).length) := by
  have hmain := readVarLoop_write v 0 0 [] (by norm_num) (by norm_num)
    (by simpa using h)
  rw [List.append_nil] at hmain
  unfold read_var_u64
  rw [List.drop_zero, hmain]
  norm_num

/-- Witness for C10 at `v = 300` (a two-byte varint). -/
theorem read_var_write_var_roundtrip_witness :
    read_var_u64 (write_var_u64 300) 0 = .ok (300, (write_var_u64 300).length) :=
  read_var_write_var_roundtrip 300 (by norm_num)

/-!
## Schema model (`schema.rs`, `catalog.rs`)
-/

/-- Column data types, `schema.rs` `ColType`. -/
inductive ColType where
  | u32
  | u64
  | i64
  | bool
  | bytes
  | string
deriving DecidableEq, Repr

/-- Column definition, `schema.rs` `Column`. -/
structure Column where
  name : String
  ty : ColType
  nullable : Bool
deriving DecidableEq, Repr

/-- Schema holding an ordered list of columns, `schema.rs` `Schema`. -/
structure Schema where
  columns : List Column
deriving DecidableEq, Repr

/-- Character class accepted by `Schema::new`'s per-column name check,
`c.is_ascii_alphanumeric() || c == '_'`. -/
def validNameChar (c : Char) : Bool :=
  ('A' ≤ c && c ≤ 'Z') || ('a' ≤ c && c ≤ 'z') || ('0' ≤ c && c ≤ '9') ||
    c == '_'

/-- Per-column loop of `Schema::new`, threading the `seen` name set that the
Rust code keeps in a `HashSet`. -/
def schemaNewLoop : List Column → List String → InvResult Unit
  | [], _ => .ok ()
  | col :: rest, seen =>
    if col.name = "" then .error (.invalidArgument "column.name" "")
    else if ¬ (col.name.data.all validNameChar = true) then
      .error (.invalidArgument "column.name" "")
    else if col.name ∈ seen then .error (.invalidArgument "column.name" "")
    else schemaNewLoop rest (col.name :: seen)

/-- Construct a validated schema, `schema.rs` `Schema::new`: rejects an
empty column list, then per column an empty name, a name with characters
outside the accepted class, and a duplicate name.  Note the 64-character
limit is not checked here. -/
def Schema.new (columns : List Column) : InvResult Schema :=
  if columns = [] then .error (.invalidArgument "columns" "")
  else
    match schemaNewLoop columns [] with
    | .ok _ => .ok ⟨columns⟩
    | .error e => .error e

/-- UTF-8 bytes of a string, used where the Rust code takes `name.as_bytes()`. -/
def strBytes (s : String) : List Nat := s.toUTF8.toList.map UInt8.toNat

/-- Type tag of a column type, `catalog.rs` `col_type_tag`. -/
def col_type_tag : ColType → Nat
  | .u32 => 1
  | .u64 => 2
  | .i64 => 3
  | .bool => 4
  | .bytes => 5
  | .string => 6

/-- Per-column loop of `encode_schema`: the byte-length guard
`col.name.len() > 64` (Rust `str::len` counts UTF-8 bytes) runs here, then
the length-prefixed name, the type tag and the nullable flag are emitted. -/
def encodeSchemaLoop : List Column → InvResult (List Nat)
  | [] => .ok []
  | col :: rest =>
    if col.name.utf8ByteSize > 64 then
      .error (.invalidArgument "column.name" "")
    else
      match encodeSchemaLoop rest with
      | .ok tail => .ok (write_bytes (strBytes col.name) ++
          (col_type_tag col.ty :: (if col.nullable then 1 else 0) :: tail))
      | .error e => .error e

/-- Encode a schema for catalog storage, `catalog.rs` `encode_schema`:
magic `"SCH1"`, varint column count, then each column. -/
def encode_schema (s : Schema) : InvResult (List Nat) :=
  match encodeSchemaLoop s.columns with
  | .ok body => .ok ([83, 67, 72, 49] ++ write_var_u64 s.columns.length ++ body)
  | .error e => .error e

/-!
## Row values and codec (`row.rs`)

Rust `String` values are modelled by their UTF-8 byte lists together with
the validity predicate `validUtf8`; `String::from_utf8` in `decode_row`
becomes a `validUtf8` check returning the same bytes.  `i64` values are
Lean `Int`s; `to_le_bytes`/`from_le_bytes` reinterpretation is the explicit
two's-complement conversion pair `twosComp64`/`fromTwos64`.
-/

/-- UTF-8 continuation byte, `0x80..=0xBF`. -/
def utf8Cont (b : Nat) : Bool := 128 ≤ b && b ≤ 191

/-- RFC 3629 UTF-8 validity of a byte list, modelling the success of Rust
`String::from_utf8` (rejects overlong forms, surrogates, and values above
`U+10FFFF`). -/
def validUtf8 : List Nat → Bool
  | [] => true
  | b :: rest =>
    if b ≤ 127 then validUtf8 rest
    else if b ≤ 193 then false
    else if b ≤ 223 then
      match rest with
      | c1 :: r => utf8Cont c1 && validUtf8 r
      | [] => false
    else if b = 224 then
      match rest with
      | c1 :: c2 :: r => (160 ≤ c1 && c1 ≤ 191) && utf8Cont c2 && validUtf8 r
      | _ => false
    else if b ≤ 236 then
      match rest with
      | c1 :: c2 :: r => utf8Cont c1 && utf8Cont c2 && validUtf8 r
      | _ => false
    else if b = 237 then
      match rest with
      | c1 :: c2 :: r => (128 ≤ c1 && c1 ≤ 159) && utf8Cont c2 && validUtf8 r
      | _ => false
    else if b ≤ 239 then
      match rest with
      | c1 :: c2 :: r => utf8Cont c1 && utf8Cont c2 && validUtf8 r
      | _ => false
    else if b = 240 then
      match rest with
      | c1 :: c2 :: c3 :: r =>
        (144 ≤ c1 && c1 ≤ 191) && utf8Cont c2 && utf8Cont c3 && validUtf8 r
      | _ => false
    else if b ≤ 243 then
      match rest with
      | c1 :: c2 :: c3 :: r =>
        utf8Cont c1 && utf8Cont c2 && utf8Cont c3 && validUtf8 r
      | _ => false
    else if b = 244 then
      match rest with
      | c1 :: c2 :: c3 :: r =>
        (128 ≤ c1 && c1 ≤ 143) && utf8Cont c2 && utf8Cont c3 && validUtf8 r
      | _ => false
    else false

/-- Logical row values, `row.rs` `Value`. -/
inductive Value where
  | null
  | u32 (v : Nat)
  | u64 (v : Nat)
  | i64 (v : Int)
  | bool (b : Bool)
  | bytes (bs : List Nat)
  | string (s : List Nat)
deriving DecidableEq, Repr

/-- A row is a sequence of values matching a schema, `row.rs` `Row`. -/
abbrev Row := List Value

/-- Row magic `"ROW1"`, `row.rs` `ROW_MAGIC`. -/
def rowMagic : List Nat := [82, 79, 87, 49]

/-- One-mebibyte guard for variable-length values, `row.rs` `MAX_VAR_LEN`. -/
def MAX_VAR_LEN : Nat := 1048576

/-- Two's-complement u64 bit pattern of an i64 value,
the `v.to_le_bytes()` reinterpretation on the encode side. -/
def twosComp64 (v : Int) : Nat := (v % (2 ^ 64 : Int)).toNat

/-- Signed reinterpretation of a u64 bit pattern,
`i64::from_le_bytes(v.to_le_bytes())` on the decode side. -/
def fromTwos64 (n : Nat) : Int :=
  if n < 2 ^ 63 then (n : Int) else (n : Int) - 2 ^ 64

/-- Encode a single column value, the per-column body of `row.rs`
`encode_row`: a tag byte followed by the payload; `Null` in a non-nullable
column is rejected, as is a value whose shape disagrees with the column
type. -/
def encodeValue (col : Column) (v : Value) : InvResult (List Nat) :=
  match col.ty, v with
  | _, .null =>
    if col.nullable then .ok [0]
    else .error (.invalidArgument "row.null" "")
  | .u32, .u32 n => .ok (1 :: write_u32_le n)
  | .u64, .u64 n => .ok (2 :: write_u64_le n)
  | .i64, .i64 n => .ok (3 :: leBytes 8 (twosComp64 n))
  | .bool, .bool b => .ok [4, if b then 1 else 0]
  | .bytes, .bytes bs => .ok (5 :: write_bytes bs)
  | .string, .string s => .ok (6 :: write_bytes s)
  | _, _ => .error (.invalidArgument "row.type" "")

/-- Per-column encoding loop of `encode_row`; the first failing column
aborts, matching the Rust early return. -/
def encodeRowLoop : List (Column × Value) → InvResult (List Nat)
  | [] => .ok []
  | (c, v) :: rest =>
    match encodeValue c v with
    | .error e => .error e
    | .ok enc =>
      match encodeRowLoop rest with
      | .error e => .error e
      | .ok tail => .ok (enc ++ tail)

/-- Encode a row according to the provided schema, `row.rs` `encode_row`:
magic, varint column count, then each column value. -/
def encode_row (schema : Schema) (row : Row) : InvResult (List Nat) :=
  if schema.columns.length ≠ row.length then
    .error (.invalidArgument "row" "")
  else
    match encodeRowLoop (schema.columns.zip row) with
    | .error e => .error e
    | .ok body =>
      .ok (rowMagic ++ write_var_u64 schema.columns.length ++ body)

/-- Shape agreement between a decoded value and the schema column type,
the second `match` of the `decode_row` loop (`Null` passes any type). -/
def valueMatchesType (ty : ColType) : Value → Bool
  | .null => true
  | .u32 _ => ty = ColType.u32
  | .u64 _ => ty = ColType.u64
  | .i64 _ => ty = ColType.i64
  | .bool _ => ty = ColType.bool
  | .bytes _ => ty = ColType.bytes
  | .string _ => ty = ColType.string

/-- Decode a single column value, the per-column body of `row.rs`
`decode_row`: read the tag byte, dispatch on it, then validate the decoded
shape against the schema type. -/
def decodeValue (col : Column) (bytes : List Nat) (pos : Nat) :
    InvResult (Value × Nat) :=
  if pos ≥ bytes.length then .error (.corruption "row.tag" "")
  else
    let tag := bytes.getD pos 0
    let pos1 := pos + 1
    let parsed : InvResult (Value × Nat) :=
      if tag = 0 then
        if ¬ col.nullable then .error (.invalidArgument "row.null" "")
        else .ok (.null, pos1)
      else if tag = 1 then
        match read_u32_le bytes pos1 with
        | .error e => .error e
        | .ok (n, pos2) => .ok (.u32 n, pos2)
      else if tag = 2 then
        match read_u64_le bytes pos1 with
        | .error e => .error e
        | .ok (n, pos2) => .ok (.u64 n, pos2)
      else if tag = 3 then
        match read_u64_le bytes pos1 with
        | .error e => .error e
        | .ok (n, pos2) => .ok (.i64 (fromTwos64 n), pos2)
      else if tag = 4 then
        if pos1 ≥ bytes.length then .error (.corruption "row.bool" "")
        else
          let b := bytes.getD pos1 0
          if b = 0 then .ok (.bool false, pos1 + 1)
          else if b = 1 then .ok (.bool true, pos1 + 1)
          else .error (.corruption "row.bool" "")
      else if tag = 5 then
        match read_bytes bytes pos1 MAX_VAR_LEN with
        | .error e => .error e
        | .ok (data, pos2) => .ok (.bytes data, pos2)
      else if tag = 6 then
        match read_bytes bytes pos1 MAX_VAR_LEN with
        | .error e => .error e
        | .ok (data, pos2) =>
          if validUtf8 data then .ok (.string data, pos2)
          else .error (.corruption "encoding.string.utf8" "")
      else .error (.corruption "row.tag" "")
    match parsed with
    | .error e => .error e
    | .ok (value, pos2) =>
      if valueMatchesType col.ty value then .ok (value, pos2)
      else .error (.corruption "row.type" "")

/-- Per-column decoding loop of `decode_row`. -/
def decodeRowLoop : List Column → List Nat → Nat → InvResult (List Value × Nat)
  | [], _, pos => .ok ([], pos)
  | col :: cols, bytes, pos =>
    match decodeValue col bytes pos with
    | .error e => .error e
    | .ok (v, pos') =>
      match decodeRowLoop cols bytes pos' with
      | .error e => .error e
      | .ok (vs, pos'') => .ok (v :: vs, pos'')

/-- Decode bytes into a row according to the schema, `row.rs`
`decode_row`: magic check, column count check, per-column loop, and a
trailing-bytes check. -/
def decode_row (schema : Schema) (bytes : List Nat) : InvResult Row :=
  if bytes.length < 4 then .error (.corruption "row.magic" "")
  else if bytes.take 4 ≠ rowMagic then .error (.corruption "row.magic" "")
  else
    match read_var_u64 bytes 4 with
    | .error e => .error e
    | .ok (colCount, pos) =>
      if colCount ≠ schema.columns.length then
        .error (.corruption "row.column_count" "")
      else
        match decodeRowLoop schema.columns bytes pos with
        | .error e => .error e
        | .ok (row, pos') =>
          if pos' ≠ bytes.length then .error (.corruption "row.trailing" "")
          else .ok row

/-- Conformance of a value to a column: the shape matches the column type
(with `Null` only in nullable columns) and the payload is in the value
domain of the Rust types: u32/u64 ranges, i64 range, bytes below 256,
strings valid UTF-8. -/
def Value.conforms (c : Column) : Value → Prop
  | .null => c.nullable = true
  | .u32 n => c.ty = ColType.u32 ∧ n < 2 ^ 32
  | .u64 n => c.ty = ColType.u64 ∧ n < 2 ^ 64
  | .i64 n => c.ty = ColType.i64 ∧ -(2 ^ 63) ≤ n ∧ n < 2 ^ 63
  | .bool _ => c.ty = ColType.bool
  | .bytes bs => c.ty = ColType.bytes ∧ ∀ b ∈ bs, b < 256
  | .string s => c.ty = ColType.string ∧ (∀ b ∈ s, b < 256) ∧
      validUtf8 s = true

/-- Row conformance to a schema: pointwise value conformance. -/
def RowConforms (schema : Schema) (row : Row) : Prop :=
  List.Forall₂ (fun c v => Value.conforms c v) schema.columns row

/-- Size guard satisfied by a value: variable-length payloads fit under
the decoder's `MAX_VAR_LEN` limit. -/
def valueFitsGuard : Value → Prop
  | .bytes bs => bs.length ≤ MAX_VAR_LEN
  | .string s => s.length ≤ MAX_VAR_LEN
  | _ => True

/-!
## Claim C3 — schema validation (corrected)
-/

/-- Success condition of the `Schema::new` per-column loop. -/
theorem schemaNewLoop_ok_iff (cols : List Column) :
    ∀ seen : List String,
      schemaNewLoop cols seen = .ok () ↔
        ((∀ c ∈ cols, c.name ≠ "" ∧ c.name.data.all validNameChar = true) ∧
          (cols.map fun c => c.name).Nodup ∧
          ∀ c ∈ cols, c.name ∉ seen) := by
  induction cols with
  | nil => simp [schemaNewLoop]
  | cons col rest ih =>
    intro seen
    unfold schemaNewLoop
    by_cases h1 : col.name = ""
    · rw [if_pos h1]
      constructor
      · intro contra
        cases contra
      · intro hyp
        exact absurd h1 (hyp.1 col (by simp)).1
    · rw [if_neg h1]
      by_cases h2 : col.name.data.all validNameChar = true
      · rw [if_neg (by simp [h2])]
        by_cases h3 : col.name ∈ seen
        · rw [if_pos h3]
          constructor
          · intro contra
            cases contra
          · intro hyp
            exact absurd h3 (hyp.2.2 col (by simp))
        · rw [if_neg h3]
          rw [ih (col.name :: seen)]
          constructor
          · rintro ⟨ha, hb, hc⟩
            refine ⟨?_, ?_, ?_⟩
            · intro c hc'
              rcases List.mem_cons.mp hc' with rfl | hmem
              · exact ⟨h1, h2⟩
              · exact ha c hmem
            · rw [List.map_cons, List.nodup_cons]
              refine ⟨?_, hb⟩
              intro hmap
              rcases List.mem_map.mp hmap with ⟨c, hcmem, hcname⟩
              exact (hc c hcmem) (by rw [← hcname]; exact List.mem_cons_self _ _)
            · intro c hcmem hmem
              rcases List.mem_cons.mp hcmem with rfl | hmem'
              · exact h3 hmem
              · exact (hc c hmem') (List.mem_cons_of_mem _ hmem)
          · rintro ⟨ha, hb, hc⟩
            refine ⟨?_, ?_, ?_⟩
            · intro c hcmem
              exact ha c (List.mem_cons_of_mem _ hcmem)
            · rw [List.map_cons, List.nodup_cons] at hb
              exact hb.2
            · intro c hcmem hmem
              rcases List.mem_cons.mp hmem with heq | hmem'
              · rw [List.map_cons, List.nodup_cons] at hb
                exact hb.1 (heq ▸ List.mem_map.mpr ⟨c, hcmem, rfl⟩)
              · exact (hc c (List.mem_cons_of_mem _ hcmem)) hmem'
      · rw [if_pos (by simp [h2])]
        constructor
        · intro contra
          cases contra
        · intro hyp
          exact absurd (hyp.1 col (by simp)).2 h2

/-- Success condition of the `encode_schema` per-column loop. -/
theorem encodeSchemaLoop_ok_iff (cols : List Column) :
    (∃ bs, encodeSchemaLoop cols = .ok bs) ↔
      ∀ c ∈ cols, c.name.utf8ByteSize ≤ 64 := by
  induction cols with
  | nil => simp [encodeSchemaLoop]
  | cons col rest ih =>
    unfold encodeSchemaLoop
    by_cases h : col.name.utf8ByteSize > 64
    · rw [if_pos h]
      constructor
      · rintro ⟨bs, hbs⟩
        cases hbs
      · intro hyp
        exact absurd (hyp col (by simp)) (by omega)
    · rw [if_neg h]
      constructor
      · rintro ⟨bs, hbs⟩
        intro c hcmem
        rcases List.mem_cons.mp hcmem with rfl | hmem
        · omega
        · rcases hrest : encodeSchemaLoop rest with e | tail
          · rw [hrest] at hbs
            cases hbs
          · exact (ih.mp ⟨tail, hrest⟩) c hmem
      · intro hyp
        rcases ih.mpr (fun c hc => hyp c (List.mem_cons_of_mem _ hc)) with ⟨tail, htail⟩
        rw [htail]
        exact ⟨_, rfl⟩

/-- C3 counterexample: a 65-character column name is accepted by
`Schema::new`, contradicting the claim that schema validation rejects
names longer than 64 characters. -/
theorem schema_new_accepts_65_char_name :
    Schema.new [⟨String.mk (List.replicate 65 'a'), .u32, false⟩] =
      .ok ⟨[⟨String.mk (List.replicate 65 'a'), .u32, false⟩]⟩ := by rfl

/-- C3 (amended): `Schema::new` rejects empty column lists, empty names,
names with characters outside `[A-Za-z0-9_]`, and duplicate names, and
accepts every column list passing those checks regardless of name length;
the 64-byte name limit is enforced separately by `encode_schema`. -/
theorem schema_new_characterization (cols : List Column) :
    (Schema.new cols = .ok ⟨cols⟩ ↔
      (cols ≠ [] ∧ (∀ c ∈ cols, c.name ≠ "" ∧ c.name.data.all validNameChar = true) ∧
        (cols.map fun c => c.name).Nodup)) ∧
    ((∃ bs, encode_schema ⟨cols⟩ = .ok bs) ↔
      ∀ c ∈ cols, c.name.utf8ByteSize ≤ 64) := by
  constructor
  · unfold Schema.new
    by_cases hemp : cols = []
    · rw [if_pos hemp]
      constructor
      · intro contra
        cases contra
      · intro hyp
        exact absurd hemp hyp.1
    · rw [if_neg hemp]
      rcases hloop : schemaNewLoop cols [] with e | u
      · constructor
        · intro contra
          cases contra
        · intro hyp
          have := (schemaNewLoop_ok_iff cols []).mpr ⟨hyp.2.1, hyp.2.2, by simp⟩
          rw [hloop] at this
          cases this
      · have := (schemaNewLoop_ok_iff cols []).mp (by rw [hloop])
        constructor
        · intro _
          exact ⟨hemp, this.1, this.2.1⟩
        · intro _
          rfl
  · unfold encode_schema
    rcases hloop : encodeSchemaLoop cols with e | body
    · constructor
      · rintro ⟨bs, hbs⟩
        cases hbs
      · intro hyp
        rcases (encodeSchemaLoop_ok_iff cols).mpr hyp with ⟨tail, htail⟩
        rw [hloop] at htail
        cases htail
    · constructor
      · intro _
        exact (encodeSchemaLoop_ok_iff cols).mp ⟨body, hloop⟩
      · intro _
        exact ⟨_, rfl⟩

/-!
## Byte-stream composition lemmas
-/

/-- Length of a fixed-width little-endian encoding. -/
theorem leBytes_length (w v : Nat) : (leBytes w v).length = w := by
  induction w generalizing v with
  | zero => rfl
  | succ w ih => simp [leBytes, ih]

/-- Value of a fixed-width little-endian encoding. -/
theorem leValue_leBytes (w v : Nat) : leValue (leBytes w v) = v % 256 ^ w := by
  induction w generalizing v with
  | zero => simp [leBytes, leValue, Nat.mod_one]
  | succ w ih =>
    simp only [leBytes, leValue, ih]
    rw [pow_succ, Nat.mul_comm (256 ^ w) 256, Nat.mod_mul]
    omega

/-- Element lookup at the boundary of an append. -/
theorem getD_boundary (pre l : List Nat) (d : Nat) :
    (pre ++ l).getD pre.length d = l.getD 0 d := by
  rw [List.getD_append_right pre l d pre.length (Nat.le_refl _), Nat.sub_self]

/-- Reading a varint placed directly after an arbitrary prefix. -/
theorem read_var_u64_append (pre rest : List Nat) (v : Nat) (h : v < 2 ^ 64) :
    read_var_u64 (pre ++ (write_var_u64 v ++ rest)) pre.length =
      .ok (v, pre.length + (write_var_u64 v).length) := by
  unfold read_var_u64
  rw [List.drop_left]
  have hmain := readVarLoop_write v 0 0 rest (by norm_num) (by norm_num)
    (by simpa using h)
  norm_num at hmain
  rw [hmain]

/-- Reading a u32 placed directly after an arbitrary prefix. -/
theorem read_u32_le_append (pre rest : List Nat) (n : Nat) (h : n < 2 ^ 32) :
    read_u32_le (pre ++ (write_u32_le n ++ rest)) pre.length =
      .ok (n, pre.length + 4) := by
  unfold read_u32_le write_u32_le
  rw [if_neg]
  · rw [List.drop_left, List.take_left' (leBytes_length 4 n), leValue_leBytes]
    rw [show (256 : Nat) ^ 4 = 4294967296 from by norm_num]
    rw [Nat.mod_eq_of_lt (by norm_num at h; omega)]
  · rw [List.length_append, List.length_append, leBytes_length]
    omega

/-- Reading a u64 placed directly after an arbitrary prefix. -/
theorem read_u64_le_append (pre rest : List Nat) (n : Nat) (h : n < 2 ^ 64) :
    read_u64_le (pre ++ (write_u64_le n ++ rest)) pre.length =
      .ok (n, pre.length + 8) := by
  unfold read_u64_le write_u64_le
  rw [if_neg]
  · rw [List.drop_left, List.take_left' (leBytes_length 8 n), leValue_leBytes]
    rw [show (256 : Nat) ^ 8 = 18446744073709551616 from by norm_num]
    rw [Nat.mod_eq_of_lt (by norm_num at h; omega)]
  · rw [List.length_append, List.length_append, leBytes_length]
    omega

/-- Reading a length-prefixed byte string placed directly after an
arbitrary prefix. -/
theorem read_bytes_append (pre rest bs : List Nat) (mx : Nat)
    (hlen : bs.length ≤ mx) (h64 : bs.length < 2 ^ 64) :
    read_bytes (pre ++ (write_bytes bs ++ rest)) pre.length mx =
      .ok (bs, pre.length + (write_var_u64 bs.length).length + bs.length) := by
  unfold read_bytes write_bytes
  rw [List.append_assoc (write_var_u64 bs.length) bs rest]
  rw [read_var_u64_append pre (bs ++ rest) bs.length h64]
  dsimp only
  rw [if_neg (by omega)]
  rw [if_neg]
  · rw [show pre ++ (write_var_u64 bs.length ++ (bs ++ rest)) =
        (pre ++ write_var_u64 bs.length) ++ (bs ++ rest) from by
      rw [List.append_assoc]]
    rw [show pre.length + (write_var_u64 bs.length).length =
        (pre ++ write_var_u64 bs.length).length from by
      rw [List.length_append]]
    rw [List.drop_left, List.take_left]
  · simp only [List.length_append]
    omega

/-- Regrouping a tag byte onto the prefix. -/
theorem cons_regroup (pre : List Nat) (a : Nat) (X rest : List Nat) :
    pre ++ ((a :: X) ++ rest) = (pre ++ [a]) ++ (X ++ rest) := by
  simp

/-- Conforming values encode successfully and decode back to themselves at
any position in a byte stream. -/
theorem decodeValue_encodeValue (c : Column) (v : Value)
    (hconf : Value.conforms c v) (hfit : valueFitsGuard v) :
    ∃ e, encodeValue c v = .ok e ∧ e ≠ [] ∧
      ∀ pre rest, decodeValue c (pre ++ (e ++ rest)) pre.length =
        .ok (v, pre.length + e.length) := by
  obtain ⟨nm, ty, nb⟩ := c
  cases v with
  | null =>
    have hnb : nb = true := hconf
    subst hnb
    refine ⟨[0], by cases ty <;> rfl, by simp, ?_⟩
    intro pre rest
    unfold decodeValue
    rw [if_neg (by simp)]
    dsimp only
    have htag : (pre ++ ([0] ++ rest)).getD pre.length 0 = 0 := by
      rw [getD_boundary]; rfl
    rw [htag]
    simp [valueMatchesType]
  | u32 n =>
    obtain ⟨hty, hn⟩ := hconf
    subst hty
    refine ⟨1 :: write_u32_le n, rfl, by simp, ?_⟩
    intro pre rest
    unfold decodeValue
    rw [if_neg (by simp)]
    dsimp only
    have htag : (pre ++ ((1 :: write_u32_le n) ++ rest)).getD pre.length 0 = 1 := by
      rw [getD_boundary]; rfl
    rw [htag]
    rw [cons_regroup]
    rw [show pre.length + 1 = (pre ++ [1]).length from by simp]
    rw [read_u32_le_append (pre ++ [1]) rest n hn]
    simp [valueMatchesType, write_u32_le, leBytes_length]
  | u64 n =>
    obtain ⟨hty, hn⟩ := hconf
    subst hty
    refine ⟨2 :: write_u64_le n, rfl, by simp, ?_⟩
    intro pre rest
    unfold decodeValue
    rw [if_neg (by simp)]
    dsimp only
    have htag : (pre ++ ((2 :: write_u64_le n) ++ rest)).getD pre.length 0 = 2 := by
      rw [getD_boundary]; rfl
    rw [htag]
    rw [cons_regroup]
    rw [show pre.length + 1 = (pre ++ [2]).length from by simp]
    rw [read_u64_le_append (pre ++ [2]) rest n hn]
    simp [valueMatchesType, write_u64_le, leBytes_length]
  | i64 n =>
    obtain ⟨hty, hlo, hhi⟩ := hconf
    subst hty
    refine ⟨3 :: leBytes 8 (twosComp64 n), rfl, by simp, ?_⟩
    intro pre rest
    unfold decodeValue
    rw [if_neg (by simp)]
    dsimp only
    have htag : (pre ++ ((3 :: leBytes 8 (twosComp64 n)) ++ rest)).getD pre.length 0 = 3 := by
      rw [getD_boundary]; rfl
    rw [htag]
    rw [cons_regroup]
    rw [show pre.length + 1 = (pre ++ [3]).length from by simp]
    have htc : twosComp64 n < 2 ^ 64 := by
      unfold twosComp64
      omega
    rw [show leBytes 8 (twosComp64 n) ++ rest = write_u64_le (twosComp64 n) ++ rest
      from rfl]
    rw [read_u64_le_append (pre ++ [3]) rest (twosComp64 n) htc]
    have hft : fromTwos64 (twosComp64 n) = n := by
      unfold fromTwos64 twosComp64
      split <;> omega
    simp [hft, valueMatchesType, write_u64_le, leBytes_length]
  | bool b =>
    have hty : ty = ColType.bool := hconf
    subst hty
    refine ⟨[4, if b then 1 else 0], rfl, by simp, ?_⟩
    intro pre rest
    cases b
    · unfold decodeValue
      rw [if_neg (by simp)]
      dsimp only
      rw [show (if false = true then (1 : Nat) else 0) = 0 from rfl]
      have htag : (pre ++ (([4, 0]) ++ rest)).getD pre.length 0 = 4 := by
        rw [getD_boundary]; rfl
      have hpay : (pre ++ (([4, 0]) ++ rest)).getD (pre.length + 1) 0 = 0 := by
        rw [show pre ++ (([4, 0]) ++ rest) = (pre ++ [4]) ++ ([0] ++ rest)
          from by simp]
        rw [show pre.length + 1 = (pre ++ [4]).length from by simp]
        rw [getD_boundary]; rfl
      rw [htag, hpay]
      have hbound : ¬ (pre.length + 1 ≥ (pre ++ (([4, 0]) ++ rest)).length) := by
        simp
      simp [valueMatchesType, hbound]
    · unfold decodeValue
      rw [if_neg (by simp)]
      dsimp only
      rw [show (if true = true then (1 : Nat) else 0) = 1 from rfl]
      have htag : (pre ++ (([4, 1]) ++ rest)).getD pre.length 0 = 4 := by
        rw [getD_boundary]; rfl
      have hpay : (pre ++ (([4, 1]) ++ rest)).getD (pre.length + 1) 0 = 1 := by
        rw [show pre ++ (([4, 1]) ++ rest) = (pre ++ [4]) ++ ([1] ++ rest)
          from by simp]
        rw [show pre.length + 1 = (pre ++ [4]).length from by simp]
        rw [getD_boundary]; rfl
      rw [htag, hpay]
      have hbound : ¬ (pre.length + 1 ≥ (pre ++ (([4, 1]) ++ rest)).length) := by
        simp
      simp [valueMatchesType, hbound]
  | bytes bs =>
    obtain ⟨hty, hbytes⟩ := hconf
    subst hty
    refine ⟨5 :: write_bytes bs, rfl, by simp, ?_⟩
    intro pre rest
    unfold decodeValue
    rw [if_neg (by simp)]
    dsimp only
    have htag : (pre ++ ((5 :: write_bytes bs) ++ rest)).getD pre.length 0 = 5 := by
      rw [getD_boundary]; rfl
    rw [htag]
    rw [cons_regroup]
    rw [show pre.length + 1 = (pre ++ [5]).length from by simp]
    have hfit' : bs.length ≤ MAX_VAR_LEN := hfit
    rw [read_bytes_append (pre ++ [5]) rest bs MAX_VAR_LEN hfit'
      (by unfold MAX_VAR_LEN at hfit'; omega)]
    simp [valueMatchesType, write_bytes]
    omega
  | string s =>
    obtain ⟨hty, hbytes, hutf⟩ := hconf
    subst hty
    refine ⟨6 :: write_bytes s, rfl, by simp, ?_⟩
    intro pre rest
    unfold decodeValue
    rw [if_neg (by simp)]
    dsimp only
    have htag : (pre ++ ((6 :: write_bytes s) ++ rest)).getD pre.length 0 = 6 := by
      rw [getD_boundary]; rfl
    rw [htag]
    rw [cons_regroup]
    rw [show pre.length + 1 = (pre ++ [6]).length from by simp]
    have hfit' : s.length ≤ MAX_VAR_LEN := hfit
    rw [read_bytes_append (pre ++ [6]) rest s MAX_VAR_LEN hfit'
      (by unfold MAX_VAR_LEN at hfit'; omega)]
    simp [hutf, valueMatchesType, write_bytes]
    omega

/-- Conforming rows encode successfully column by column, and the decoding
loop consumes exactly the encoded bytes and restores the values. -/
theorem decodeRowLoop_encodeRowLoop (cols : List Column) (vals : List Value)
    (hconf : List.Forall₂ (fun c v => Value.conforms c v) cols vals) :
    (∀ v ∈ vals, valueFitsGuard v) →
    ∃ body, encodeRowLoop (cols.zip vals) = .ok body ∧
      ∀ pre rest, decodeRowLoop cols (pre ++ (body ++ rest)) pre.length =
        .ok (vals, pre.length + body.length) := by
  induction hconf with
  | nil =>
    intro _
    exact ⟨[], rfl, fun pre rest => by simp [decodeRowLoop]⟩
  | @cons c v cols' vals' hcv htail ih =>
    intro hfit
    obtain ⟨e, henc, hene, hdec⟩ :=
      decodeValue_encodeValue c v hcv (hfit v (by simp))
    obtain ⟨body, hbody, hdecloop⟩ :=
      ih (fun w hw => hfit w (List.mem_cons_of_mem _ hw))
    refine ⟨e ++ body, ?_, ?_⟩
    · rw [show (c :: cols').zip (v :: vals') = (c, v) :: cols'.zip vals' from rfl]
      unfold encodeRowLoop
      rw [henc]
      dsimp only
      rw [hbody]
    · intro pre rest
      unfold decodeRowLoop
      rw [show pre ++ ((e ++ body) ++ rest) = pre ++ (e ++ (body ++ rest))
        from by simp]
      rw [hdec pre (body ++ rest)]
      dsimp only
      rw [show pre ++ (e ++ (body ++ rest)) = (pre ++ e) ++ (body ++ rest)
        from by simp]
      rw [show pre.length + e.length = (pre ++ e).length from by simp]
      rw [hdecloop (pre ++ e) rest]
      simp
      omega

/-- C4 (amended): for every schema `S` and row `R` conforming to `S` whose
variable-length values fit under the decoder's 1 MiB guard,
`decode_row S (encode_row S R) = R` and re-encoding the decoded row
reproduces the same bytes. -/
theorem encode_decode_row_roundtrip (S : Schema) (R : Row)
    (hconf : RowConforms S R) (hfit : ∀ v ∈ R, valueFitsGuard v)
    (hcols : S.columns.length < 2 ^ 64) :
    ∃ enc, encode_row S R = .ok enc ∧ decode_row S enc = .ok R ∧
      ∀ R2, decode_row S enc = .ok R2 → encode_row S R2 = .ok enc := by
  obtain ⟨body, hbody, hdec⟩ := decodeRowLoop_encodeRowLoop S.columns R hconf hfit
  have hlen : S.columns.length = R.length := List.Forall₂.length_eq hconf
  have hencfull : encode_row S R =
      .ok (rowMagic ++ write_var_u64 S.columns.length ++ body) := by
    unfold encode_row
    rw [if_neg (by omega), hbody]
  have hdecfull :
      decode_row S (rowMagic ++ write_var_u64 S.columns.length ++ body) =
        .ok R := by
    unfold decode_row
    rw [if_neg (by
      simp only [List.length_append, List.length_cons, List.length_nil, rowMagic]
      omega)]
    rw [if_neg (by
      rw [List.append_assoc, List.take_left' (show rowMagic.length = 4 from rfl)]
      simp)]
    rw [List.append_assoc]
    rw [show (4 : Nat) = rowMagic.length from rfl]
    rw [read_var_u64_append rowMagic body S.columns.length hcols]
    dsimp only
    rw [if_neg (by simp)]
    rw [show rowMagic ++ (write_var_u64 S.columns.length ++ body) =
        (rowMagic ++ write_var_u64 S.columns.length) ++ (body ++ []) from by simp]
    rw [show rowMagic.length + (write_var_u64 S.columns.length).length =
        (rowMagic ++ write_var_u64 S.columns.length).length from
      (List.length_append _ _).symm]
    rw [hdec (rowMagic ++ write_var_u64 S.columns.length) []]
    dsimp only
    rw [if_neg (by simp; omega)]
  exact ⟨_, hencfull, hdecfull, fun R2 h => by
    rw [hdecfull] at h
    injection h with h2
    rw [← h2]
    exact hencfull⟩

/-- Witness for C4 on a two-column schema with a u32 and a nullable string
column. -/
theorem encode_decode_row_roundtrip_witness :
    ∃ enc,
      encode_row ⟨[⟨"age", ColType.u32, false⟩, ⟨"name", ColType.string, true⟩]⟩
          [Value.u32 20, Value.string [107, 97]] = .ok enc ∧
      decode_row ⟨[⟨"age", ColType.u32, false⟩, ⟨"name", ColType.string, true⟩]⟩
          enc = .ok [Value.u32 20, Value.string [107, 97]] ∧
      ∀ R2,
        decode_row ⟨[⟨"age", ColType.u32, false⟩, ⟨"name", ColType.string, true⟩]⟩
            enc = .ok R2 →
        encode_row ⟨[⟨"age", ColType.u32, false⟩, ⟨"name", ColType.string, true⟩]⟩
            R2 = .ok enc :=
  encode_decode_row_roundtrip _ _
    (List.Forall₂.cons ⟨rfl, by norm_num⟩
      (List.Forall₂.cons ⟨rfl, by decide, by decide⟩ List.Forall₂.nil))
    (by
      intro v hv
      simp only [List.mem_cons, List.not_mem_nil, or_false] at hv
      rcases hv with rfl | rfl
      · trivial
      · show (2 : Nat) ≤ MAX_VAR_LEN
        norm_num [MAX_VAR_LEN])
    (by norm_num)

/-- Generic failure of `read_bytes` when the length prefix exceeds the
guard. -/
theorem read_bytes_too_large (input : List Nat) (pos mx len pos1 : Nat)
    (hrv : read_var_u64 input pos = .ok (len, pos1)) (hlen : len > mx) :
    read_bytes input pos mx =
      .error (.corruption "encoding.bytes.too_large" "") := by
  unfold read_bytes
  rw [hrv]
  dsimp only
  rw [if_pos hlen]

/-- Generic propagation of a `read_bytes` failure out of a tag-5 (Bytes)
column decode. -/
theorem decodeValue_bytes_err (col : Column) (bytes : List Nat)
    (pos : Nat) (e : InvError)
    (hpos : pos < bytes.length)
    (htag : bytes.getD pos 0 = 5)
    (hrb : read_bytes bytes (pos + 1) MAX_VAR_LEN = .error e) :
    decodeValue col bytes pos = .error e := by
  unfold decodeValue
  rw [if_neg (by omega)]
  dsimp only
  rw [htag]
  rw [if_neg (show (5 : Nat) ≠ 0 from by decide),
    if_neg (show (5 : Nat) ≠ 1 from by decide),
    if_neg (show (5 : Nat) ≠ 2 from by decide),
    if_neg (show (5 : Nat) ≠ 3 from by decide),
    if_neg (show (5 : Nat) ≠ 4 from by decide),
    if_pos (show (5 : Nat) = 5 from rfl)]
  rw [hrb]

/-- Generic propagation of a first-column decode failure out of
`decode_row`. -/
theorem decode_row_first_col_err (S : Schema) (bytes : List Nat)
    (pos : Nat) (e : InvError) (col : Column) (cols2 : List Column)
    (hcols : S.columns = col :: cols2)
    (hlen : ¬ (bytes.length < 4))
    (hmagic : bytes.take 4 = rowMagic)
    (hrv : read_var_u64 bytes 4 = .ok (S.columns.length, pos))
    (hdv : decodeValue col bytes pos = .error e) :
    decode_row S bytes = .error e := by
  unfold decode_row
  rw [if_neg hlen]
  rw [if_neg (by rw [hmagic]; simp)]
  rw [hrv]
  dsimp only
  rw [if_neg (by simp)]
  rw [hcols]
  unfold decodeRowLoop
  rw [hdv]

/-- C4 counterexample: a row that conforms to its schema but whose Bytes
value exceeds the decoder's `MAX_VAR_LEN` guard encodes successfully and
then fails to decode, so the round trip does not hold for every conforming
row as the claim states. -/
theorem decode_encode_row_oversize_fails :
    ∃ enc,
      encode_row ⟨[⟨"payload", ColType.bytes, false⟩]⟩
          [Value.bytes (List.replicate 1048577 0)] = .ok enc ∧
      decode_row ⟨[⟨"payload", ColType.bytes, false⟩]⟩ enc =
        .error (.corruption "encoding.bytes.too_large" "") := by
  refine ⟨rowMagic ++ (write_var_u64 1 ++
    ((5 :: write_bytes (List.replicate 1048577 0)) ++ [])), ?_, ?_⟩
  · exact rfl
  · have hwb : (write_bytes (List.replicate 1048577 (0 : Nat))).length =
        1048580 := by
      unfold write_bytes
      rw [List.length_append, List.length_replicate]
      rw [show (write_var_u64 1048577).length = 3 from rfl]
    have hlenE : (rowMagic ++ (write_var_u64 1 ++
        ((5 :: write_bytes (List.replicate 1048577 0)) ++ []))).length =
        1048586 := by
      rw [List.append_nil, List.length_append, List.length_append,
        List.length_cons, hwb]
      rw [show rowMagic.length = 4 from rfl,
        show (write_var_u64 1).length = 1 from rfl]
    have hrv6 : read_var_u64 (rowMagic ++ (write_var_u64 1 ++
        ((5 :: write_bytes (List.replicate 1048577 0)) ++ []))) (5 + 1) =
        .ok (1048577, (rowMagic ++ write_var_u64 1 ++ [5]).length +
          (write_var_u64 1048577).length) := by
      rw [show rowMagic ++ (write_var_u64 1 ++
          ((5 :: write_bytes (List.replicate 1048577 0)) ++ [])) =
          (rowMagic ++ write_var_u64 1 ++ [5]) ++
            (write_var_u64 1048577 ++ List.replicate 1048577 0) from by
        rw [List.append_nil]
        rw [show write_bytes (List.replicate 1048577 (0 : Nat)) =
            write_var_u64 1048577 ++ List.replicate 1048577 0 from by
          unfold write_bytes
          rw [List.length_replicate]]
        rw [List.append_assoc, List.append_assoc]
        rw [List.singleton_append]]
      rw [show (5 + 1 : Nat) = (rowMagic ++ write_var_u64 1 ++ [5]).length
        from rfl]
      rw [show write_var_u64 1048577 ++ List.replicate 1048577 (0 : Nat) =
          write_var_u64 1048577 ++ (List.replicate 1048577 (0 : Nat) ++ [])
        from by rw [List.append_nil]]
      exact read_var_u64_append _ _ 1048577 (by norm_num)
    have htag : (rowMagic ++ (write_var_u64 1 ++
        ((5 :: write_bytes (List.replicate 1048577 0)) ++ []))).getD 5 0 =
        5 := by
      rw [show rowMagic ++ (write_var_u64 1 ++
          ((5 :: write_bytes (List.replicate 1048577 0)) ++ [])) =
          (rowMagic ++ write_var_u64 1) ++
            ((5 :: write_bytes (List.replicate 1048577 0)) ++ []) from by
        rw [List.append_assoc]]
      rw [List.getD_append_right (rowMagic ++ write_var_u64 1) _ 0 5
        (by rw [show (rowMagic ++ write_var_u64 1).length = 5 from rfl])]
      rw [show (5 : Nat) - (rowMagic ++ write_var_u64 1).length = 0 from rfl]
      exact rfl
    have hrv4 : read_var_u64 (rowMagic ++ (write_var_u64 1 ++
        ((5 :: write_bytes (List.replicate 1048577 0)) ++ []))) 4 =
        .ok (1, 5) := by
      rw [show (4 : Nat) = rowMagic.length from rfl]
      exact read_var_u64_append rowMagic
        ((5 :: write_bytes (List.replicate 1048577 0)) ++ []) 1 (by norm_num)
    exact decode_row_first_col_err _ _ 5 _ _ []
      rfl
      (by rw [hlenE]; omega)
      (by
        rw [show rowMagic ++ (write_var_u64 1 ++
            ((5 :: write_bytes (List.replicate 1048577 0)) ++ [])) =
            rowMagic ++ (write_var_u64 1 ++
              ((5 :: write_bytes (List.replicate 1048577 0)) ++ [])) from rfl]
        rw [show (4 : Nat) = rowMagic.length from rfl]
        exact List.take_left rowMagic _)
      hrv4
      (decodeValue_bytes_err _ _ 5 _ (by rw [hlenE]; omega) htag
        (read_bytes_too_large _ (5 + 1) MAX_VAR_LEN 1048577 _ hrv6
          (by norm_num [MAX_VAR_LEN])))

/-!
## Page, pager and B+-tree model (`page.rs`, `pager.rs`, `btree/`)

State is passed explicitly: a pager is the logical array of page images
plus the root page id.  B-tree pages store the decoded node: the byte
serialization of `node.rs` writes fields at fixed offsets and is injective
on nodes passing `encode_leaf`/`encode_internal` validation, and a byte
image determines `num_keys` together with exactly that many keys and
values (children = `num_keys + 1`), so `nodeDecode` requires the stored
lists to agree with the `num_keys` field — every page written through
`encode_into_page` satisfies this.  Row pages keep their raw 4096-byte
image.  The per-page header fields that the source writes as constants in
`init_header` and never mutates (flags, crc32, reserved words, stored page
id) are explicit for row pages and implicit for structured pages; the file
cache and disk I/O layers are not represented, matching a single-session
in-memory run where every page lives in the cache.
-/

/-- Maximum keys for leaf nodes based on page capacity, `node.rs`
`max_leaf_keys`: `(PAGE_SIZE - PAYLOAD_BASE - 16) / 12 = 338`
(`Nat` subtraction is the source's `saturating_sub`). -/
def max_leaf_keys : Nat := (PAGE_SIZE - PAYLOAD_BASE - 16) / 12

/-- Maximum keys for internal nodes, `node.rs` `max_internal_keys`:
`(PAGE_SIZE - PAYLOAD_BASE - 20) / 8 = 507`. -/
def max_internal_keys : Nat := (PAGE_SIZE - PAYLOAD_BASE - 20) / 8

/-- Decoded leaf node, `node.rs` `LeafNode`. -/
structure LeafNode where
  num_keys : Nat
  next_leaf : Nat
  keys : List Nat
  values : List Nat
deriving DecidableEq, Repr

/-- Decoded internal node, `node.rs` `InternalNode`. -/
structure InternalNode where
  num_keys : Nat
  children : List Nat
  keys : List Nat
deriving DecidableEq, Repr

/-- General node wrapper, `node.rs` `Node`. -/
inductive Node where
  | leaf (l : LeafNode)
  | internal (nd : InternalNode)
deriving DecidableEq, Repr

/-- Page kind for row storage pages, `config.rs` `ROW_PAGE_KIND`. -/
def ROW_PAGE_KIND : Nat := 4

/-- A page image.  The header page (id 0) and the catalog page (id 2) are
opaque to the claims under study; btree pages carry their decoded node,
row pages their raw bytes. -/
inductive PageM where
  | header
  | btreePage (node : Node)
  | metaPage
  | rowPage (buf : List Nat)
deriving DecidableEq, Repr

/-- First byte of a page image, the page-kind byte written by
`Page::init_header` (`page.rs`); the header page starts with the file
magic `b"INVDB"`, so its first byte is 73 (`config.rs` `FILE_MAGIC`). -/
def PageM.kindByte : PageM → Nat
  | .header => 73
  | .btreePage _ => 2
  | .metaPage => 3
  | .rowPage buf => buf.getD 0 0

/-- Pager state: logical page array (index = page id, length = the
source's `page_count`) and the root page id from the file header. -/
structure PagerM where
  pages : List PageM
  root_page_id : Nat
deriving DecidableEq, Repr

/-- `Pager::page_count`. -/
def PagerM.pageCount (p : PagerM) : Nat := p.pages.length

/-- `u32::MAX`, the allocation cap in `pager.rs`. -/
def u32MAX : Nat := 2 ^ 32 - 1

/-- Fetch a page by id, `pager.rs` `Pager::get_page`: bounds check then
the cached image. -/
def PagerM.get_page (p : PagerM) (id : Nat) : InvResult PageM :=
  if id ≥ p.pageCount then .error (.invalidArgument "page_id" "")
  else .ok (p.pages.getD id .header)

/-- Allocate a new btree page by appending, `pager.rs`
`Pager::allocate_btree_page`: overflow check, then a fresh page with kind
2 and an empty-leaf payload (`initialize_empty_leaf_payload`). -/
def PagerM.allocate_btree_page (p : PagerM) : InvResult (Nat × PagerM) :=
  if p.pageCount = u32MAX then .error (.overflow "pager.allocate.page_count")
  else .ok (p.pageCount,
    { p with pages := p.pages ++ [.btreePage (.leaf ⟨0, 0, [], []⟩)] })

/-- `node.rs` `validate_sorted_unique`: adjacent keys must be strictly
increasing. -/
def validate_sorted_unique (keys : List Nat) (context : String) :
    InvResult Unit :=
  match keys with
  | a :: b :: rest =>
    if a ≥ b then .error (.corruption context "")
    else validate_sorted_unique (b :: rest) context
  | _ => .ok ()

/-- Validation part of `node.rs` `encode_leaf`: `num_keys` must match both
array lengths, fit the capacity, and the keys must be strictly sorted. -/
def encode_leaf (l : LeafNode) : InvResult Node :=
  if l.num_keys ≠ l.keys.length ∨ l.num_keys ≠ l.values.length then
    .error (.corruption "btree.encode.leaf.size" "")
  else if l.num_keys > max_leaf_keys then
    .error (.corruption "btree.encode.leaf.size" "")
  else
    match validate_sorted_unique l.keys "btree.leaf.keys_order" with
    | .error e => .error e
    | .ok _ => .ok (.leaf l)

/-- Validation part of `node.rs` `encode_internal`: `num_keys` must match
the key array, children must number `num_keys + 1`, capacity and sorted
order as for leaves. -/
def encode_internal (nd : InternalNode) : InvResult Node :=
  if nd.num_keys ≠ nd.keys.length ∨ nd.children.length ≠ nd.num_keys + 1 then
    .error (.corruption "btree.encode.internal.size" "")
  else if nd.num_keys > max_internal_keys then
    .error (.corruption "btree.encode.internal.size" "")
  else
    match validate_sorted_unique nd.keys "btree.internal.keys_order" with
    | .error e => .error e
    | .ok _ => .ok (.internal nd)

/-- Write a node into a page, `node.rs` `encode_into_page` reached through
`Pager::get_page_mut`: bounds check, page-kind check (byte 0 must be 2),
then the node validation and the overwrite of the payload. -/
def PagerM.encode_into_page (p : PagerM) (id : Nat) (n : Node) :
    InvResult PagerM :=
  if id ≥ p.pageCount then .error (.invalidArgument "page_id" "")
  else if (p.pages.getD id .header).kindByte ≠ 2 then
    .error (.corruption "btree.page_kind" "")
  else
    match (match n with
           | .leaf l => encode_leaf l
           | .internal nd => encode_internal nd) with
    | .error e => .error e
    | .ok stored => .ok { p with pages := p.pages.set id (.btreePage stored) }

/-- Decode and validate a node from a page, `node.rs` `Node::decode`.
The leaf size guard `PAYLOAD_BASE + 16 + 12k > PAGE_SIZE` is exactly
`k > max_leaf_keys`, the internal one exactly `k > max_internal_keys`.
Non-btree pages carry a first payload byte that is neither 1 nor 2
(catalog `"CAT1"`, row `"ROWP"`), failing the node-kind dispatch. -/
def nodeDecode (pg : PageM) (page_count : Nat) : InvResult Node :=
  match pg with
  | .btreePage (.leaf l) =>
    if l.num_keys ≠ l.keys.length ∨ l.num_keys ≠ l.values.length then
      .error (.corruption "btree.leaf.size" "")
    else if PAYLOAD_BASE + 16 + 4 * l.num_keys + 8 * l.num_keys > PAGE_SIZE then
      .error (.corruption "btree.leaf.size" "")
    else if l.next_leaf ≠ 0 ∧ l.next_leaf ≥ page_count then
      .error (.corruption "btree.leaf.next_leaf" "")
    else
      match validate_sorted_unique l.keys "btree.leaf.keys_order" with
      | .error e => .error e
      | .ok _ => .ok (.leaf l)
  | .btreePage (.internal nd) =>
    if nd.num_keys ≠ nd.keys.length ∨ nd.children.length ≠ nd.num_keys + 1 then
      .error (.corruption "btree.internal.size" "")
    else if PAYLOAD_BASE + 16 + 4 * (nd.num_keys + 1) + 4 * nd.num_keys >
        PAGE_SIZE then
      .error (.corruption "btree.internal.size" "")
    else if nd.children.any (fun c => c == 0 || decide (page_count ≤ c)) then
      .error (.corruption "btree.internal.child" "")
    else
      match validate_sorted_unique nd.keys "btree.internal.keys_order" with
      | .error e => .error e
      | .ok _ => .ok (.internal nd)
  | _ => .error (.corruption "btree.node_kind" "")

/-- Depth cap of the search loop, `search.rs` `MAX_DEPTH`. -/
def MAX_DEPTH : Nat := 64

/-- `slice::binary_search` on the strictly sorted key array followed by
value indexing (`search.rs`): on sorted unique keys binary search succeeds
exactly on membership, so the extensionally equal linear scan is used. -/
def leafLookup : List Nat → List Nat → Nat → Option Nat
  | k :: ks, v :: vs, key => if key = k then some v else leafLookup ks vs key
  | _, _, _ => none

/-- Child slot to descend into:
`keys.iter().position(|&k| key < k).unwrap_or(keys.len())`
(`search.rs` and `insert.rs`). -/
def childIndex (keys : List Nat) (key : Nat) : Nat :=
  match keys with
  | [] => 0
  | k :: rest => if key < k then 0 else childIndex rest key + 1

/-- Search loop body, `search.rs` `search_u64`: depth guard, header-page
refusal, page-kind check, decode, then leaf lookup or descent.  The fuel
argument makes the loop total; the depth guard fires strictly before the
fuel runs out, so the fuel branch (same error) is unreachable. -/
def searchLoop (pgr : PagerM) (key : Nat) :
    Nat → Nat → Nat → InvResult (Option Nat)
  | 0, _, _ => .error (.corruption "btree.depth" "")
  | fuel + 1, current, depth =>
    if depth > MAX_DEPTH then .error (.corruption "btree.depth" "")
    else if current = 0 then .error (.corruption "btree.traverse.header" "")
    else
      match pgr.get_page current with
      | .error e => .error e
      | .ok pg =>
        if pg.kindByte ≠ 2 then .error (.corruption "btree.page_kind" "")
        else
          match nodeDecode pg pgr.pageCount with
          | .error e => .error e
          | .ok (.leaf l) => .ok (leafLookup l.keys l.values key)
          | .ok (.internal nd) =>
            searchLoop pgr key fuel
              (nd.children.getD (childIndex nd.keys key) 0) (depth + 1)

/-- Read-only search for a key, `search.rs` `search_u64`. -/
def search_u64 (pgr : PagerM) (root key : Nat) : InvResult (Option Nat) :=
  searchLoop pgr key (MAX_DEPTH + 2) root 0

/-- Outcome of a recursive insert step, `insert.rs` `InsertResult`. -/
inductive InsertResult where
  | noSplit
  | split (promoted_key : Nat) (right : Nat)
deriving DecidableEq, Repr

/-- `slice::binary_search` outcome for the insert path: `.inl idx` when the
key sits at `idx`, `.inr pos` with the insertion position otherwise (the
linear form is extensionally the binary search on sorted unique input). -/
def keySearch : List Nat → Nat → Sum Nat Nat
  | [], _ => .inr 0
  | k :: rest, key =>
    if key = k then .inl 0
    else if key < k then .inr 0
    else
      match keySearch rest key with
      | .inl i => .inl (i + 1)
      | .inr p => .inr (p + 1)

/-- Split an overflowing leaf, `split.rs` `split_leaf`: `mid = total / 2`;
`split_off(mid)` keeps keys below `mid` on the left and moves the rest to
the right; the right half's first key is promoted; the left leaf's
`next_leaf` becomes the freshly allocated right page and the right leaf
inherits the old `next_leaf`.  `right_keys[0]` is `getD 0` here; the
caller only splits nodes with `num_keys > max_leaf_keys`, so the right
half is never empty. -/
def split_leaf (pgr : PagerM) (page_id : Nat) (node : LeafNode) :
    InvResult ((Nat × Nat) × PagerM) :=
  let total := node.num_keys
  let mid := total / 2
  let right_keys := node.keys.drop mid
  let right_values := node.values.drop mid
  let promoted_key := right_keys.getD 0 0
  let right_next := node.next_leaf
  match pgr.allocate_btree_page with
  | .error e => .error e
  | .ok (right_page_id, pgr1) =>
    let right_node : LeafNode :=
      ⟨right_keys.length, right_next, right_keys, right_values⟩
    let left_node : LeafNode :=
      ⟨(node.keys.take mid).length, right_page_id, node.keys.take mid,
        node.values.take mid⟩
    match pgr1.encode_into_page page_id (.leaf left_node) with
    | .error e => .error e
    | .ok pgr2 =>
      match pgr2.encode_into_page right_page_id (.leaf right_node) with
      | .error e => .error e
      | .ok pgr3 => .ok ((promoted_key, right_page_id), pgr3)

/-- Split an overflowing internal node, `split.rs` `split_internal`:
`mid = num_keys / 2`, the key at `mid` is promoted, and `split_off(mid+1)`
leaves the keys and children at indices `0..=mid` in the left node. -/
def split_internal (pgr : PagerM) (page_id : Nat) (node : InternalNode) :
    InvResult ((Nat × Nat) × PagerM) :=
  let total := node.num_keys
  let mid := total / 2
  let promoted_key := node.keys.getD mid 0
  let right_keys := node.keys.drop (mid + 1)
  let right_children := node.children.drop (mid + 1)
  let left_keys := node.keys.take (mid + 1)
  let left_children := node.children.take (mid + 1)
  let right_node : InternalNode :=
    ⟨right_keys.length, right_children, right_keys⟩
  let left_node : InternalNode :=
    ⟨left_keys.length, left_children, left_keys⟩
  match pgr.allocate_btree_page with
  | .error e => .error e
  | .ok (right_page_id, pgr1) =>
    match pgr1.encode_into_page page_id (.internal left_node) with
    | .error e => .error e
    | .ok pgr2 =>
      match pgr2.encode_into_page right_page_id (.internal right_node) with
      | .error e => .error e
      | .ok pgr3 => .ok ((promoted_key, right_page_id), pgr3)

/-- Recursive insertion, `insert.rs` `insert_into`: decode the node;
leaves overwrite on a hit or insert at the binary-search position and
split past capacity; internal nodes descend into the child slot, then
absorb a promoted key or split in turn.  The source recursion descends one
page per call, so the same fuel bound as the search loop covers every tree
the search accepts, and the reachability invariant keeps the height far
below it; the fuel-exhaustion branch is never taken on reachable
states. -/
def insertInto (key value : Nat) :
    Nat → PagerM → Nat → InvResult (InsertResult × PagerM)
  | 0, _, _ => .error (.corruption "btree.depth" "")
  | fuel + 1, pgr, page_id =>
    match pgr.get_page page_id with
    | .error e => .error e
    | .ok pg =>
      match nodeDecode pg pgr.pageCount with
      | .error e => .error e
      | .ok (.leaf l) =>
        match keySearch l.keys key with
        | .inl idx =>
          match pgr.encode_into_page page_id
              (.leaf { l with values := l.values.set idx value }) with
          | .error e => .error e
          | .ok pgr1 => .ok (.noSplit, pgr1)
        | .inr pos =>
          let l1 : LeafNode :=
            ⟨l.num_keys + 1, l.next_leaf, l.keys.insertIdx pos key,
              l.values.insertIdx pos value⟩
          if l1.num_keys ≤ max_leaf_keys then
            match pgr.encode_into_page page_id (.leaf l1) with
            | .error e => .error e
            | .ok pgr1 => .ok (.noSplit, pgr1)
          else
            match split_leaf pgr page_id l1 with
            | .error e => .error e
            | .ok ((pk, right), pgr1) => .ok (.split pk right, pgr1)
      | .ok (.internal nd) =>
        let idx := childIndex nd.keys key
        let child_id := nd.children.getD idx 0
        match insertInto key value fuel pgr child_id with
        | .error e => .error e
        | .ok (.noSplit, pgr1) => .ok (.noSplit, pgr1)
        | .ok (.split pk right, pgr1) =>
          let nd1 : InternalNode :=
            ⟨nd.num_keys + 1, nd.children.insertIdx (idx + 1) right,
              nd.keys.insertIdx idx pk⟩
          if nd1.num_keys ≤ max_internal_keys then
            match pgr1.encode_into_page page_id (.internal nd1) with
            | .error e => .error e
            | .ok pgr2 => .ok (.noSplit, pgr2)
          else
            match split_internal pgr1 page_id nd1 with
            | .error e => .error e
            | .ok ((pk2, right2), pgr2) => .ok (.split pk2 right2, pgr2)

/-- Top-level insert, `insert.rs` `insert_u64`: on a root split, allocate
a new root holding the promoted key over the old root and the new right
page. -/
def insert_u64 (pgr : PagerM) (root key value : Nat) :
    InvResult (Nat × PagerM) :=
  match insertInto key value (MAX_DEPTH + 2) pgr root with
  | .error e => .error e
  | .ok (.noSplit, pgr1) => .ok (root, pgr1)
  | .ok (.split pk right, pgr1) =>
    match pgr1.allocate_btree_page with
    | .error e => .error e
    | .ok (new_root_id, pgr2) =>
      match pgr2.encode_into_page new_root_id
          (.internal ⟨1, [root, right], [pk]⟩) with
      | .error e => .error e
      | .ok pgr3 => .ok (new_root_id, pgr3)

/-- Update the root page id, `pager.rs` `Pager::set_root_page_id`. -/
def PagerM.set_root_page_id (p : PagerM) (new_root : Nat) :
    InvResult PagerM :=
  if new_root = 0 ∨ new_root ≥ p.pageCount then
    .error (.corruption "header.root_page_id" "")
  else .ok { p with root_page_id := new_root }

/-- `Db::put_u64` (`lib.rs`): insert through the current root, persisting
a root change. -/
def put_u64 (pgr : PagerM) (key value : Nat) : InvResult PagerM :=
  match insert_u64 pgr pgr.root_page_id key value with
  | .error e => .error e
  | .ok (new_root, pgr1) =>
    if new_root ≠ pgr.root_page_id then pgr1.set_root_page_id new_root
    else .ok pgr1

/-- `Db::get_u64` (`lib.rs`): search from the current root. -/
def get_u64 (pgr : PagerM) (key : Nat) : InvResult (Option Nat) :=
  search_u64 pgr pgr.root_page_id key

/-- Pager state after `Pager::create` (`pager.rs`): header page, empty
leaf root at page 1, catalog page at 2, root id 1. -/
def freshPager : PagerM :=
  { pages := [.header, .btreePage (.leaf ⟨0, 0, [], []⟩), .metaPage],
    root_page_id := 1 }

/-- Run a sequence of `put_u64` calls from a fresh database, stopping at
the first error. -/
def runPuts (ps : List (Nat × Nat)) : InvResult PagerM :=
  ps.foldlM (fun st kv => put_u64 st kv.1 kv.2) freshPager

/-- The value of the most recent put for `k` in a call sequence (later
list entries are later calls), or `none` if `k` was never put. -/
def lastValue (ps : List (Nat × Nat)) (k : Nat) : Option Nat :=
  match ps with
  | [] => none
  | (a, b) :: rest =>
    match lastValue rest k with
    | some v => some v
    | none => if k = a then some b else none

/-!
## Row storage (`rowstore.rs`) and table access (`table.rs`)

Row pages keep their full 4096-byte image; reads and writes happen at the
absolute offsets of the source (`free_offset` at bytes 22..23, payload
magic at 16..19, row data from offset 32 up).
-/

/-- Bytes `off..off+n` of a buffer (`&buf[off..off+n]`). -/
def bytesAt (buf : List Nat) (off n : Nat) : List Nat :=
  (buf.drop off).take n

/-- Little-endian integer read at an offset (`uN::from_le_bytes`). -/
def readLE (buf : List Nat) (off n : Nat) : Nat :=
  leValue (bytesAt buf off n)

/-- `copy_from_slice` into a buffer at `off`, writing `data.length`
bytes. -/
def writeAt (buf : List Nat) (off : Nat) (data : List Nat) : List Nat :=
  buf.take off ++ data ++ buf.drop (off + data.length)

/-- Per-page header validation on a raw image, `page.rs`
`Page::validate_header`: flags, reserved, crc32, stored page id,
reserved2. -/
def validate_header_bytes (buf : List Nat) (id : Nat) : InvResult Unit :=
  if buf.getD 1 0 ≠ 0 then .error (.unsupported "page.flags")
  else if readLE buf 2 2 ≠ 0 then .error (.corruption "page.reserved" "")
  else if readLE buf 4 4 ≠ 0 then .error (.unsupported "page.crc32")
  else if readLE buf 8 4 ≠ id then .error (.corruption "page.page_id" "")
  else if readLE buf 12 4 ≠ 0 then .error (.corruption "page.reserved2" "")
  else .ok ()

/-- Row page payload magic `"ROWP"`. -/
def rowpMagic : List Nat := [82, 79, 87, 80]

/-- Row page payload validation, `rowstore.rs`
`validate_row_page_header`: magic, version 1, the two reserved words, and
the `free_offset` range `32..=PAGE_SIZE`. -/
def validate_row_page_header (buf : List Nat) : InvResult Unit :=
  if bytesAt buf 16 4 ≠ rowpMagic then .error (.corruption "rowpage.magic" "")
  else if readLE buf 20 2 ≠ 1 then .error (.unsupported "rowpage.version")
  else if readLE buf 24 4 ≠ 0 then .error (.unsupported "rowpage.reserved")
  else if readLE buf 28 4 ≠ 0 then .error (.unsupported "rowpage.reserved2")
  else
    let free := readLE buf 22 2
    if free < 32 ∨ free > PAGE_SIZE then
      .error (.corruption "rowpage.free_offset" "")
    else .ok ()

/-- Byte image of a freshly allocated row page: `Page::new_zeroed`, then
`init_header(ROW_PAGE_KIND)` (kind 4 at byte 0, the page id at bytes
8..11), then `initialize_empty_row_page_payload` (`pager.rs`): `"ROWP"`,
version 1, `free_offset` 32. -/
def freshRowPageBuf (id : Nat) : List Nat :=
  [4, 0, 0, 0, 0, 0, 0, 0] ++ leBytes 4 id ++ [0, 0, 0, 0] ++
    (rowpMagic ++ [1, 0] ++ leBytes 2 32 ++ [0, 0, 0, 0, 0, 0, 0, 0]) ++
    List.replicate (PAGE_SIZE - 32) 0

/-- Allocate a new row page by appending, `pager.rs`
`Pager::allocate_row_page`. -/
def PagerM.allocate_row_page (p : PagerM) : InvResult (Nat × PagerM) :=
  if p.pageCount = u32MAX then .error (.overflow "pager.allocate.page_count")
  else .ok (p.pageCount,
    { p with pages := p.pages ++ [.rowPage (freshRowPageBuf p.pageCount)] })

/-- Read a row page's free offset, `rowstore.rs`
`RowStore::read_free_offset`: kind byte, page header, row page header,
then the bounded `free_offset` at bytes 22..23. -/
def PagerM.read_free_offset (p : PagerM) (page_id : Nat) : InvResult Nat :=
  match p.get_page page_id with
  | .error e => .error e
  | .ok pg =>
    match pg with
    | .rowPage buf =>
      if buf.getD 0 0 ≠ ROW_PAGE_KIND then
        .error (.corruption "rowpage.kind" "")
      else
        match validate_header_bytes buf page_id with
        | .error e => .error e
        | .ok _ =>
          match validate_row_page_header buf with
          | .error e => .error e
          | .ok _ =>
            let free := readLE buf 22 2
            if free < 32 ∨ free > PAGE_SIZE then
              .error (.corruption "rowpage.free_offset" "")
            else .ok free
    | _ => .error (.corruption "rowpage.kind" "")

/-- Target-page resolution of `RowStore::append_row` (`rowstore.rs` lines
78..91): take the table's last row page or allocate one, then allocate a
fresh page if the current one cannot fit `2 + row_bytes.len()` more
bytes. -/
def appendRowResolve (pgr : PagerM) (table_last_row_page : Nat)
    (row_bytes : List Nat) : InvResult (Nat × PagerM) :=
  match (if table_last_row_page = 0 then pgr.allocate_row_page
         else .ok (table_last_row_page, pgr)) with
  | .error e => .error e
  | .ok (target, pgr1) =>
    match pgr1.read_free_offset target with
    | .error e => .error e
    | .ok free =>
      if free + (2 + row_bytes.length) > PAGE_SIZE then
        match pgr1.allocate_row_page with
        | .error e => .error e
        | .ok (t2, pgr2) => .ok (t2, pgr2)
      else .ok (target, pgr1)

/-- Write body of `RowStore::append_row` (`rowstore.rs` lines 93..126)
once the target page is resolved: re-read the free offset, check the
capacity, write the u16 length then the row bytes, bump `free_offset`
(`write_free_offset` checks it stays within the page), and return the
pointer `(page, free + 2, len)` with the updated tail page. -/
def appendRowWrite (pgr : PagerM) (target : Nat) (row_bytes : List Nat) :
    InvResult ((RowPtr × Nat) × PagerM) :=
  match pgr.read_free_offset target with
  | .error e => .error e
  | .ok free =>
    let needed := 2 + row_bytes.length
    if free + needed > PAGE_SIZE then
      .error (.corruption "rowpage.free_offset" "")
    else
      match pgr.get_page target with
      | .error e => .error e
      | .ok pg =>
        match pg with
        | .rowPage buf =>
          if row_bytes.length ≥ 2 ^ 16 then .error (.unsupported "row.too_large")
          else
            let buf1 := writeAt buf free (leBytes 2 row_bytes.length)
            let buf2 := writeAt buf1 (free + 2) row_bytes
            let new_free := free + needed
            if new_free > PAGE_SIZE then
              .error (.corruption "rowpage.free_offset" "")
            else
              let buf3 := writeAt buf2 22 (leBytes 2 new_free)
              let ptr : RowPtr := ⟨target, free + 2, row_bytes.length⟩
              .ok ((ptr, target),
                { pgr with pages := pgr.pages.set target (.rowPage buf3) })
        | _ => .error (.corruption "rowpage.kind" "")

/-- Append a row, `rowstore.rs` `RowStore::append_row`: the 3500-byte hard
cap surfaces as `Unsupported`, then target resolution and the write
body. -/
def append_row (pgr : PagerM) (table_last_row_page : Nat)
    (row_bytes : List Nat) : InvResult ((RowPtr × Nat) × PagerM) :=
  if row_bytes.length > 3500 then .error (.unsupported "row.too_large")
  else
    match appendRowResolve pgr table_last_row_page row_bytes with
    | .error e => .error e
    | .ok (target, pgr1) => appendRowWrite pgr1 target row_bytes

/-- Read row bytes from a pointer, `rowstore.rs` `RowStore::read_row`:
pointer validation, kind byte, headers, the stored-length cross-check two
bytes before the row, the end bound, then the row slice. -/
def read_row (pgr : PagerM) (ptr : RowPtr) : InvResult (List Nat) :=
  match ptr.validate with
  | .error e => .error e
  | .ok _ =>
    match pgr.get_page ptr.page_id with
    | .error e => .error e
    | .ok pg =>
      match pg with
      | .rowPage buf =>
        if buf.getD 0 0 ≠ ROW_PAGE_KIND then
          .error (.corruption "rowpage.kind" "")
        else
          match validate_header_bytes buf ptr.page_id with
          | .error e => .error e
          | .ok _ =>
            match validate_row_page_header buf with
            | .error e => .error e
            | .ok _ =>
              if ptr.offset < 2 then .error (.corruption "rowptr.invalid" "")
              else if ptr.offset - 2 + 2 > buf.length then
                .error (.corruption "rowpage.len_mismatch" "")
              else if readLE buf (ptr.offset - 2) 2 ≠ ptr.len then
                .error (.corruption "rowpage.len_mismatch" "")
              else if ptr.offset + ptr.len > buf.length then
                .error (.corruption "rowptr.invalid" "")
              else .ok (bytesAt buf ptr.offset ptr.len)
      | _ => .error (.corruption "rowpage.kind" "")

/-- Table definition entry, `catalog.rs` `TableDef`. -/
structure TableDefM where
  id : Nat
  name : String
  schema : Schema
  next_pk : Nat
  last_row_page : Nat

/-- Catalog of tables, `catalog.rs` `Catalog`. -/
structure CatalogM where
  tables : List TableDefM

/-- `table.rs` `find_table`: first table with the given name. -/
def find_table (cat : CatalogM) (name : String) : InvResult TableDefM :=
  match cat.tables.find? (fun t => t.name == name) with
  | some t => .ok t
  | none => .error (.invalidArgument "table" "")

/-- Fetch a row by primary key, `table.rs` `get_row_by_pk`: composite-key
search, absent on a miss; on a hit, unpack and validate the pointer, load
the stored record, require at least the 4-byte pk prefix and that it
equal `pk` (else the `table.pk_mismatch` corruption), then decode the
rest against the table's schema. -/
def get_row_by_pk (pgr : PagerM) (cat : CatalogM) (table_name : String)
    (pk : Nat) : InvResult (Option Row) :=
  match find_table cat table_name with
  | .error e => .error e
  | .ok table =>
    let composite := composite_key table.id pk
    match search_u64 pgr pgr.root_page_id composite with
    | .error e => .error e
    | .ok none => .ok none
    | .ok (some raw) =>
      let ptr := RowPtr.unpack raw
      match ptr.validate with
      | .error e => .error e
      | .ok _ =>
        match read_row pgr ptr with
        | .error e => .error e
        | .ok stored =>
          if stored.length < 4 then .error (.corruption "table.pk_mismatch" "")
          else if readLE stored 0 4 ≠ pk then
            .error (.corruption "table.pk_mismatch" "")
          else
            match decode_row table.schema (stored.drop 4) with
            | .error e => .error e
            | .ok row => .ok (some row)

/-!
## C1: internal splits can never succeed
-/

/-- C1: the internal split never performs the claimed behaviour.  After
`split_off(mid + 1)` the left node keeps the keys `0..=mid` — including
the promoted key — and the children `0..=mid`, so it holds `mid + 1` keys
but only `mid + 1` children where `encode_internal` demands
`num_keys + 1`; the first encode therefore rejects it, and for every
decodable internal node (`num_keys` matching the arrays, at least one
key) `split_internal` returns the `btree.encode.internal.size` corruption
instead of the promoted key and right page. -/
theorem split_internal_never_succeeds (pgr : PagerM) (page_id : Nat)
    (nd : InternalNode)
    (hk : nd.num_keys = nd.keys.length)
    (hc : nd.children.length = nd.num_keys + 1)
    (h1 : 1 ≤ nd.num_keys)
    (hpc : pgr.pageCount < u32MAX)
    (hid : page_id < pgr.pageCount)
    (hkind : (pgr.pages.getD page_id .header).kindByte = 2) :
    split_internal pgr page_id nd =
      .error (.corruption "btree.encode.internal.size" "") := by
  unfold split_internal PagerM.allocate_btree_page
  rw [if_neg (by omega)]
  dsimp only
  unfold PagerM.encode_into_page
  rw [if_neg (by
    simp only [PagerM.pageCount, List.length_append, List.length_cons,
      List.length_nil] at *
    omega)]
  rw [List.getD_append _ _ _ _ hid, hkind]
  rw [if_neg (by omega)]
  unfold encode_internal
  dsimp only
  rw [if_pos (by
    right
    simp only [List.length_take]
    omega)]

/-- Witness for C1 at a one-key internal root over two children: the
split fails outright. -/
theorem split_internal_never_succeeds_witness :
    split_internal freshPager 1 ⟨1, [1, 2], [10]⟩ =
      .error (.corruption "btree.encode.internal.size" "") :=
  split_internal_never_succeeds freshPager 1 ⟨1, [1, 2], [10]⟩ rfl rfl
    (by decide) (by decide) (by decide) rfl

/-!
## C5: leaf split characterization
-/

/-- `validate_sorted_unique` succeeds exactly on strictly increasing key
arrays. -/
theorem validate_sorted_unique_ok (keys : List Nat) (ctx : String) :
    validate_sorted_unique keys ctx = .ok () ↔ keys.Chain' (· < ·) := by
  induction keys with
  | nil => simp [validate_sorted_unique]
  | cons a rest ih =>
    cases rest with
    | nil => simp [validate_sorted_unique]
    | cons b rest2 =>
      rw [show validate_sorted_unique (a :: b :: rest2) ctx =
          if a ≥ b then .error (.corruption ctx "")
          else validate_sorted_unique (b :: rest2) ctx from rfl]
      rw [List.chain'_cons]
      by_cases hab : a ≥ b
      · rw [if_pos hab]
        constructor
        · intro h
          exact Except.noConfusion h
        · intro h
          exact absurd h.1 (by omega)
      · rw [if_neg hab]
        constructor
        · intro h
          exact ⟨by omega, ih.mp h⟩
        · intro h
          exact ih.mpr h.2

/-- Prefixes of strictly increasing lists are strictly increasing. -/
theorem chain_lt_take (keys : List Nat) (n : Nat)
    (h : keys.Chain' (· < ·)) : (keys.take n).Chain' (· < ·) :=
  List.chain'_iff_pairwise.mpr
    ((List.chain'_iff_pairwise.mp h).sublist (List.take_sublist n keys))

/-- Suffixes of strictly increasing lists are strictly increasing. -/
theorem chain_lt_drop (keys : List Nat) (n : Nat)
    (h : keys.Chain' (· < ·)) : (keys.drop n).Chain' (· < ·) :=
  List.chain'_iff_pairwise.mpr
    ((List.chain'_iff_pairwise.mp h).sublist (List.drop_sublist n keys))

/-- `getD` through `drop`. -/
theorem getD_drop_eq (l : List Nat) (n m d : Nat) :
    (l.drop n).getD m d = l.getD (n + m) d := by
  simp [List.getD_eq_getElem?_getD, List.getElem?_drop]

/-- Setting an index inside the left part of an append. -/
theorem set_append_of_lt {α : Type} (l l2 : List α) (i : Nat) (x : α)
    (h : i < l.length) : (l ++ l2).set i x = l.set i x ++ l2 := by
  induction l generalizing i with
  | nil => exact absurd h (by simp)
  | cons a rest ih =>
    cases i with
    | zero => simp
    | succ n =>
      simp only [List.cons_append, List.set]
      exact congrArg (fun t => a :: t) (ih n (by simpa using h))

/-- Setting the appended element of a snoc. -/
theorem set_append_length {α : Type} (l : List α) (x y : α) :
    (l ++ [x]).set l.length y = l ++ [y] := by
  induction l with
  | nil => rfl
  | cons a rest ih =>
    simp only [List.cons_append, List.length_cons, List.set]
    exact congrArg (fun t => a :: t) ih

/-- Reading the appended element of a snoc. -/
theorem getD_snoc_length {α : Type} (l : List α) (x d : α) :
    (l ++ [x]).getD l.length d = x := by
  rw [List.getD_append_right l [x] d l.length (le_refl _)]
  simp

/-- Reading the appended element after setting inside the original part. -/
theorem getD_set_append {α : Type} (l : List α) (e x d : α) (i : Nat)
    (h : i < l.length) :
    ((l ++ [e]).set i x).getD l.length d = e := by
  rw [set_append_of_lt _ _ _ _ h,
    show l.length = (l.set i x).length from (List.length_set l i x).symm]
  exact getD_snoc_length _ _ _

/-- Combined snoc-set normal form. -/
theorem set_set_append {α : Type} (l : List α) (e x y : α) (i : Nat)
    (h : i < l.length) :
    ((l ++ [e]).set i x).set l.length y = l.set i x ++ [y] := by
  rw [set_append_of_lt _ _ _ _ h,
    show l.length = (l.set i x).length from (List.length_set l i x).symm]
  exact set_append_length _ _ _

/-- A validated leaf encodes into its page: `encode_into_page` stores the
node at the target page when the kind byte is 2 and the node passes
`encode_leaf` validation. -/
theorem encode_into_page_leaf_ok (p : PagerM) (id : Nat) (l : LeafNode)
    (hid : id < p.pageCount)
    (hkind : (p.pages.getD id .header).kindByte = 2)
    (hk : l.num_keys = l.keys.length) (hv : l.num_keys = l.values.length)
    (hcap : l.num_keys ≤ max_leaf_keys)
    (hs : l.keys.Chain' (· < ·)) :
    p.encode_into_page id (.leaf l) =
      .ok { p with pages := p.pages.set id (.btreePage (.leaf l)) } := by
  have hmlk : max_leaf_keys = 338 := rfl
  unfold PagerM.encode_into_page
  rw [if_neg (by omega)]
  rw [hkind]
  rw [if_neg (by omega)]
  dsimp only
  unfold encode_leaf
  rw [if_neg (by omega)]
  rw [if_neg (by omega)]
  rw [(validate_sorted_unique_ok _ _).mpr hs]

/-- A validated internal node encodes into its page, the `encode_internal`
analogue of `encode_into_page_leaf_ok`. -/
theorem encode_into_page_internal_ok (p : PagerM) (id : Nat)
    (nd : InternalNode)
    (hid : id < p.pageCount)
    (hkind : (p.pages.getD id .header).kindByte = 2)
    (hk : nd.num_keys = nd.keys.length)
    (hc : nd.children.length = nd.num_keys + 1)
    (hcap : nd.num_keys ≤ max_internal_keys)
    (hs : nd.keys.Chain' (· < ·)) :
    p.encode_into_page id (.internal nd) =
      .ok { p with pages := p.pages.set id (.btreePage (.internal nd)) } := by
  have hmik : max_internal_keys = 507 := rfl
  unfold PagerM.encode_into_page
  rw [if_neg (by omega)]
  rw [hkind]
  rw [if_neg (by omega)]
  dsimp only
  unfold encode_internal
  rw [if_neg (by omega)]
  rw [if_neg (by omega)]
  rw [(validate_sorted_unique_ok _ _).mpr hs]

/-- C5: splitting an overflowing leaf uses `mid = total / 2`, keeps the
keys (and values) at indices below `mid` in the original page, moves the
keys at indices `mid` and above to the freshly allocated right page,
promotes the right page's first key (`keys.getD mid`) as the separator,
points the left leaf's `next_leaf` at the new right page id, and hands
the left leaf's previous `next_leaf` to the right leaf. -/
theorem split_leaf_spec (pgr : PagerM) (page_id : Nat) (l : LeafNode)
    (hk : l.num_keys = l.keys.length) (hv : l.num_keys = l.values.length)
    (hs : l.keys.Chain' (· < ·))
    (hover : max_leaf_keys < l.num_keys)
    (hcap : l.num_keys ≤ 2 * max_leaf_keys)
    (hpc : pgr.pageCount < u32MAX)
    (hid : page_id < pgr.pageCount)
    (hkind : (pgr.pages.getD page_id .header).kindByte = 2) :
    split_leaf pgr page_id l =
      .ok ((l.keys.getD (l.num_keys / 2) 0, pgr.pageCount),
        { pages := pgr.pages.set page_id (.btreePage (.leaf
            ⟨l.num_keys / 2, pgr.pageCount, l.keys.take (l.num_keys / 2),
              l.values.take (l.num_keys / 2)⟩)) ++
            [.btreePage (.leaf
              ⟨l.num_keys - l.num_keys / 2, l.next_leaf,
                l.keys.drop (l.num_keys / 2),
                l.values.drop (l.num_keys / 2)⟩)],
          root_page_id := pgr.root_page_id }) := by
  have hmlk : max_leaf_keys = 338 := rfl
  have hid2 : page_id < pgr.pages.length := hid
  have hlt1 : (l.keys.take (l.num_keys / 2)).length = l.num_keys / 2 := by
    simp only [List.length_take]
    omega
  have hlt2 : (l.values.take (l.num_keys / 2)).length = l.num_keys / 2 := by
    simp only [List.length_take]
    omega
  have hld1 : (l.keys.drop (l.num_keys / 2)).length =
      l.num_keys - l.num_keys / 2 := by
    simp only [List.length_drop]
    omega
  have hld2 : (l.values.drop (l.num_keys / 2)).length =
      l.num_keys - l.num_keys / 2 := by
    simp only [List.length_drop]
    omega
  unfold split_leaf PagerM.allocate_btree_page
  rw [if_neg (by omega)]
  dsimp only
  rw [encode_into_page_leaf_ok
    { pgr with pages := pgr.pages ++ [.btreePage (.leaf ⟨0, 0, [], []⟩)] }
    page_id
    ⟨(l.keys.take (l.num_keys / 2)).length, pgr.pageCount,
      l.keys.take (l.num_keys / 2), l.values.take (l.num_keys / 2)⟩
    (by
      simp only [PagerM.pageCount, List.length_append, List.length_cons,
        List.length_nil]
      omega)
    (by
      rw [List.getD_append _ _ _ _ hid2]
      exact hkind)
    rfl
    (by dsimp only; rw [hlt1, hlt2])
    (by dsimp only; rw [hlt1]; omega)
    (chain_lt_take _ _ hs)]
  dsimp only
  rw [encode_into_page_leaf_ok _ pgr.pageCount
    ⟨(l.keys.drop (l.num_keys / 2)).length, l.next_leaf,
      l.keys.drop (l.num_keys / 2), l.values.drop (l.num_keys / 2)⟩
    (by
      simp only [PagerM.pageCount, List.length_set, List.length_append,
        List.length_cons, List.length_nil]
      omega)
    (by
      rw [show (pgr.pageCount : Nat) = pgr.pages.length from rfl,
        getD_set_append _ _ _ _ _ hid2]
      rfl)
    rfl
    (by dsimp only; rw [hld1, hld2])
    (by dsimp only; rw [hld1]; omega)
    (chain_lt_drop _ _ hs)]
  dsimp only
  rw [getD_drop_eq, Nat.add_zero]
  rw [show ((pgr.pages ++
      [PageM.btreePage (.leaf ⟨0, 0, [], []⟩)]).set page_id
        (PageM.btreePage (.leaf
          ⟨(l.keys.take (l.num_keys / 2)).length, pgr.pageCount,
            l.keys.take (l.num_keys / 2),
            l.values.take (l.num_keys / 2)⟩))).set pgr.pageCount
        (PageM.btreePage (.leaf
          ⟨(l.keys.drop (l.num_keys / 2)).length, l.next_leaf,
            l.keys.drop (l.num_keys / 2),
            l.values.drop (l.num_keys / 2)⟩)) =
      pgr.pages.set page_id
        (PageM.btreePage (.leaf
          ⟨(l.keys.take (l.num_keys / 2)).length, pgr.pageCount,
            l.keys.take (l.num_keys / 2),
            l.values.take (l.num_keys / 2)⟩)) ++
        [PageM.btreePage (.leaf
          ⟨(l.keys.drop (l.num_keys / 2)).length, l.next_leaf,
            l.keys.drop (l.num_keys / 2),
            l.values.drop (l.num_keys / 2)⟩)] from by
    rw [show (pgr.pageCount : Nat) = pgr.pages.length from rfl]
    exact set_set_append _ _ _ _ _ hid2]
  rw [hlt1, hld1]

/-- Witness for C5 at a 339-key leaf (the reachable overflow size) in a
fresh database. -/
theorem split_leaf_spec_witness :
    split_leaf freshPager 1
        ⟨339, 0, List.range' 1 339, List.range' 1 339⟩ =
      .ok (((List.range' 1 339).getD (339 / 2) 0, freshPager.pageCount),
        { pages := freshPager.pages.set 1 (.btreePage (.leaf
            ⟨339 / 2, freshPager.pageCount,
              (List.range' 1 339).take (339 / 2),
              (List.range' 1 339).take (339 / 2)⟩)) ++
            [.btreePage (.leaf
              ⟨339 - 339 / 2, 0, (List.range' 1 339).drop (339 / 2),
                (List.range' 1 339).drop (339 / 2)⟩)],
          root_page_id := freshPager.root_page_id }) :=
  split_leaf_spec freshPager 1 ⟨339, 0, List.range' 1 339, List.range' 1 339⟩
    (by simp [List.length_range']) (by simp [List.length_range'])
    (List.chain'_iff_pairwise.mpr (List.pairwise_lt_range' 1 339 1 Nat.one_pos))
    (by decide) (by decide) (by decide) (by decide) rfl

/-!
## C7: append_row size cap and returned pointer
-/

/-- C7: `append_row` rejects every row longer than the 3500-byte hard cap
with an `Unsupported` error (not a `Corruption`); and whenever the write
body accepts a row for its resolved target page, the returned pointer
carries the target page id, an offset equal to that page's previous
`free_offset` plus 2, and a length equal to the row's byte length, with
the target page returned as the new tail. -/
theorem append_row_cap_and_ptr (pgr : PagerM) (last : Nat)
    (rb : List Nat) :
    (rb.length > 3500 →
      append_row pgr last rb = .error (.unsupported "row.too_large")) ∧
    (∀ (target : Nat) (ptr : RowPtr) (tail : Nat) (pgr2 : PagerM),
      appendRowWrite pgr target rb = .ok ((ptr, tail), pgr2) →
      ∃ free, pgr.read_free_offset target = .ok free ∧
        ptr = ⟨target, free + 2, rb.length⟩ ∧ tail = target) := by
  constructor
  · intro h
    unfold append_row
    rw [if_pos h]
  · intro target ptr tail pgr2 h
    unfold appendRowWrite at h
    cases hf : pgr.read_free_offset target with
    | error e =>
      rw [hf] at h
      exact Except.noConfusion h
    | ok free =>
      rw [hf] at h
      dsimp only at h
      by_cases hcap : free + (2 + rb.length) > PAGE_SIZE
      · rw [if_pos hcap] at h
        exact Except.noConfusion h
      · rw [if_neg hcap] at h
        cases hg : pgr.get_page target with
        | error e =>
          rw [hg] at h
          exact Except.noConfusion h
        | ok pg =>
          rw [hg] at h
          cases pg with
          | header =>
            exact Except.noConfusion h
          | btreePage n =>
            exact Except.noConfusion h
          | metaPage =>
            exact Except.noConfusion h
          | rowPage buf =>
            dsimp only at h
            by_cases hbig : rb.length ≥ 2 ^ 16
            · rw [if_pos hbig] at h
              exact Except.noConfusion h
            · rw [if_neg hbig] at h
              rw [if_neg hcap] at h
              have h2 := Except.ok.inj h
              refine ⟨free, rfl, ?_, ?_⟩
              · exact (congrArg (fun q => q.1.1) h2).symm
              · exact (congrArg (fun q => q.1.2) h2).symm

/-- Pager with one empty row page at id 3, used to witness C7 and C8. -/
def rowPagerW : PagerM :=
  { pages := [.header, .btreePage (.leaf ⟨0, 0, [], []⟩), .metaPage,
      .rowPage (freshRowPageBuf 3)],
    root_page_id := 1 }

/-- Witness for C7: a 3501-byte row is rejected as unsupported, and an
accepted 3-byte row lands at offset `32 + 2` with length 3 on the fresh
page. -/
theorem append_row_cap_and_ptr_witness :
    append_row rowPagerW 3 (List.replicate 3501 0) =
      .error (.unsupported "row.too_large") ∧
    ∃ free, rowPagerW.read_free_offset 3 = .ok free ∧
      (⟨3, 34, 3⟩ : RowPtr) = ⟨3, free + 2, [1, 2, 3].length⟩ ∧
      (3 : Nat) = 3 :=
  ⟨(append_row_cap_and_ptr rowPagerW 3 (List.replicate 3501 0)).1
      (by rw [List.length_replicate]; omega),
   (append_row_cap_and_ptr rowPagerW 3 [1, 2, 3]).2 3 ⟨3, 34, 3⟩ 3
      { rowPagerW with pages := rowPagerW.pages.set 3 (.rowPage
          (writeAt (writeAt (writeAt (freshRowPageBuf 3) 32 (leBytes 2 3))
            34 [1, 2, 3]) 22 (leBytes 2 37))) }
      (by rfl)⟩

/-!
## C8: get_row_by_pk miss and pk-mismatch behaviour
-/

/-- C8: for a known table, `get_row_by_pk` returns absent without error
when the composite key for `(table_id, pk)` is not found in the tree; and
on a hit whose stored record loads successfully but whose 4-byte
little-endian prefix differs from the requested `pk`, it fails with the
`table.pk_mismatch` corruption. -/
theorem get_row_by_pk_miss_and_mismatch (pgr : PagerM) (cat : CatalogM)
    (tname : String) (pk : Nat) (t : TableDefM)
    (ht : find_table cat tname = .ok t) :
    (search_u64 pgr pgr.root_page_id (composite_key t.id pk) = .ok none →
      get_row_by_pk pgr cat tname pk = .ok none) ∧
    (∀ (raw : Nat) (stored : List Nat),
      search_u64 pgr pgr.root_page_id (composite_key t.id pk) =
        .ok (some raw) →
      (RowPtr.unpack raw).validate = .ok () →
      read_row pgr (RowPtr.unpack raw) = .ok stored →
      4 ≤ stored.length →
      readLE stored 0 4 ≠ pk →
      get_row_by_pk pgr cat tname pk =
        .error (.corruption "table.pk_mismatch" "")) := by
  constructor
  · intro hs
    unfold get_row_by_pk
    rw [ht]
    dsimp only
    rw [hs]
  · intro raw stored hs hval hread hlen hne
    unfold get_row_by_pk
    rw [ht]
    dsimp only
    rw [hs]
    dsimp only
    rw [hval]
    dsimp only
    rw [hread]
    dsimp only
    rw [if_neg (by omega)]
    rw [if_pos hne]

/-- Catalog with a single one-column table `"t"` (id 1), used to witness
C8. -/
def catW : CatalogM :=
  ⟨[⟨1, "t", ⟨[⟨"v", ColType.u32, false⟩]⟩, 2, 3⟩]⟩

/-- Row page image for the C8 witness: valid headers for page 3
(`free_offset` 32), a stored length of 5 at offset 32, and a 5-byte
record at offset 34 whose 4-byte prefix is not the requested pk. -/
def mismatchRowBuf : List Nat :=
  [4, 0, 0, 0, 0, 0, 0, 0, 3, 0, 0, 0, 0, 0, 0, 0] ++
    rowpMagic ++ [1, 0, 32, 0, 0, 0, 0, 0, 0, 0, 0, 0] ++
    [5, 0] ++ [9, 9, 9, 9, 9]

/-- Pager whose btree maps the composite key of `(1, 1)` to a packed
pointer into a row page whose stored record carries the wrong pk prefix,
used to witness C8. -/
def mismatchPagerW : PagerM :=
  { pages := [.header,
      .btreePage (.leaf ⟨1, 0, [composite_key 1 1],
        [RowPtr.pack ⟨3, 34, 5⟩]⟩),
      .metaPage,
      .rowPage mismatchRowBuf],
    root_page_id := 1 }

/-- Witness for C8: pk 2 misses and returns absent; pk 1 hits a record
whose prefix decodes to a different pk and raises `table.pk_mismatch`. -/
theorem get_row_by_pk_miss_and_mismatch_witness :
    get_row_by_pk mismatchPagerW catW "t" 2 = .ok none ∧
    get_row_by_pk mismatchPagerW catW "t" 1 =
      .error (.corruption "table.pk_mismatch" "") :=
  ⟨(get_row_by_pk_miss_and_mismatch mismatchPagerW catW "t" 2
      ⟨1, "t", ⟨[⟨"v", ColType.u32, false⟩]⟩, 2, 3⟩ rfl).1 (by rfl),
   (get_row_by_pk_miss_and_mismatch mismatchPagerW catW "t" 1
      ⟨1, "t", ⟨[⟨"v", ColType.u32, false⟩]⟩, 2, 3⟩ rfl).2
      (RowPtr.pack ⟨3, 34, 5⟩) [9, 9, 9, 9, 9] (by rfl) (by rfl) (by rfl)
      (by decide) (by decide)⟩

/-!
## C2 infrastructure: list access lemmas
-/

/-- `getD` after `set` at the written index. -/
theorem getD_set_self {α : Type} (l : List α) (i : Nat) (x d : α)
    (h : i < l.length) : (l.set i x).getD i d = x := by
  induction l generalizing i with
  | nil => exact absurd h (by simp)
  | cons a rest ih =>
    cases i with
    | zero => rfl
    | succ n => exact ih n (by simpa using h)

/-- `getD` after `set` at a different index. -/
theorem getD_set_other {α : Type} (l : List α) (i j : Nat) (x d : α)
    (h : i ≠ j) : (l.set i x).getD j d = l.getD j d := by
  induction l generalizing i j with
  | nil => rfl
  | cons a rest ih =>
    cases i with
    | zero =>
      cases j with
      | zero => exact absurd rfl h
      | succ m => rfl
    | succ n =>
      cases j with
      | zero => rfl
      | succ m => exact ih n m (by omega)

/-- A `getD` at an in-bounds index is a member. -/
theorem getD_mem {α : Type} (l : List α) (i : Nat) (d : α)
    (h : i < l.length) : l.getD i d ∈ l := by
  induction l generalizing i with
  | nil => exact absurd h (by simp)
  | cons a rest ih =>
    cases i with
    | zero => exact List.mem_cons_self a rest
    | succ n => exact List.mem_cons_of_mem a (ih n (by simpa using h))

/-- `getD` before the insertion point of `insertIdx`. -/
theorem getD_insertIdx_lt {α : Type} (l : List α) (i j : Nat) (a d : α)
    (hij : j < i) : (l.insertIdx i a).getD j d = l.getD j d := by
  induction l generalizing i j with
  | nil =>
    cases i with
    | zero => exact absurd hij (by omega)
    | succ m =>
      cases j with
      | zero => rfl
      | succ n => rfl
  | cons b rest ih =>
    cases i with
    | zero => exact absurd hij (by omega)
    | succ m =>
      cases j with
      | zero => rfl
      | succ n => exact ih m n (by omega)

/-- `getD` at the insertion point of `insertIdx`. -/
theorem getD_insertIdx_self {α : Type} (l : List α) (i : Nat) (a d : α)
    (hi : i ≤ l.length) : (l.insertIdx i a).getD i d = a := by
  induction l generalizing i with
  | nil =>
    cases i with
    | zero => rfl
    | succ m => exact absurd hi (by simp)
  | cons b rest ih =>
    cases i with
    | zero => rfl
    | succ m => exact ih m (by simpa using hi)

/-- `getD` past the insertion point of `insertIdx`. -/
theorem getD_insertIdx_gt {α : Type} (l : List α) (i j : Nat) (a d : α)
    (hij : i < j) (hi : i ≤ l.length) :
    (l.insertIdx i a).getD j d = l.getD (j - 1) d := by
  induction l generalizing i j with
  | nil =>
    cases i with
    | zero =>
      cases j with
      | zero => exact absurd hij (by omega)
      | succ n =>
        cases n with
        | zero => rfl
        | succ n2 => rfl
    | succ m => exact absurd hi (by simp)
  | cons b rest ih =>
    cases i with
    | zero =>
      cases j with
      | zero => exact absurd hij (by omega)
      | succ n => rfl
    | succ m =>
      cases j with
      | zero => exact absurd hij (by omega)
      | succ n =>
        rw [show (b :: rest).insertIdx (m + 1) a = b :: rest.insertIdx m a
          from rfl]
        rw [show ((b :: rest.insertIdx m a).getD (n + 1) d) =
          (rest.insertIdx m a).getD n d from rfl]
        rw [ih m n (by omega) (by simpa using hi)]
        cases n with
        | zero => exact absurd hij (by omega)
        | succ n2 => rfl

/-- `insertIdx` is a permutation of consing. -/
theorem insertIdx_perm {α : Type} (l : List α) (i : Nat) (a : α)
    (h : i ≤ l.length) : (l.insertIdx i a).Perm (a :: l) := by
  induction l generalizing i with
  | nil =>
    cases i with
    | zero => exact List.Perm.refl _
    | succ m => exact absurd h (by simp)
  | cons b rest ih =>
    cases i with
    | zero => exact List.Perm.refl _
    | succ m =>
      exact ((ih m (by simpa using h)).cons b).trans (List.Perm.swap a b rest)

/-- `countP` through `insertIdx`. -/
theorem countP_insertIdx (l : List Nat) (i a : Nat) (p : Nat → Bool)
    (h : i ≤ l.length) :
    (l.insertIdx i a).countP p = l.countP p + if p a then 1 else 0 := by
  rw [(insertIdx_perm l i a h).countP_eq]
  rw [List.countP_cons]

/-!
## C2 infrastructure: sorted-list order lemmas
-/

/-- Strictly sorted lists are strictly monotone in `getD`. -/
theorem sorted_getD_strict (keys : List Nat) (a b : Nat)
    (hs : keys.Chain' (· < ·)) (hab : a < b) (hb : b < keys.length) :
    keys.getD a 0 < keys.getD b 0 := by
  induction keys generalizing a b with
  | nil => exact absurd hb (by simp)
  | cons k rest ih =>
    have hp := List.chain'_iff_pairwise.mp hs
    have hhead := (List.pairwise_cons.mp hp).1
    have htail : rest.Chain' (· < ·) :=
      List.chain'_iff_pairwise.mpr (List.pairwise_cons.mp hp).2
    cases a with
    | zero =>
      cases b with
      | zero => exact absurd hab (by omega)
      | succ m =>
        exact hhead _ (getD_mem rest m 0 (by simpa using hb))
    | succ n =>
      cases b with
      | zero => exact absurd hab (by omega)
      | succ m => exact ih n m htail (by omega) (by simpa using hb)

/-- Strictly sorted lists are monotone in `getD`. -/
theorem sorted_getD_mono (keys : List Nat) (a b : Nat)
    (hs : keys.Chain' (· < ·)) (hab : a ≤ b) (hb : b < keys.length) :
    keys.getD a 0 ≤ keys.getD b 0 := by
  rcases Nat.eq_or_lt_of_le hab with h | h
  · rw [h]
  · exact Nat.le_of_lt (sorted_getD_strict keys a b hs h hb)

/-- Every element of a sorted prefix is below the pivot. -/
theorem sorted_take_lt (keys : List Nat) (mid a : Nat)
    (hs : keys.Chain' (· < ·)) (hmid : mid < keys.length)
    (ha : a ∈ keys.take mid) : a < keys.getD mid 0 := by
  induction keys generalizing mid with
  | nil => exact absurd ha (by simp)
  | cons k rest ih =>
    have hp := List.chain'_iff_pairwise.mp hs
    have hhead := (List.pairwise_cons.mp hp).1
    have htail : rest.Chain' (· < ·) :=
      List.chain'_iff_pairwise.mpr (List.pairwise_cons.mp hp).2
    cases mid with
    | zero => exact absurd ha (by simp)
    | succ m =>
      rcases List.mem_cons.mp ha with h | h
      · rw [h]
        exact hhead _ (getD_mem rest m 0 (by simpa using hmid))
      · exact ih m htail (by simpa using hmid) h

/-- Every element of a sorted suffix is at least the pivot. -/
theorem sorted_drop_le (keys : List Nat) (mid a : Nat)
    (hs : keys.Chain' (· < ·)) (hmid : mid < keys.length)
    (ha : a ∈ keys.drop mid) : keys.getD mid 0 ≤ a := by
  induction keys generalizing mid with
  | nil => exact absurd ha (by simp)
  | cons k rest ih =>
    have hp := List.chain'_iff_pairwise.mp hs
    have hhead := (List.pairwise_cons.mp hp).1
    have htail : rest.Chain' (· < ·) :=
      List.chain'_iff_pairwise.mpr (List.pairwise_cons.mp hp).2
    cases mid with
    | zero =>
      rcases List.mem_cons.mp ha with h | h
      · rw [h]
        exact Nat.le_refl k
      · exact Nat.le_of_lt (hhead _ h)
    | succ m => exact ih m htail (by simpa using hmid) ha

/-!
## C2 infrastructure: keySearch and leafLookup lemmas
-/

/-- A miss position never exceeds the key count. -/
theorem keySearch_inr_le (keys : List Nat) (key pos : Nat)
    (h : keySearch keys key = .inr pos) : pos ≤ keys.length := by
  induction keys generalizing pos with
  | nil =>
    unfold keySearch at h
    have := Sum.inr.inj h
    omega
  | cons k rest ih =>
    unfold keySearch at h
    by_cases h1 : key = k
    · rw [if_pos h1] at h
      exact Sum.noConfusion h
    · rw [if_neg h1] at h
      by_cases h2 : key < k
      · rw [if_pos h2] at h
        have := Sum.inr.inj h
        omega
      · rw [if_neg h2] at h
        cases hk2 : keySearch rest key with
        | inl j =>
          rw [hk2] at h
          exact Sum.noConfusion h
        | inr p =>
          rw [hk2] at h
          have := Sum.inr.inj h
          have hp := ih p hk2
          simp only [List.length_cons]
          omega

/-- Unfolding equation of `leafLookup` on a cons pair. -/
theorem leafLookup_cons (k : Nat) (ks : List Nat) (v : Nat) (vs : List Nat)
    (key : Nat) :
    leafLookup (k :: ks) (v :: vs) key =
      if key = k then some v else leafLookup ks vs key := rfl

/-- Looking up the hit key after overwriting its value slot. -/
theorem leafLookup_set_hit (keys values : List Nat) (key v i : Nat)
    (hlen : keys.length = values.length)
    (h : keySearch keys key = .inl i) :
    leafLookup keys (values.set i v) key = some v := by
  induction keys generalizing values i with
  | nil =>
    unfold keySearch at h
    exact Sum.noConfusion h
  | cons k rest ih =>
    cases values with
    | nil => exact absurd hlen (by simp)
    | cons w ws =>
      unfold keySearch at h
      by_cases h1 : key = k
      · rw [if_pos h1] at h
        have hi := Sum.inl.inj h
        rw [← hi]
        rw [show (w :: ws).set 0 v = v :: ws from rfl]
        rw [leafLookup_cons]
        rw [if_pos h1]
      · rw [if_neg h1] at h
        by_cases h2 : key < k
        · rw [if_pos h2] at h
          exact Sum.noConfusion h
        · rw [if_neg h2] at h
          cases hk2 : keySearch rest key with
          | inl j =>
            rw [hk2] at h
            have hi := Sum.inl.inj h
            rw [← hi]
            rw [show (w :: ws).set (j + 1) v = w :: ws.set j v from rfl]
            rw [leafLookup_cons]
            rw [if_neg h1]
            exact ih ws j (by simpa using hlen) hk2
          | inr p =>
            rw [hk2] at h
            exact Sum.noConfusion h

/-- Looking up any other key after overwriting the hit slot. -/
theorem leafLookup_set_ne (keys values : List Nat) (key x v i : Nat)
    (h : keySearch keys key = .inl i) (hne : x ≠ key) :
    leafLookup keys (values.set i v) x = leafLookup keys values x := by
  induction keys generalizing values i with
  | nil =>
    unfold keySearch at h
    exact Sum.noConfusion h
  | cons k rest ih =>
    cases values with
    | nil => rfl
    | cons w ws =>
      unfold keySearch at h
      by_cases h1 : key = k
      · rw [if_pos h1] at h
        have hi := Sum.inl.inj h
        rw [← hi]
        have hxk : x ≠ k := by rw [← h1]; exact hne
        rw [show (w :: ws).set 0 v = v :: ws from rfl]
        rw [leafLookup_cons, leafLookup_cons]
        rw [if_neg hxk, if_neg hxk]
      · rw [if_neg h1] at h
        by_cases h2 : key < k
        · rw [if_pos h2] at h
          exact Sum.noConfusion h
        · rw [if_neg h2] at h
          cases hk2 : keySearch rest key with
          | inl j =>
            rw [hk2] at h
            have hi := Sum.inl.inj h
            rw [← hi]
            rw [show (w :: ws).set (j + 1) v = w :: ws.set j v from rfl]
            rw [leafLookup_cons, leafLookup_cons]
            by_cases hxk : x = k
            · rw [if_pos hxk, if_pos hxk]
            · rw [if_neg hxk, if_neg hxk]
              exact ih ws j hk2
          | inr p =>
            rw [hk2] at h
            exact Sum.noConfusion h

/-- Looking up the inserted key after a miss insertion. -/
theorem leafLookup_insertIdx_hit (keys values : List Nat) (key v pos : Nat)
    (hlen : keys.length = values.length)
    (h : keySearch keys key = .inr pos) :
    leafLookup (keys.insertIdx pos key) (values.insertIdx pos v) key =
      some v := by
  induction keys generalizing values pos with
  | nil =>
    cases values with
    | nil =>
      unfold keySearch at h
      have := Sum.inr.inj h
      rw [← this]
      rw [List.insertIdx_zero, List.insertIdx_zero, leafLookup_cons]
      rw [if_pos rfl]
    | cons w ws => exact absurd hlen (by simp)
  | cons k rest ih =>
    cases values with
    | nil => exact absurd hlen (by simp)
    | cons w ws =>
      unfold keySearch at h
      by_cases h1 : key = k
      · rw [if_pos h1] at h
        exact Sum.noConfusion h
      · rw [if_neg h1] at h
        by_cases h2 : key < k
        · rw [if_pos h2] at h
          have := Sum.inr.inj h
          rw [← this]
          rw [List.insertIdx_zero, List.insertIdx_zero, leafLookup_cons]
          rw [if_pos rfl]
        · rw [if_neg h2] at h
          cases hk2 : keySearch rest key with
          | inl j =>
            rw [hk2] at h
            exact Sum.noConfusion h
          | inr p =>
            rw [hk2] at h
            have := Sum.inr.inj h
            rw [← this]
            rw [show (k :: rest).insertIdx (p + 1) key =
              k :: rest.insertIdx p key from rfl]
            rw [show (w :: ws).insertIdx (p + 1) v =
              w :: ws.insertIdx p v from rfl]
            rw [leafLookup_cons]
            rw [if_neg h1]
            exact ih ws p (by simpa using hlen) hk2

/-- Looking up any other key after a miss insertion. -/
theorem leafLookup_insertIdx_ne (keys values : List Nat)
    (key x v pos : Nat) (hlen : keys.length = values.length)
    (h : keySearch keys key = .inr pos) (hne : x ≠ key) :
    leafLookup (keys.insertIdx pos key) (values.insertIdx pos v) x =
      leafLookup keys values x := by
  induction keys generalizing values pos with
  | nil =>
    cases values with
    | nil =>
      unfold keySearch at h
      have := Sum.inr.inj h
      rw [← this]
      rw [List.insertIdx_zero, List.insertIdx_zero, leafLookup_cons]
      rw [if_neg hne]
    | cons w ws => exact absurd hlen (by simp)
  | cons k rest ih =>
    cases values with
    | nil => exact absurd hlen (by simp)
    | cons w ws =>
      unfold keySearch at h
      by_cases h1 : key = k
      · rw [if_pos h1] at h
        exact Sum.noConfusion h
      · rw [if_neg h1] at h
        by_cases h2 : key < k
        · rw [if_pos h2] at h
          have := Sum.inr.inj h
          rw [← this]
          rw [List.insertIdx_zero, List.insertIdx_zero, leafLookup_cons]
          rw [if_neg hne]
        · rw [if_neg h2] at h
          cases hk2 : keySearch rest key with
          | inl j =>
            rw [hk2] at h
            exact Sum.noConfusion h
          | inr p =>
            rw [hk2] at h
            have := Sum.inr.inj h
            rw [← this]
            rw [show (k :: rest).insertIdx (p + 1) key =
              k :: rest.insertIdx p key from rfl]
            rw [show (w :: ws).insertIdx (p + 1) v =
              w :: ws.insertIdx p v from rfl]
            rw [leafLookup_cons, leafLookup_cons]
            by_cases hxk : x = k
            · rw [if_pos hxk, if_pos hxk]
            · rw [if_neg hxk, if_neg hxk]
              exact ih ws p (by simpa using hlen) hk2

/-- `leafLookup` over aligned appends scans the left part first. -/
theorem leafLookup_append (A B VA VB : List Nat) (x : Nat)
    (hlen : A.length = VA.length) :
    leafLookup (A ++ B) (VA ++ VB) x =
      (match leafLookup A VA x with
       | some w => some w
       | none => leafLookup B VB x) := by
  induction A generalizing VA with
  | nil =>
    cases VA with
    | nil => rfl
    | cons w ws => exact absurd hlen (by simp)
  | cons k rest ih =>
    cases VA with
    | nil => exact absurd hlen (by simp)
    | cons w ws =>
      by_cases hxk : x = k
      · rw [show (k :: rest) ++ B = k :: (rest ++ B) from rfl,
          show (w :: ws) ++ VB = w :: (ws ++ VB) from rfl]
        rw [leafLookup_cons, leafLookup_cons]
        rw [if_pos hxk, if_pos hxk]
      · rw [show (k :: rest) ++ B = k :: (rest ++ B) from rfl,
          show (w :: ws) ++ VB = w :: (ws ++ VB) from rfl]
        rw [leafLookup_cons, leafLookup_cons]
        rw [if_neg hxk, if_neg hxk]
        exact ih ws (by simpa using hlen)

/-- `leafLookup` misses when no key matches. -/
theorem leafLookup_none (A VA : List Nat) (x : Nat)
    (h : ∀ a ∈ A, a ≠ x) : leafLookup A VA x = none := by
  induction A generalizing VA with
  | nil => rfl
  | cons k rest ih =>
    cases VA with
    | nil => rfl
    | cons w ws =>
      rw [leafLookup_cons]
      rw [if_neg (fun hx => (h k (List.mem_cons_self k rest)) hx.symm)]
      exact ih ws (fun a ha => h a (List.mem_cons_of_mem k ha))

/-- Splitting a sorted leaf at `mid` routes a lookup into the half chosen
by comparison with the pivot. -/
theorem leafLookup_split (keys values : List Nat) (x mid : Nat)
    (hs : keys.Chain' (· < ·)) (hlen : keys.length = values.length)
    (hmid : mid < keys.length) :
    leafLookup keys values x =
      (if x < keys.getD mid 0 then
        leafLookup (keys.take mid) (values.take mid) x
      else leafLookup (keys.drop mid) (values.drop mid) x) := by
  have hsplit := leafLookup_append (keys.take mid) (keys.drop mid)
    (values.take mid) (values.drop mid) x
    (by simp only [List.length_take]; omega)
  rw [List.take_append_drop, List.take_append_drop] at hsplit
  rw [hsplit]
  by_cases hx : x < keys.getD mid 0
  · rw [if_pos hx]
    rw [leafLookup_none (keys.drop mid) (values.drop mid) x
      (fun a ha => by
        have := sorted_drop_le keys mid a hs hmid ha
        omega)]
    cases leafLookup (keys.take mid) (values.take mid) x with
    | none => rfl
    | some w => rfl
  · rw [if_neg hx]
    rw [leafLookup_none (keys.take mid) (values.take mid) x
      (fun a ha => by
        have := sorted_take_lt keys mid a hs hmid ha
        omega)]

/-- Inserting a missed key at its search position keeps the keys strictly
sorted. -/
theorem chain_insertIdx (keys : List Nat) (k pos : Nat)
    (hs : keys.Chain' (· < ·)) (h : keySearch keys k = .inr pos) :
    (keys.insertIdx pos k).Chain' (· < ·) := by
  induction keys generalizing pos with
  | nil =>
    unfold keySearch at h
    have := Sum.inr.inj h
    rw [← this]
    simp
  | cons c rest ih =>
    have hp := List.chain'_iff_pairwise.mp hs
    have hhead := (List.pairwise_cons.mp hp).1
    have htail : rest.Chain' (· < ·) :=
      List.chain'_iff_pairwise.mpr (List.pairwise_cons.mp hp).2
    unfold keySearch at h
    by_cases h1 : k = c
    · rw [if_pos h1] at h
      exact Sum.noConfusion h
    · rw [if_neg h1] at h
      by_cases h2 : k < c
      · rw [if_pos h2] at h
        have := Sum.inr.inj h
        rw [← this]
        rw [List.insertIdx_zero]
        exact List.chain'_cons.mpr ⟨h2, hs⟩
      · rw [if_neg h2] at h
        cases hk2 : keySearch rest k with
        | inl j =>
          rw [hk2] at h
          exact Sum.noConfusion h
        | inr p =>
          rw [hk2] at h
          have := Sum.inr.inj h
          rw [← this]
          rw [show (c :: rest).insertIdx (p + 1) k =
            c :: rest.insertIdx p k from rfl]
          refine List.chain'_cons'.mpr ⟨?_, ih p htail hk2⟩
          intro y hy
          cases rest with
          | nil =>
            unfold keySearch at hk2
            have hp0 := Sum.inr.inj hk2
            rw [← hp0] at hy
            simp only [List.insertIdx_zero, List.head?_cons,
              Option.mem_def, Option.some.injEq] at hy
            omega
          | cons r rs =>
            cases p with
            | zero =>
              rw [List.insertIdx_zero] at hy
              simp only [List.head?_cons, Option.mem_def,
                Option.some.injEq] at hy
              omega
            | succ q =>
              rw [show (r :: rs).insertIdx (q + 1) k =
                r :: rs.insertIdx q k from rfl] at hy
              simp only [List.head?_cons, Option.mem_def,
                Option.some.injEq] at hy
              have := hhead r (List.mem_cons_self r rs)
              omega

/-!
## C2 infrastructure: child routing lemmas
-/

/-- The child slot never exceeds the key count. -/
theorem childIndex_le (keys : List Nat) (x : Nat) :
    childIndex keys x ≤ keys.length := by
  induction keys with
  | nil => exact Nat.le_refl 0
  | cons k rest ih =>
    unfold childIndex
    by_cases h : x < k
    · rw [if_pos h]
      exact Nat.zero_le _
    · rw [if_neg h]
      simpa using ih

/-- A positive child slot puts the previous separator at or below the
key. -/
theorem childIndex_lower (keys : List Nat) (x : Nat)
    (h : 0 < childIndex keys x) :
    keys.getD (childIndex keys x - 1) 0 ≤ x := by
  induction keys with
  | nil => exact absurd h (by simp [childIndex])
  | cons k rest ih =>
    unfold childIndex at h ⊢
    by_cases hx : x < k
    · rw [if_pos hx] at h
      exact absurd h (by omega)
    · rw [if_neg hx] at h ⊢
      cases hc : childIndex rest x with
      | zero =>
        rw [show (0 : Nat) + 1 - 1 = 0 from rfl]
        rw [show (k :: rest).getD 0 0 = k from rfl]
        omega
      | succ n =>
        rw [show n + 1 + 1 - 1 = n + 1 from rfl]
        rw [show (k :: rest).getD (n + 1) 0 = rest.getD n 0 from rfl]
        have h2 := ih (by omega)
        rw [hc] at h2
        simpa using h2

/-- An interior child slot puts the key strictly below its separator. -/
theorem childIndex_upper (keys : List Nat) (x : Nat)
    (h : childIndex keys x < keys.length) :
    x < keys.getD (childIndex keys x) 0 := by
  induction keys with
  | nil => exact absurd h (by simp)
  | cons k rest ih =>
    unfold childIndex at h ⊢
    by_cases hx : x < k
    · rw [if_pos hx]
      exact hx
    · rw [if_neg hx] at h ⊢
      rw [show (k :: rest).getD (childIndex rest x + 1) 0 =
        rest.getD (childIndex rest x) 0 from rfl]
      simp only [List.length_cons] at h
      exact ih (by omega)

/-- On a strictly sorted key array the child slot counts the keys at or
below the probe. -/
theorem childIndex_countP (keys : List Nat) (x : Nat)
    (hs : keys.Chain' (· < ·)) :
    childIndex keys x = keys.countP (fun y => decide (y ≤ x)) := by
  induction keys with
  | nil => rfl
  | cons k rest ih =>
    have hp := List.chain'_iff_pairwise.mp hs
    have hhead := (List.pairwise_cons.mp hp).1
    have htail : rest.Chain' (· < ·) :=
      List.chain'_iff_pairwise.mpr (List.pairwise_cons.mp hp).2
    unfold childIndex
    rw [List.countP_cons]
    by_cases hx : x < k
    · rw [if_pos hx]
      have hz : rest.countP (fun y => decide (y ≤ x)) = 0 :=
        List.countP_eq_zero.mpr (fun a ha => by
          have := hhead a ha
          simp only [decide_eq_true_eq]
          omega)
      rw [hz]
      rw [if_neg (by simp only [decide_eq_true_eq]; omega)]
    · rw [if_neg hx]
      rw [ih htail]
      rw [if_pos (by simp only [decide_eq_true_eq]; omega)]

/-!
## C2 infrastructure: invariant, abstraction and inversion lemmas
-/

/-- Well-formedness of a leaf as stored on a decodable page. -/
def leafWF (count : Nat) (l : LeafNode) : Prop :=
  l.num_keys = l.keys.length ∧ l.num_keys = l.values.length ∧
  l.num_keys ≤ max_leaf_keys ∧ l.keys.Chain' (· < ·) ∧
  (l.next_leaf = 0 ∨ l.next_leaf < count)

/-- Reachable-state invariant.  `split_internal` never succeeds, so every
state a successful `put_u64` sequence can reach has height one (a single
root leaf) or height two (an internal root whose children are leaves and
whose stored keys route exactly to their child slot). -/
def Inv (st : PagerM) : Prop :=
  st.root_page_id ≠ 0 ∧ st.root_page_id < st.pageCount ∧
  ((∃ l, st.pages.getD st.root_page_id .header = .btreePage (.leaf l) ∧
      leafWF st.pageCount l) ∨
   (∃ nd, st.pages.getD st.root_page_id .header =
        .btreePage (.internal nd) ∧
      nd.num_keys = nd.keys.length ∧
      nd.children.length = nd.num_keys + 1 ∧
      nd.num_keys ≤ max_internal_keys ∧
      nd.keys.Chain' (· < ·) ∧
      nd.children.Nodup ∧
      (∀ c ∈ nd.children,
        c ≠ 0 ∧ c < st.pageCount ∧ c ≠ st.root_page_id) ∧
      (∀ i, i < nd.children.length →
        ∃ l, st.pages.getD (nd.children.getD i 0) .header =
            .btreePage (.leaf l) ∧ leafWF st.pageCount l ∧
          ∀ x ∈ l.keys, childIndex nd.keys x = i)))

/-- Value associated with a key in the tree of an invariant-satisfying
state: the leaf lookup at the root, or at the routed child of an internal
root. -/
def absLookup (st : PagerM) (x : Nat) : Option Nat :=
  match st.pages.getD st.root_page_id .header with
  | .btreePage (.leaf l) => leafLookup l.keys l.values x
  | .btreePage (.internal nd) =>
    match st.pages.getD (nd.children.getD (childIndex nd.keys x) 0)
        .header with
    | .btreePage (.leaf l) => leafLookup l.keys l.values x
    | _ => none
  | _ => none

/-- A fresh database satisfies the invariant. -/
theorem freshInv : Inv freshPager := by
  refine ⟨by decide, by decide, Or.inl ⟨⟨0, 0, [], []⟩, rfl, ?_⟩⟩
  exact ⟨rfl, rfl, by decide, by simp, Or.inl rfl⟩

/-- A widening page count preserves leaf well-formedness. -/
theorem leafWF_mono (count count2 : Nat) (l : LeafNode)
    (h : leafWF count l) (hc : count ≤ count2) : leafWF count2 l := by
  obtain ⟨h1, h2, h3, h4, h5⟩ := h
  exact ⟨h1, h2, h3, h4, by omega⟩

/-- In-bounds `get_page` returns the stored page. -/
theorem get_page_eq (p : PagerM) (id : Nat) (h : id < p.pageCount) :
    p.get_page id = .ok (p.pages.getD id .header) := by
  unfold PagerM.get_page
  rw [if_neg (by omega)]

/-- A well-formed leaf decodes to itself. -/
theorem nodeDecode_leaf_ok (l : LeafNode) (count : Nat)
    (h : leafWF count l) :
    nodeDecode (.btreePage (.leaf l)) count = .ok (.leaf l) := by
  obtain ⟨h1, h2, h3, h4, h5⟩ := h
  have hmlk : max_leaf_keys = 338 := rfl
  have hps : PAGE_SIZE = 4096 := rfl
  have hpb : PAYLOAD_BASE = 16 := rfl
  unfold nodeDecode
  dsimp only
  rw [if_neg (by omega)]
  rw [if_neg (by omega)]
  rw [if_neg (by omega)]
  rw [(validate_sorted_unique_ok _ _).mpr h4]

/-- A well-formed internal node decodes to itself. -/
theorem nodeDecode_internal_ok (nd : InternalNode) (count : Nat)
    (hk : nd.num_keys = nd.keys.length)
    (hc : nd.children.length = nd.num_keys + 1)
    (hcap : nd.num_keys ≤ max_internal_keys)
    (hs : nd.keys.Chain' (· < ·))
    (hch : ∀ c ∈ nd.children, c ≠ 0 ∧ c < count) :
    nodeDecode (.btreePage (.internal nd)) count =
      .ok (.internal nd) := by
  have hmik : max_internal_keys = 507 := rfl
  have hps : PAGE_SIZE = 4096 := rfl
  have hpb : PAYLOAD_BASE = 16 := rfl
  unfold nodeDecode
  dsimp only
  rw [if_neg (by omega)]
  rw [if_neg (by omega)]
  rw [if_neg (by
    simp only [List.any_eq_true, Bool.or_eq_true, beq_iff_eq,
      decide_eq_true_eq, not_exists, not_and, not_or]
    intro c hcmem
    have := hch c hcmem
    constructor
    · exact this.1
    · omega)]
  rw [(validate_sorted_unique_ok _ _).mpr hs]

/-- Inversion of a successful leaf encode. -/
theorem encode_leaf_inv (p : PagerM) (id : Nat) (l : LeafNode)
    (p2 : PagerM) (h : p.encode_into_page id (.leaf l) = .ok p2) :
    p2 = { p with pages := p.pages.set id (.btreePage (.leaf l)) } ∧
      l.num_keys = l.keys.length ∧ l.num_keys = l.values.length ∧
      l.num_keys ≤ max_leaf_keys ∧ l.keys.Chain' (· < ·) ∧
      id < p.pageCount := by
  unfold PagerM.encode_into_page at h
  by_cases c1 : id ≥ p.pageCount
  · rw [if_pos c1] at h
    exact Except.noConfusion h
  · rw [if_neg c1] at h
    by_cases c2 : (p.pages.getD id .header).kindByte ≠ 2
    · rw [if_pos c2] at h
      exact Except.noConfusion h
    · rw [if_neg c2] at h
      dsimp only at h
      unfold encode_leaf at h
      by_cases c3 : l.num_keys ≠ l.keys.length ∨ l.num_keys ≠ l.values.length
      · rw [if_pos c3] at h
        exact Except.noConfusion h
      · rw [if_neg c3] at h
        by_cases c4 : l.num_keys > max_leaf_keys
        · rw [if_pos c4] at h
          exact Except.noConfusion h
        · rw [if_neg c4] at h
          cases hv : validate_sorted_unique l.keys "btree.leaf.keys_order" with
          | error e =>
            rw [hv] at h
            exact Except.noConfusion h
          | ok u =>
            cases u
            rw [hv] at h
            dsimp only at h
            refine ⟨(Except.ok.inj h).symm, by omega, by omega, by omega,
              (validate_sorted_unique_ok _ _).mp hv, by omega⟩

/-- Inversion of a successful internal encode. -/
theorem encode_internal_inv (p : PagerM) (id : Nat) (nd : InternalNode)
    (p2 : PagerM) (h : p.encode_into_page id (.internal nd) = .ok p2) :
    p2 = { p with pages := p.pages.set id (.btreePage (.internal nd)) } ∧
      nd.num_keys = nd.keys.length ∧
      nd.children.length = nd.num_keys + 1 ∧
      nd.num_keys ≤ max_internal_keys ∧ nd.keys.Chain' (· < ·) ∧
      id < p.pageCount := by
  unfold PagerM.encode_into_page at h
  by_cases c1 : id ≥ p.pageCount
  · rw [if_pos c1] at h
    exact Except.noConfusion h
  · rw [if_neg c1] at h
    by_cases c2 : (p.pages.getD id .header).kindByte ≠ 2
    · rw [if_pos c2] at h
      exact Except.noConfusion h
    · rw [if_neg c2] at h
      dsimp only at h
      unfold encode_internal at h
      by_cases c3 : nd.num_keys ≠ nd.keys.length ∨
          nd.children.length ≠ nd.num_keys + 1
      · rw [if_pos c3] at h
        exact Except.noConfusion h
      · rw [if_neg c3] at h
        by_cases c4 : nd.num_keys > max_internal_keys
        · rw [if_pos c4] at h
          exact Except.noConfusion h
        · rw [if_neg c4] at h
          cases hv : validate_sorted_unique nd.keys
              "btree.internal.keys_order" with
          | error e =>
            rw [hv] at h
            exact Except.noConfusion h
          | ok u =>
            cases u
            rw [hv] at h
            dsimp only at h
            refine ⟨(Except.ok.inj h).symm, by omega, by omega, by omega,
              (validate_sorted_unique_ok _ _).mp hv, by omega⟩

/-- Inversion of a successful btree page allocation. -/
theorem allocate_btree_inv (p : PagerM) (id : Nat) (p2 : PagerM)
    (h : p.allocate_btree_page = .ok (id, p2)) :
    id = p.pageCount ∧
      p2 = { p with
        pages := p.pages ++ [.btreePage (.leaf ⟨0, 0, [], []⟩)] } := by
  unfold PagerM.allocate_btree_page at h
  by_cases c : p.pageCount = u32MAX
  · rw [if_pos c] at h
    exact Except.noConfusion h
  · rw [if_neg c] at h
    have h2 := Except.ok.inj h
    exact ⟨(congrArg Prod.fst h2).symm, (congrArg Prod.snd h2).symm⟩

/-- `split_internal` always fails on decodable internal nodes: the left
node it builds has one child too few for `encode_internal`. -/
theorem split_internal_errors (pgr : PagerM) (page_id : Nat)
    (nd : InternalNode)
    (hk : nd.num_keys = nd.keys.length)
    (hc : nd.children.length = nd.num_keys + 1)
    (h1 : 1 ≤ nd.num_keys) :
    ∃ e, split_internal pgr page_id nd = .error e := by
  unfold split_internal PagerM.allocate_btree_page
  by_cases hpc : pgr.pageCount = u32MAX
  · rw [if_pos hpc]
    exact ⟨_, rfl⟩
  · rw [if_neg hpc]
    dsimp only
    unfold PagerM.encode_into_page
    by_cases hid : page_id ≥
        (PagerM.mk (pgr.pages ++
          [.btreePage (.leaf ⟨0, 0, [], []⟩)]) pgr.root_page_id).pageCount
    · rw [if_pos hid]
      exact ⟨_, rfl⟩
    · rw [if_neg hid]
      by_cases hkind : ((PagerM.mk (pgr.pages ++
          [.btreePage (.leaf ⟨0, 0, [], []⟩)])
            pgr.root_page_id).pages.getD page_id .header).kindByte ≠ 2
      · rw [if_pos hkind]
        exact ⟨_, rfl⟩
      · rw [if_neg hkind]
        dsimp only
        unfold encode_internal
        rw [if_pos (by
          right
          simp only [List.length_take]
          omega)]
        exact ⟨_, rfl⟩

/-- One unfolding of the search loop at positive fuel. -/
theorem searchLoop_step (pgr : PagerM) (key fuel current depth : Nat) :
    searchLoop pgr key (fuel + 1) current depth =
      (if depth > MAX_DEPTH then .error (.corruption "btree.depth" "")
      else if current = 0 then
        .error (.corruption "btree.traverse.header" "")
      else
        match pgr.get_page current with
        | .error e => .error e
        | .ok pg =>
          if pg.kindByte ≠ 2 then
            .error (.corruption "btree.page_kind" "")
          else
            match nodeDecode pg pgr.pageCount with
            | .error e => .error e
            | .ok (.leaf l) => .ok (leafLookup l.keys l.values key)
            | .ok (.internal nd) =>
              searchLoop pgr key fuel
                (nd.children.getD (childIndex nd.keys key) 0)
                (depth + 1)) := rfl

/-- One unfolding of the insert recursion at positive fuel. -/
theorem insertInto_step (key value fuel : Nat) (pgr : PagerM)
    (page_id : Nat) :
    insertInto key value (fuel + 1) pgr page_id =
      (match pgr.get_page page_id with
      | .error e => .error e
      | .ok pg =>
        match nodeDecode pg pgr.pageCount with
        | .error e => .error e
        | .ok (.leaf l) =>
          match keySearch l.keys key with
          | .inl idx =>
            match pgr.encode_into_page page_id
                (.leaf { l with values := l.values.set idx value }) with
            | .error e => .error e
            | .ok pgr1 => .ok (.noSplit, pgr1)
          | .inr pos =>
            let l1 : LeafNode :=
              ⟨l.num_keys + 1, l.next_leaf, l.keys.insertIdx pos key,
                l.values.insertIdx pos value⟩
            if l1.num_keys ≤ max_leaf_keys then
              match pgr.encode_into_page page_id (.leaf l1) with
              | .error e => .error e
              | .ok pgr1 => .ok (.noSplit, pgr1)
            else
              match split_leaf pgr page_id l1 with
              | .error e => .error e
              | .ok ((pk, right), pgr1) => .ok (.split pk right, pgr1)
        | .ok (.internal nd) =>
          let idx := childIndex nd.keys key
          let child_id := nd.children.getD idx 0
          match insertInto key value fuel pgr child_id with
          | .error e => .error e
          | .ok (.noSplit, pgr1) => .ok (.noSplit, pgr1)
          | .ok (.split pk right, pgr1) =>
            let nd1 : InternalNode :=
              ⟨nd.num_keys + 1, nd.children.insertIdx (idx + 1) right,
                nd.keys.insertIdx idx pk⟩
            if nd1.num_keys ≤ max_internal_keys then
              match pgr1.encode_into_page page_id (.internal nd1) with
              | .error e => .error e
              | .ok pgr2 => .ok (.noSplit, pgr2)
            else
              match split_internal pgr1 page_id nd1 with
              | .error e => .error e
              | .ok ((pk2, right2), pgr2) =>
                .ok (.split pk2 right2, pgr2)) := rfl

/-- Search correctness: under the invariant, `get_u64` returns exactly
the abstract lookup. -/
theorem get_u64_absLookup (st : PagerM) (hInv : Inv st) (x : Nat) :
    get_u64 st x = .ok (absLookup st x) := by
  obtain ⟨hr0, hrlt, hcase⟩ := hInv
  unfold get_u64 search_u64
  rw [show MAX_DEPTH + 2 = 65 + 1 from rfl, searchLoop_step]
  rw [if_neg (by decide)]
  rw [if_neg hr0]
  rw [get_page_eq st st.root_page_id hrlt]
  rcases hcase with ⟨l, hl, hwf⟩ | ⟨nd, hnd, hk, hc, hcap, hs, hnodup, hch, hsep⟩
  · rw [hl]
    dsimp only
    rw [if_neg (by simp [PageM.kindByte])]
    rw [nodeDecode_leaf_ok l st.pageCount hwf]
    dsimp only
    unfold absLookup
    rw [hl]
  · rw [hnd]
    dsimp only
    rw [if_neg (by simp [PageM.kindByte])]
    rw [nodeDecode_internal_ok nd st.pageCount hk hc hcap hs
      (fun c hcm => ⟨(hch c hcm).1, (hch c hcm).2.1⟩)]
    dsimp only
    have hidx : childIndex nd.keys x < nd.children.length := by
      have := childIndex_le nd.keys x
      omega
    obtain ⟨lc, hlc, hlwf, _⟩ := hsep (childIndex nd.keys x) hidx
    have hcmem : nd.children.getD (childIndex nd.keys x) 0 ∈ nd.children :=
      getD_mem nd.children (childIndex nd.keys x) 0 hidx
    have hcprops := hch _ hcmem
    rw [searchLoop_step]
    rw [if_neg (by decide)]
    rw [if_neg hcprops.1]
    rw [get_page_eq st _ hcprops.2.1]
    rw [hlc]
    dsimp only
    rw [if_neg (by simp [PageM.kindByte])]
    rw [nodeDecode_leaf_ok lc st.pageCount hlwf]
    dsimp only
    unfold absLookup
    rw [hnd]
    dsimp only
    rw [hlc]

/-- Inversion of a successful leaf split. -/
theorem split_leaf_inv (pgr : PagerM) (page_id : Nat) (node : LeafNode)
    (pk right : Nat) (pgr2 : PagerM)
    (hid : page_id < pgr.pageCount)
    (h : split_leaf pgr page_id node = .ok ((pk, right), pgr2)) :
    right = pgr.pageCount ∧
    pk = node.keys.getD (node.num_keys / 2) 0 ∧
    pgr2 = { pgr with
              pages := pgr.pages.set page_id
                  (.btreePage (.leaf
                    ⟨(node.keys.take (node.num_keys / 2)).length,
                      pgr.pageCount,
                      node.keys.take (node.num_keys / 2),
                      node.values.take (node.num_keys / 2)⟩)) ++
                [.btreePage (.leaf
                  ⟨(node.keys.drop (node.num_keys / 2)).length,
                    node.next_leaf,
                    node.keys.drop (node.num_keys / 2),
                    node.values.drop (node.num_keys / 2)⟩)] } := by
  unfold split_leaf at h
  split at h
  · exact Except.noConfusion h
  · rename_i rid p1 halloc
    obtain ⟨hrid, hp1⟩ := allocate_btree_inv _ _ _ halloc
    subst hrid
    subst hp1
    dsimp only at h
    split at h
    · exact Except.noConfusion h
    · rename_i p2 heq1
      obtain ⟨hp2, hf1⟩ := encode_leaf_inv _ _ _ _ heq1
      subst hp2
      dsimp only at h
      split at h
      · exact Except.noConfusion h
      · rename_i p3 heq2
        obtain ⟨hp3, hf2⟩ := encode_leaf_inv _ _ _ _ heq2
        subst hp3
        injection (Except.ok.inj h) with hres hpg
        injection hres with hpk hright
        refine ⟨hright.symm, ?_, ?_⟩
        · rw [← hpk]
          rw [getD_drop_eq, Nat.add_zero]
        · rw [← hpg]
          dsimp only
          refine congrArg (fun pg => PagerM.mk pg pgr.root_page_id) ?_
          rw [show (pgr.pageCount : Nat) = pgr.pages.length from rfl]
          exact set_set_append _ _ _ _ _ hid

/-- Characterization of a successful insert step landing on a leaf page:
the key is overwritten in place, inserted within capacity, or the grown
leaf splits at `mid = (num_keys + 1) / 2` with the right half's first key
promoted and the right half on a freshly appended page. -/
theorem insertInto_leaf_cases (key value fuel : Nat) (pgr : PagerM)
    (page_id : Nat) (l : LeafNode) (res : InsertResult) (pgr2 : PagerM)
    (hpage : pgr.pages.getD page_id .header = .btreePage (.leaf l))
    (hid : page_id < pgr.pageCount)
    (hwf : leafWF pgr.pageCount l)
    (h : insertInto key value (fuel + 1) pgr page_id = .ok (res, pgr2)) :
    (∃ i, keySearch l.keys key = .inl i ∧ res = .noSplit ∧
      pgr2 = { pgr with
                pages := pgr.pages.set page_id
                  (.btreePage (.leaf
                    { l with values := l.values.set i value })) }) ∨
    (∃ pos, keySearch l.keys key = .inr pos ∧
      l.num_keys + 1 ≤ max_leaf_keys ∧ res = .noSplit ∧
      pgr2 = { pgr with
                pages := pgr.pages.set page_id
                  (.btreePage (.leaf ⟨l.num_keys + 1, l.next_leaf,
                    l.keys.insertIdx pos key,
                    l.values.insertIdx pos value⟩)) }) ∨
    (∃ pos, keySearch l.keys key = .inr pos ∧
      max_leaf_keys < l.num_keys + 1 ∧
      res = .split ((l.keys.insertIdx pos key).getD
        ((l.num_keys + 1) / 2) 0) pgr.pageCount ∧
      pgr2 = { pgr with
                pages := pgr.pages.set page_id
                    (.btreePage (.leaf
                      ⟨((l.keys.insertIdx pos key).take
                          ((l.num_keys + 1) / 2)).length,
                        pgr.pageCount,
                        (l.keys.insertIdx pos key).take
                          ((l.num_keys + 1) / 2),
                        (l.values.insertIdx pos value).take
                          ((l.num_keys + 1) / 2)⟩)) ++
                  [.btreePage (.leaf
                    ⟨((l.keys.insertIdx pos key).drop
                        ((l.num_keys + 1) / 2)).length,
                      l.next_leaf,
                      (l.keys.insertIdx pos key).drop
                        ((l.num_keys + 1) / 2),
                      (l.values.insertIdx pos value).drop
                        ((l.num_keys + 1) / 2)⟩)] }) := by
  rw [insertInto_step] at h
  rw [get_page_eq pgr page_id hid, hpage] at h
  dsimp only at h
  rw [nodeDecode_leaf_ok l pgr.pageCount hwf] at h
  dsimp only at h
  cases hks : keySearch l.keys key with
  | inl i =>
    rw [hks] at h
    dsimp only at h
    split at h
    · exact Except.noConfusion h
    · rename_i p2 heq
      have hinv := encode_leaf_inv _ _ _ _ heq
      have h2 := Except.ok.inj h
      injection h2 with hres hpg
      refine Or.inl ⟨i, rfl, hres.symm, ?_⟩
      rw [← hpg]
      exact hinv.1
  | inr pos =>
    rw [hks] at h
    dsimp only at h
    by_cases hfit : l.num_keys + 1 ≤ max_leaf_keys
    · rw [if_pos hfit] at h
      split at h
      · exact Except.noConfusion h
      · rename_i p2 heq
        have hinv := encode_leaf_inv _ _ _ _ heq
        have h2 := Except.ok.inj h
        injection h2 with hres hpg
        refine Or.inr (Or.inl ⟨pos, rfl, hfit, hres.symm, ?_⟩)
        rw [← hpg]
        exact hinv.1
    · rw [if_neg hfit] at h
      split at h
      · exact Except.noConfusion h
      · rename_i pk right p1 hsplit
        obtain ⟨hright, hpk, hpgr⟩ := split_leaf_inv _ _ _ _ _ _ hid hsplit
        subst hright
        injection (Except.ok.inj h) with hres hpg
        refine Or.inr (Or.inr ⟨pos, rfl, by omega, ?_, ?_⟩)
        · rw [← hres, hpk]
        · rw [← hpg]
          exact hpgr

/-- Reading the appended element at an index equal to the length. -/
theorem getD_snoc_of_length {α : Type} (l : List α) (x d : α) (i : Nat)
    (h : i = l.length) : (l ++ [x]).getD i d = x := by
  subst h
  exact getD_snoc_length l x d

/-- Routing against a single separator. -/
theorem childIndex_singleton (p y : Nat) :
    childIndex [p] y = if y < p then 0 else 1 := rfl

/-- After a root-leaf split the two-page tree rooted at the fresh internal
page satisfies the invariant and realizes the upsert of the written key. -/
theorem root_split_good (st : PagerM) (k v pos : Nat) (l : LeafNode)
    (st2 : PagerM)
    (hr0 : st.root_page_id ≠ 0) (hrl : st.root_page_id < st.pages.length)
    (hl : st.pages.getD st.root_page_id .header = .btreePage (.leaf l))
    (w1 : l.num_keys = l.keys.length) (w2 : l.num_keys = l.values.length)
    (w3 : l.num_keys ≤ max_leaf_keys) (w4 : l.keys.Chain' (· < ·))
    (w5 : l.next_leaf = 0 ∨ l.next_leaf < st.pages.length)
    (hks : keySearch l.keys k = .inr pos)
    (hpages : st2.pages =
      (st.pages.set st.root_page_id (.btreePage (.leaf
          ⟨((l.keys.insertIdx pos k).take ((l.num_keys + 1) / 2)).length,
            st.pages.length,
            (l.keys.insertIdx pos k).take ((l.num_keys + 1) / 2),
            (l.values.insertIdx pos v).take ((l.num_keys + 1) / 2)⟩)) ++
        [.btreePage (.leaf
          ⟨((l.keys.insertIdx pos k).drop ((l.num_keys + 1) / 2)).length,
            l.next_leaf,
            (l.keys.insertIdx pos k).drop ((l.num_keys + 1) / 2),
            (l.values.insertIdx pos v).drop ((l.num_keys + 1) / 2)⟩)]) ++
      [.btreePage (.internal ⟨1, [st.root_page_id, st.pages.length],
        [(l.keys.insertIdx pos k).getD ((l.num_keys + 1) / 2) 0]⟩)])
    (hroot : st2.root_page_id = st.pages.length + 1) :
    Inv st2 ∧
      ∀ x, absLookup st2 x =
        if x = k then some v else absLookup st x := by
  obtain ⟨pg2, rt2⟩ := st2
  dsimp only at hpages hroot
  subst hpages
  subst hroot
  have hmlk : max_leaf_keys = 338 := rfl
  have hpos := keySearch_inr_le l.keys k pos hks
  have hchain1 := chain_insertIdx l.keys k pos w4 hks
  have hK1len : (l.keys.insertIdx pos k).length = l.num_keys + 1 := by
    rw [List.length_insertIdx pos l.keys (by omega)]
    omega
  have hV1len : (l.values.insertIdx pos v).length = l.num_keys + 1 := by
    rw [List.length_insertIdx pos l.values (by omega)]
    omega
  have hmidlt : (l.num_keys + 1) / 2 < (l.keys.insertIdx pos k).length := by
    omega
  constructor
  · refine ⟨?_, ?_, Or.inr ⟨⟨1, [st.root_page_id, st.pages.length],
      [(l.keys.insertIdx pos k).getD ((l.num_keys + 1) / 2) 0]⟩,
      ?_, rfl, rfl, by show (1 : Nat) ≤ max_internal_keys; decide,
      by simp, ?_, ?_, ?_⟩⟩
    · dsimp only
      omega
    · dsimp only [PagerM.pageCount]
      simp only [List.length_append, List.length_cons, List.length_nil,
        List.length_set]
      omega
    · dsimp only
      exact getD_snoc_of_length _ _ _ _ (by
        simp only [List.length_append, List.length_cons, List.length_nil,
          List.length_set])
    · simp only [List.nodup_cons, List.mem_singleton, List.not_mem_nil,
        List.nodup_nil]
      refine ⟨by omega, by simp, trivial⟩
    · intro c hcm
      dsimp only [PagerM.pageCount]
      simp only [List.length_append, List.length_cons, List.length_nil,
        List.length_set]
      simp only [List.mem_cons, List.mem_singleton, List.not_mem_nil,
        or_false] at hcm
      rcases hcm with hc1 | hc1
      · subst hc1
        exact ⟨hr0, by omega, by omega⟩
      · subst hc1
        exact ⟨by omega, by omega, by omega⟩
    · intro i hi
      simp only [List.length_cons, List.length_nil] at hi
      have hi01 : i = 0 ∨ i = 1 := by omega
      rcases hi01 with hi0 | hi1
      · subst hi0
        refine ⟨⟨((l.keys.insertIdx pos k).take ((l.num_keys + 1) / 2)).length,
          st.pages.length,
          (l.keys.insertIdx pos k).take ((l.num_keys + 1) / 2),
          (l.values.insertIdx pos v).take ((l.num_keys + 1) / 2)⟩, ?_, ?_, ?_⟩
        · dsimp only
          rw [show ([st.root_page_id, st.pages.length] : List Nat).getD
            0 0 = st.root_page_id from rfl]
          rw [List.getD_append _ _ _ _ (by
            simp only [List.length_append, List.length_cons,
              List.length_nil, List.length_set]
            omega)]
          rw [List.getD_append _ _ _ _ (by
            simp only [List.length_set]
            omega)]
          rw [getD_set_self _ _ _ _ hrl]
        · refine ⟨rfl, ?_, ?_, chain_lt_take _ _ hchain1, ?_⟩
          · simp only [List.length_take]
            omega
          · simp only [List.length_take]
            omega
          · right
            dsimp only [PagerM.pageCount]
            simp only [List.length_append, List.length_cons,
              List.length_nil, List.length_set]
            omega
        · intro x hx
          have hxlt := sorted_take_lt _ _ _ hchain1 hmidlt hx
          dsimp only
          rw [childIndex_singleton]
          rw [if_pos hxlt]
      · subst hi1
        refine ⟨⟨((l.keys.insertIdx pos k).drop ((l.num_keys + 1) / 2)).length,
          l.next_leaf,
          (l.keys.insertIdx pos k).drop ((l.num_keys + 1) / 2),
          (l.values.insertIdx pos v).drop ((l.num_keys + 1) / 2)⟩, ?_, ?_, ?_⟩
        · dsimp only
          rw [show ([st.root_page_id, st.pages.length] : List Nat).getD
            1 0 = st.pages.length from rfl]
          rw [List.getD_append _ _ _ _ (by
            simp only [List.length_append, List.length_cons,
              List.length_nil, List.length_set]
            omega)]
          exact getD_snoc_of_length _ _ _ _ (by
            simp only [List.length_set])
        · refine ⟨rfl, ?_, ?_, chain_lt_drop _ _ hchain1, ?_⟩
          · simp only [List.length_drop]
            omega
          · simp only [List.length_drop]
            omega
          · rcases w5 with h0 | hlt
            · exact Or.inl h0
            · right
              dsimp only [PagerM.pageCount]
              simp only [List.length_append, List.length_cons,
                List.length_nil, List.length_set]
              omega
        · intro x hx
          have hxge := sorted_drop_le _ _ _ hchain1 hmidlt hx
          dsimp only
          rw [childIndex_singleton]
          rw [if_neg (by omega)]
  · intro x
    have habs : absLookup st x = leafLookup l.keys l.values x := by
      unfold absLookup
      rw [hl]
    rw [habs]
    unfold absLookup
    dsimp only
    rw [getD_snoc_of_length _ _ _ _ (by
      simp only [List.length_append, List.length_cons, List.length_nil,
        List.length_set])]
    dsimp only
    rw [childIndex_singleton]
    have hsplits := leafLookup_split (l.keys.insertIdx pos k)
      (l.values.insertIdx pos v) x ((l.num_keys + 1) / 2) hchain1
      (by omega) hmidlt
    by_cases hx2 : x < (l.keys.insertIdx pos k).getD ((l.num_keys + 1) / 2) 0
    · rw [if_pos hx2]
      rw [show ([st.root_page_id, st.pages.length] : List Nat).getD 0 0 =
        st.root_page_id from rfl]
      rw [List.getD_append _ _ _ _ (by
        simp only [List.length_append, List.length_cons, List.length_nil,
          List.length_set]
        omega)]
      rw [List.getD_append _ _ _ _ (by
        simp only [List.length_set]
        omega)]
      rw [getD_set_self _ _ _ _ hrl]
      dsimp only
      rw [(hsplits.trans (if_pos hx2)).symm]
      by_cases hx : x = k
      · subst hx
        rw [if_pos rfl]
        exact leafLookup_insertIdx_hit l.keys l.values x v pos
          (by omega) hks
      · rw [if_neg hx]
        exact leafLookup_insertIdx_ne l.keys l.values k x v pos
          (by omega) hks hx
    · rw [if_neg hx2]
      rw [show ([st.root_page_id, st.pages.length] : List Nat).getD 1 0 =
        st.pages.length from rfl]
      rw [List.getD_append _ _ _ _ (by
        simp only [List.length_append, List.length_cons, List.length_nil,
          List.length_set]
        omega)]
      rw [getD_snoc_of_length _ _ _ _ (by simp only [List.length_set])]
      dsimp only
      rw [(hsplits.trans (if_neg hx2)).symm]
      by_cases hx : x = k
      · subst hx
        rw [if_pos rfl]
        exact leafLookup_insertIdx_hit l.keys l.values x v pos
          (by omega) hks
      · rw [if_neg hx]
        exact leafLookup_insertIdx_ne l.keys l.values k x v pos
          (by omega) hks hx

/-- A successful `put_u64` on a height-one state (root leaf) preserves
the invariant and updates the abstract map at exactly the written key. -/
theorem put_u64_leaf_root (st : PagerM) (k v : Nat) (st2 : PagerM)
    (hr0 : st.root_page_id ≠ 0) (hrlt : st.root_page_id < st.pageCount)
    (l : LeafNode)
    (hl : st.pages.getD st.root_page_id .header = .btreePage (.leaf l))
    (hwf : leafWF st.pageCount l)
    (h : put_u64 st k v = .ok st2) :
    Inv st2 ∧
      ∀ x, absLookup st2 x =
        if x = k then some v else absLookup st x := by
  obtain ⟨w1, w2, w3, w4, w5⟩ := hwf
  have hrl : st.root_page_id < st.pages.length := hrlt
  unfold put_u64 insert_u64 at h
  rw [show MAX_DEPTH + 2 = 65 + 1 from rfl] at h
  cases hins : insertInto k v (65 + 1) st st.root_page_id with
  | error e =>
    rw [hins] at h
    exact Except.noConfusion h
  | ok q =>
    obtain ⟨res, pgr1⟩ := q
    rw [hins] at h
    have hcases := insertInto_leaf_cases k v 65 st st.root_page_id l res
      pgr1 hl hrlt ⟨w1, w2, w3, w4, w5⟩ hins
    rcases hcases with ⟨i, hks, hres, hpg⟩ | ⟨pos, hks, hfit, hres, hpg⟩ |
      ⟨pos, hks, hover, hres, hpg⟩
    · subst hres
      subst hpg
      dsimp only at h
      rw [if_neg (by simp)] at h
      have hst2 := Except.ok.inj h
      subst hst2
      have hklen : l.keys.length = l.values.length := by omega
      constructor
      · refine ⟨hr0, ?_, Or.inl ⟨{ l with values := l.values.set i v },
          ?_, ?_, ?_, ?_, ?_, ?_⟩⟩
        · dsimp only [PagerM.pageCount]
          rw [List.length_set]
          exact hrl
        · dsimp only
          rw [getD_set_self _ _ _ _ hrl]
        · exact w1
        · dsimp only
          rw [List.length_set]
          exact w2
        · exact w3
        · exact w4
        · dsimp only [PagerM.pageCount]
          rw [List.length_set]
          exact w5
      · intro x
        have habs : absLookup st x = leafLookup l.keys l.values x := by
          unfold absLookup
          rw [hl]
        rw [habs]
        unfold absLookup
        dsimp only
        rw [getD_set_self _ _ _ _ hrl]
        dsimp only
        by_cases hx : x = k
        · subst hx
          rw [if_pos rfl]
          exact leafLookup_set_hit l.keys l.values x v i hklen hks
        · rw [if_neg hx]
          exact leafLookup_set_ne l.keys l.values k x v i hks hx
    · subst hres
      subst hpg
      dsimp only at h
      rw [if_neg (by simp)] at h
      have hst2 := Except.ok.inj h
      subst hst2
      have hpos := keySearch_inr_le l.keys k pos hks
      have hklen1 : (l.keys.insertIdx pos k).length = l.num_keys + 1 := by
        rw [List.length_insertIdx pos l.keys (by omega)]
        omega
      have hvlen1 : (l.values.insertIdx pos v).length = l.num_keys + 1 := by
        rw [List.length_insertIdx pos l.values (by omega)]
        omega
      constructor
      · refine ⟨hr0, ?_, Or.inl ⟨⟨l.num_keys + 1, l.next_leaf,
          l.keys.insertIdx pos k, l.values.insertIdx pos v⟩,
          ?_, ?_, ?_, ?_, ?_, ?_⟩⟩
        · dsimp only [PagerM.pageCount]
          rw [List.length_set]
          exact hrl
        · dsimp only
          rw [getD_set_self _ _ _ _ hrl]
        · exact hklen1.symm
        · exact hvlen1.symm
        · exact hfit
        · exact chain_insertIdx l.keys k pos w4 hks
        · dsimp only [PagerM.pageCount]
          rw [List.length_set]
          exact w5
      · intro x
        have habs : absLookup st x = leafLookup l.keys l.values x := by
          unfold absLookup
          rw [hl]
        rw [habs]
        unfold absLookup
        dsimp only
        rw [getD_set_self _ _ _ _ hrl]
        dsimp only
        by_cases hx : x = k
        · subst hx
          rw [if_pos rfl]
          exact leafLookup_insertIdx_hit l.keys l.values x v pos
            (by omega) hks
        · rw [if_neg hx]
          exact leafLookup_insertIdx_ne l.keys l.values k x v pos
            (by omega) hks hx
    · subst hres
      subst hpg
      dsimp only at h
      split at h
      · exact Except.noConfusion h
      · rename_i nr p4 hmatch
        split at hmatch
        · exact Except.noConfusion hmatch
        · rename_i a p6 halloc2
          obtain ⟨hnr, hp6⟩ := allocate_btree_inv _ _ _ halloc2
          subst hnr
          subst hp6
          split at hmatch
          · exact Except.noConfusion hmatch
          · rename_i p5 heqI
            obtain ⟨hp5, hfI⟩ := encode_internal_inv _ _ _ _ heqI
            subst hp5
            injection (Except.ok.inj hmatch) with hnr2 hp42
            subst hnr2
            subst hp42
            rw [if_pos (by
              dsimp only [PagerM.pageCount]
              simp only [List.length_append, List.length_cons,
                List.length_nil, List.length_set]
              omega)] at h
            unfold PagerM.set_root_page_id at h
            rw [if_neg (by
              dsimp only [PagerM.pageCount]
              simp only [List.length_append, List.length_cons,
                List.length_nil, List.length_set]
              omega)] at h
            have hst2 := Except.ok.inj h
            refine root_split_good st k v pos l st2 hr0 hrl hl
              w1 w2 w3 w4 w5 hks ?_ ?_
            · rw [← hst2]
              dsimp only [PagerM.pageCount]
              rw [set_append_length]
            · rw [← hst2]
              dsimp only [PagerM.pageCount]
              simp only [List.length_append, List.length_cons,
                List.length_nil, List.length_set]

/-- `childIndex` is monotone in the probe key. -/
theorem childIndex_mono (keys : List Nat) (x y : Nat) (hxy : x ≤ y) :
    childIndex keys x ≤ childIndex keys y := by
  induction keys with
  | nil => exact Nat.le_refl 0
  | cons c rest ih =>
    unfold childIndex
    by_cases hy : y < c
    · rw [if_pos hy, if_pos (by omega)]
    · rw [if_neg hy]
      by_cases hx : x < c
      · rw [if_pos hx]
        omega
      · rw [if_neg hx]
        omega

/-- On a duplicate-free list, `getD` is injective on in-bounds indices. -/
theorem nodup_getD_inj {α : Type} (l : List α) (i j : Nat) (d : α)
    (hn : l.Nodup) (hi : i < l.length) (hj : j < l.length)
    (h : l.getD i d = l.getD j d) : i = j := by
  induction l generalizing i j with
  | nil => exact absurd hi (by simp)
  | cons a rest ih =>
    have hcons := List.nodup_cons.mp hn
    cases i with
    | zero =>
      cases j with
      | zero => rfl
      | succ m =>
        exfalso
        apply hcons.1
        have hred : a = rest.getD m d := h
        rw [hred]
        exact getD_mem rest m d (by simpa using hj)
    | succ n =>
      cases j with
      | zero =>
        exfalso
        apply hcons.1
        have hred : rest.getD n d = a := h
        rw [← hred]
        exact getD_mem rest n d (by simpa using hi)
      | succ m =>
        have hred : rest.getD n d = rest.getD m d := h
        have := ih n m hcons.2 (by simpa using hi) (by simpa using hj) hred
        omega

/-- Routing through a separator array with one key inserted. -/
theorem childIndex_insertIdx (keys : List Nat) (i p x : Nat)
    (hs : keys.Chain' (· < ·))
    (hs1 : (keys.insertIdx i p).Chain' (· < ·))
    (hi : i ≤ keys.length) :
    childIndex (keys.insertIdx i p) x =
      childIndex keys x + if p ≤ x then 1 else 0 := by
  rw [childIndex_countP _ _ hs1, childIndex_countP _ _ hs]
  rw [countP_insertIdx keys i p (fun y => decide (y ≤ x)) hi]
  simp only [decide_eq_true_eq]

/-- Page reads through a leaf split plus root overwrite: untouched page. -/
theorem getD_split_pages {α : Type} (pages : List α) (child root : Nat)
    (LP RP ND d : α) (c : Nat)
    (hcl : c < pages.length) (hcr : c ≠ root) (hcc : c ≠ child) :
    ((pages.set child LP ++ [RP]).set root ND).getD c d =
      pages.getD c d := by
  rw [getD_set_other _ _ _ _ _ (Ne.symm hcr)]
  rw [List.getD_append _ _ _ _ (by rw [List.length_set]; exact hcl)]
  rw [getD_set_other _ _ _ _ _ (Ne.symm hcc)]

/-- Page reads through a leaf split plus root overwrite: the split page. -/
theorem getD_split_pages_child {α : Type} (pages : List α)
    (child root : Nat) (LP RP ND d : α)
    (hcl : child < pages.length) (hcr : child ≠ root) :
    ((pages.set child LP ++ [RP]).set root ND).getD child d = LP := by
  rw [getD_set_other _ _ _ _ _ (Ne.symm hcr)]
  rw [List.getD_append _ _ _ _ (by rw [List.length_set]; exact hcl)]
  exact getD_set_self _ _ _ _ hcl

/-- Page reads through a leaf split plus root overwrite: the new page. -/
theorem getD_split_pages_right {α : Type} (pages : List α)
    (child root : Nat) (LP RP ND d : α) (hrl : root < pages.length) :
    ((pages.set child LP ++ [RP]).set root ND).getD pages.length d =
      RP := by
  rw [getD_set_other _ _ _ _ _ (by omega)]
  exact getD_snoc_of_length _ _ _ _ (by rw [List.length_set])

/-- Page reads through a leaf split plus root overwrite: the root. -/
theorem getD_split_pages_root {α : Type} (pages : List α)
    (child root : Nat) (LP RP ND d : α) (hrl : root < pages.length) :
    ((pages.set child LP ++ [RP]).set root ND).getD root d = ND := by
  exact getD_set_self _ _ _ _ (by
    simp only [List.length_append, List.length_cons, List.length_nil,
      List.length_set]
    omega)

/-- A successful `split_internal` on a consistent node is impossible. -/
theorem split_internal_never (pgr : PagerM) (page_id : Nat)
    (nd : InternalNode) (r : (Nat × Nat) × PagerM)
    (hk : nd.num_keys = nd.keys.length)
    (hc : nd.children.length = nd.num_keys + 1)
    (h1 : 1 ≤ nd.num_keys)
    (h : split_internal pgr page_id nd = .ok r) : False := by
  obtain ⟨e, he⟩ := split_internal_errors pgr page_id nd hk hc h1
  rw [he] at h
  exact Except.noConfusion h

/-- After a routed leaf split below an internal root that still has room,
the updated two-level tree satisfies the invariant and realizes the
upsert of the written key. -/
theorem internal_fit_good (st : PagerM) (k v pos : Nat)
    (nd : InternalNode) (lc : LeafNode) (st2 : PagerM)
    (hr0 : st.root_page_id ≠ 0) (hrl : st.root_page_id < st.pages.length)
    (hnd : st.pages.getD st.root_page_id .header =
      .btreePage (.internal nd))
    (hk : nd.num_keys = nd.keys.length)
    (hc : nd.children.length = nd.num_keys + 1)
    (hs : nd.keys.Chain' (· < ·))
    (hnodup : nd.children.Nodup)
    (hch : ∀ c ∈ nd.children,
      c ≠ 0 ∧ c < st.pages.length ∧ c ≠ st.root_page_id)
    (hsep : ∀ i, i < nd.children.length →
      ∃ l, st.pages.getD (nd.children.getD i 0) .header =
          .btreePage (.leaf l) ∧ leafWF st.pages.length l ∧
        ∀ x ∈ l.keys, childIndex nd.keys x = i)
    (hlc : st.pages.getD
        (nd.children.getD (childIndex nd.keys k) 0) .header =
      .btreePage (.leaf lc))
    (w1 : lc.num_keys = lc.keys.length)
    (w2 : lc.num_keys = lc.values.length)
    (w3 : lc.num_keys ≤ max_leaf_keys)
    (w4 : lc.keys.Chain' (· < ·))
    (w5 : lc.next_leaf = 0 ∨ lc.next_leaf < st.pages.length)
    (hsepc : ∀ x ∈ lc.keys,
      childIndex nd.keys x = childIndex nd.keys k)
    (hks : keySearch lc.keys k = .inr pos)
    (hfitI : nd.num_keys + 1 ≤ max_internal_keys)
    (hchain1 : (nd.keys.insertIdx (childIndex nd.keys k)
      ((lc.keys.insertIdx pos k).getD
        ((lc.num_keys + 1) / 2) 0)).Chain' (· < ·))
    (hpages : st2.pages =
      (st.pages.set (nd.children.getD (childIndex nd.keys k) 0)
          (PageM.btreePage (Node.leaf
            ⟨((lc.keys.insertIdx pos k).take ((lc.num_keys + 1) / 2)).length,
              st.pages.length,
              (lc.keys.insertIdx pos k).take ((lc.num_keys + 1) / 2),
              (lc.values.insertIdx pos v).take ((lc.num_keys + 1) / 2)⟩)) ++
        [PageM.btreePage (Node.leaf
          ⟨((lc.keys.insertIdx pos k).drop ((lc.num_keys + 1) / 2)).length,
            lc.next_leaf,
            (lc.keys.insertIdx pos k).drop ((lc.num_keys + 1) / 2),
            (lc.values.insertIdx pos v).drop ((lc.num_keys + 1) / 2)⟩)]).set
        st.root_page_id
        (PageM.btreePage (Node.internal ⟨nd.num_keys + 1,
          nd.children.insertIdx (childIndex nd.keys k + 1) st.pages.length,
          nd.keys.insertIdx (childIndex nd.keys k)
            ((lc.keys.insertIdx pos k).getD ((lc.num_keys + 1) / 2) 0)⟩)))
    (hroot : st2.root_page_id = st.root_page_id) :
    Inv st2 ∧
      ∀ x, absLookup st2 x =
        if x = k then some v else absLookup st x := by
  obtain ⟨pg2, rt2⟩ := st2
  dsimp only at hpages hroot
  subst hpages
  subst hroot
  have hmlk : max_leaf_keys = 338 := rfl
  have hidxle : childIndex nd.keys k ≤ nd.keys.length :=
    childIndex_le nd.keys k
  have hidxlt : childIndex nd.keys k < nd.children.length := by omega
  obtain ⟨hch0, hchl, hchr⟩ :=
    hch _ (getD_mem nd.children (childIndex nd.keys k) 0 hidxlt)
  have hpos := keySearch_inr_le lc.keys k pos hks
  have hchainK1 : (lc.keys.insertIdx pos k).Chain' (· < ·) :=
    chain_insertIdx lc.keys k pos w4 hks
  have hK1len : (lc.keys.insertIdx pos k).length = lc.num_keys + 1 := by
    rw [List.length_insertIdx pos lc.keys (by omega)]
    omega
  have hV1len : (lc.values.insertIdx pos v).length = lc.num_keys + 1 := by
    rw [List.length_insertIdx pos lc.values (by omega)]
    omega
  have hmidlt : (lc.num_keys + 1) / 2 <
      (lc.keys.insertIdx pos k).length := by
    omega
  have hroutepk : childIndex nd.keys
      ((lc.keys.insertIdx pos k).getD ((lc.num_keys + 1) / 2) 0) =
      childIndex nd.keys k := by
    have hmem := getD_mem (lc.keys.insertIdx pos k)
      ((lc.num_keys + 1) / 2) 0 hmidlt
    rcases List.mem_cons.mp
      ((insertIdx_perm lc.keys pos k (by omega)).mem_iff.mp hmem) with
      he | he
    · rw [he]
    · exact hsepc _ he
  have hlt_route : ∀ y, childIndex nd.keys y < childIndex nd.keys k →
      y < (lc.keys.insertIdx pos k).getD ((lc.num_keys + 1) / 2) 0 := by
    intro y hy
    by_contra hge
    have h2 := childIndex_mono nd.keys
      ((lc.keys.insertIdx pos k).getD ((lc.num_keys + 1) / 2) 0) y
      (by omega)
    rw [hroutepk] at h2
    omega
  have hgt_route : ∀ y, childIndex nd.keys k < childIndex nd.keys y →
      (lc.keys.insertIdx pos k).getD ((lc.num_keys + 1) / 2) 0 ≤ y := by
    intro y hy
    by_contra hlt
    have h2 := childIndex_mono nd.keys y
      ((lc.keys.insertIdx pos k).getD ((lc.num_keys + 1) / 2) 0)
      (by omega)
    rw [hroutepk] at h2
    omega
  constructor
  · refine ⟨?_, ?_, Or.inr ⟨⟨nd.num_keys + 1,
      nd.children.insertIdx (childIndex nd.keys k + 1) st.pages.length,
      nd.keys.insertIdx (childIndex nd.keys k)
        ((lc.keys.insertIdx pos k).getD ((lc.num_keys + 1) / 2) 0)⟩,
      ?_, ?_, ?_, hfitI, hchain1, ?_, ?_, ?_⟩⟩
    · dsimp only
      exact hr0
    · dsimp only [PagerM.pageCount]
      simp only [List.length_append, List.length_cons, List.length_nil,
        List.length_set]
      omega
    · dsimp only
      exact getD_split_pages_root st.pages _ _ _ _ _ _ hrl
    · dsimp only
      rw [List.length_insertIdx _ _ (by omega)]
      omega
    · dsimp only
      rw [List.length_insertIdx _ _ (by omega)]
      omega
    · dsimp only
      refine ((insertIdx_perm nd.children _ _ (by omega)).nodup_iff).mpr ?_
      refine List.nodup_cons.mpr ⟨?_, hnodup⟩
      intro hmem
      have := (hch _ hmem).2.1
      omega
    · dsimp only [PagerM.pageCount]
      intro c hcm
      rcases List.mem_cons.mp
        ((insertIdx_perm nd.children _ _ (by omega)).mem_iff.mp hcm) with
        he | he
      · subst he
        refine ⟨by omega, ?_, by omega⟩
        simp only [List.length_append, List.length_cons, List.length_nil,
          List.length_set]
        omega
      · obtain ⟨h1, h2, h3⟩ := hch c he
        refine ⟨h1, ?_, h3⟩
        simp only [List.length_append, List.length_cons, List.length_nil,
          List.length_set]
        omega
    · dsimp only [PagerM.pageCount]
      intro j hj
      rw [List.length_insertIdx _ _ (by omega)] at hj
      by_cases hj1 : j < childIndex nd.keys k
      · obtain ⟨lj, hpj, hwfj, hsepj⟩ := hsep j (by omega)
        have hcprops := hch _ (getD_mem nd.children j 0 (by omega))
        have hccne : nd.children.getD j 0 ≠
            nd.children.getD (childIndex nd.keys k) 0 := by
          intro he
          have := nodup_getD_inj nd.children j _ 0 hnodup (by omega)
            hidxlt he
          omega
        refine ⟨lj, ?_, ?_, ?_⟩
        · rw [getD_insertIdx_lt nd.children (childIndex nd.keys k + 1) j
            st.pages.length 0 (by omega)]
          rw [getD_split_pages st.pages _ _ _ _ _ _ _ hcprops.2.1
            hcprops.2.2 hccne]
          exact hpj
        · refine leafWF_mono st.pages.length _ lj hwfj ?_
          simp only [List.length_append, List.length_cons, List.length_nil,
            List.length_set]
          omega
        · intro x hx
          rw [childIndex_insertIdx nd.keys (childIndex nd.keys k) _ x hs
            hchain1 (by omega)]
          rw [hsepj x hx]
          rw [if_neg (by
            have h1 := hsepj x hx
            have h2 := hlt_route x (by omega)
            omega)]
          omega
      · by_cases hj2 : j = childIndex nd.keys k
        · subst hj2
          refine ⟨⟨((lc.keys.insertIdx pos k).take
              ((lc.num_keys + 1) / 2)).length,
            st.pages.length,
            (lc.keys.insertIdx pos k).take ((lc.num_keys + 1) / 2),
            (lc.values.insertIdx pos v).take ((lc.num_keys + 1) / 2)⟩,
            ?_, ?_, ?_⟩
          · rw [getD_insertIdx_lt nd.children (childIndex nd.keys k + 1)
              (childIndex nd.keys k) st.pages.length 0 (by omega)]
            exact getD_split_pages_child st.pages _ _ _ _ _ _ hchl hchr
          · refine ⟨rfl, ?_, ?_, chain_lt_take _ _ hchainK1, Or.inr ?_⟩
            · simp only [List.length_take]
              omega
            · simp only [List.length_take]
              omega
            · simp only [List.length_append, List.length_cons,
                List.length_nil, List.length_set]
              omega
          · intro x hx
            have hxlt := sorted_take_lt _ _ _ hchainK1 hmidlt hx
            have hxmem : x ∈ lc.keys.insertIdx pos k :=
              (List.take_sublist _ _).subset hx
            have hxroute : childIndex nd.keys x = childIndex nd.keys k := by
              rcases List.mem_cons.mp
                ((insertIdx_perm lc.keys pos k
                  (by omega)).mem_iff.mp hxmem) with he | he
              · rw [he]
              · exact hsepc x he
            rw [childIndex_insertIdx nd.keys (childIndex nd.keys k) _ x hs
              hchain1 (by omega)]
            rw [hxroute]
            rw [if_neg (by omega)]
            omega
        · by_cases hj3 : j = childIndex nd.keys k + 1
          · subst hj3
            refine ⟨⟨((lc.keys.insertIdx pos k).drop
                ((lc.num_keys + 1) / 2)).length,
              lc.next_leaf,
              (lc.keys.insertIdx pos k).drop ((lc.num_keys + 1) / 2),
              (lc.values.insertIdx pos v).drop ((lc.num_keys + 1) / 2)⟩,
              ?_, ?_, ?_⟩
            · rw [getD_insertIdx_self nd.children
                (childIndex nd.keys k + 1) st.pages.length 0 (by omega)]
              exact getD_split_pages_right st.pages _ _ _ _ _ _ hrl
            · refine ⟨rfl, ?_, ?_, chain_lt_drop _ _ hchainK1, ?_⟩
              · simp only [List.length_drop]
                omega
              · simp only [List.length_drop]
                omega
              · rcases w5 with h0 | hlt2
                · exact Or.inl h0
                · refine Or.inr ?_
                  simp only [List.length_append, List.length_cons,
                    List.length_nil, List.length_set]
                  omega
            · intro x hx
              have hxge := sorted_drop_le _ _ _ hchainK1 hmidlt hx
              have hxmem : x ∈ lc.keys.insertIdx pos k :=
                (List.drop_sublist _ _).subset hx
              have hxroute : childIndex nd.keys x =
                  childIndex nd.keys k := by
                rcases List.mem_cons.mp
                  ((insertIdx_perm lc.keys pos k
                    (by omega)).mem_iff.mp hxmem) with he | he
                · rw [he]
                · exact hsepc x he
              rw [childIndex_insertIdx nd.keys (childIndex nd.keys k) _ x
                hs hchain1 (by omega)]
              rw [hxroute]
              rw [if_pos (by omega)]
          · obtain ⟨lj, hpj, hwfj, hsepj⟩ := hsep (j - 1) (by omega)
            have hcprops := hch _ (getD_mem nd.children (j - 1) 0
              (by omega))
            have hccne : nd.children.getD (j - 1) 0 ≠
                nd.children.getD (childIndex nd.keys k) 0 := by
              intro he
              have := nodup_getD_inj nd.children (j - 1) _ 0 hnodup
                (by omega) hidxlt he
              omega
            refine ⟨lj, ?_, ?_, ?_⟩
            · rw [getD_insertIdx_gt nd.children (childIndex nd.keys k + 1)
                j st.pages.length 0 (by omega) (by omega)]
              rw [getD_split_pages st.pages _ _ _ _ _ _ _ hcprops.2.1
                hcprops.2.2 hccne]
              exact hpj
            · refine leafWF_mono st.pages.length _ lj hwfj ?_
              simp only [List.length_append, List.length_cons,
                List.length_nil, List.length_set]
              omega
            · intro x hx
              have h1 := hsepj x hx
              have h2 := hgt_route x (by omega)
              rw [childIndex_insertIdx nd.keys (childIndex nd.keys k) _ x
                hs hchain1 (by omega)]
              rw [h1]
              rw [if_pos h2]
              omega
  · intro x
    unfold absLookup
    dsimp only
    rw [getD_split_pages_root st.pages _ _ _ _ _ _ hrl]
    rw [hnd]
    dsimp only
    rw [childIndex_insertIdx nd.keys (childIndex nd.keys k)
      ((lc.keys.insertIdx pos k).getD ((lc.num_keys + 1) / 2) 0) x hs
      hchain1 (by omega)]
    have hsplits := leafLookup_split (lc.keys.insertIdx pos k)
      (lc.values.insertIdx pos v) x ((lc.num_keys + 1) / 2) hchainK1
      (by omega) hmidlt
    by_cases hxk : x = k
    · subst hxk
      rw [if_pos rfl]
      by_cases hx2 : x <
          (lc.keys.insertIdx pos x).getD ((lc.num_keys + 1) / 2) 0
      · rw [if_neg (by omega)]
        simp only [Nat.add_zero]
        rw [getD_insertIdx_lt nd.children (childIndex nd.keys x + 1)
          (childIndex nd.keys x) st.pages.length 0 (by omega)]
        rw [getD_split_pages_child st.pages _ _ _ _ _ _ hchl hchr]
        dsimp only
        rw [(hsplits.trans (if_pos hx2)).symm]
        exact leafLookup_insertIdx_hit lc.keys lc.values x v pos
          (by omega) hks
      · rw [if_pos (by omega)]
        rw [getD_insertIdx_self nd.children (childIndex nd.keys x + 1)
          st.pages.length 0 (by omega)]
        rw [getD_split_pages_right st.pages _ _ _ _ _ _ hrl]
        dsimp only
        rw [(hsplits.trans (if_neg hx2)).symm]
        exact leafLookup_insertIdx_hit lc.keys lc.values x v pos
          (by omega) hks
    · rw [if_neg hxk]
      by_cases hroute : childIndex nd.keys x = childIndex nd.keys k
      · rw [hroute]
        rw [hlc]
        dsimp only
        by_cases hx2 : x <
            (lc.keys.insertIdx pos k).getD ((lc.num_keys + 1) / 2) 0
        · rw [if_neg (by omega)]
          simp only [Nat.add_zero]
          rw [getD_insertIdx_lt nd.children (childIndex nd.keys k + 1)
            (childIndex nd.keys k) st.pages.length 0 (by omega)]
          rw [getD_split_pages_child st.pages _ _ _ _ _ _ hchl hchr]
          dsimp only
          rw [(hsplits.trans (if_pos hx2)).symm]
          exact leafLookup_insertIdx_ne lc.keys lc.values k x v pos
            (by omega) hks hxk
        · rw [if_pos (by omega)]
          rw [getD_insertIdx_self nd.children (childIndex nd.keys k + 1)
            st.pages.length 0 (by omega)]
          rw [getD_split_pages_right st.pages _ _ _ _ _ _ hrl]
          dsimp only
          rw [(hsplits.trans (if_neg hx2)).symm]
          exact leafLookup_insertIdx_ne lc.keys lc.values k x v pos
            (by omega) hks hxk
      · have hxle := childIndex_le nd.keys x
        by_cases hlt : childIndex nd.keys x < childIndex nd.keys k
        · have hxpk := hlt_route x hlt
          rw [if_neg (by omega)]
          simp only [Nat.add_zero]
          rw [getD_insertIdx_lt nd.children (childIndex nd.keys k + 1)
            (childIndex nd.keys x) st.pages.length 0 (by omega)]
          have hcprops := hch _ (getD_mem nd.children
            (childIndex nd.keys x) 0 (by omega))
          have hccne : nd.children.getD (childIndex nd.keys x) 0 ≠
              nd.children.getD (childIndex nd.keys k) 0 := by
            intro he
            exact hroute (nodup_getD_inj nd.children _ _ 0 hnodup
              (by omega) hidxlt he)
          rw [getD_split_pages st.pages _ _ _ _ _ _ _ hcprops.2.1
            hcprops.2.2 hccne]
        · have hgt : childIndex nd.keys k < childIndex nd.keys x := by
            omega
          have hxpk := hgt_route x hgt
          rw [if_pos hxpk]
          rw [getD_insertIdx_gt nd.children (childIndex nd.keys k + 1)
            (childIndex nd.keys x + 1) st.pages.length 0 (by omega)
            (by omega)]
          rw [Nat.add_sub_cancel]
          have hcprops := hch _ (getD_mem nd.children
            (childIndex nd.keys x) 0 (by omega))
          have hccne : nd.children.getD (childIndex nd.keys x) 0 ≠
              nd.children.getD (childIndex nd.keys k) 0 := by
            intro he
            exact hroute (nodup_getD_inj nd.children _ _ 0 hnodup
              (by omega) hidxlt he)
          rw [getD_split_pages st.pages _ _ _ _ _ _ _ hcprops.2.1
            hcprops.2.2 hccne]

/-- A successful `put_u64` on a height-two state (internal root over
leaves) preserves the invariant and updates the abstract map at exactly
the written key. -/
theorem put_u64_internal_root (st : PagerM) (k v : Nat) (st2 : PagerM)
    (hr0 : st.root_page_id ≠ 0) (hrlt : st.root_page_id < st.pageCount)
    (nd : InternalNode)
    (hnd : st.pages.getD st.root_page_id .header =
      .btreePage (.internal nd))
    (hk : nd.num_keys = nd.keys.length)
    (hc : nd.children.length = nd.num_keys + 1)
    (hcap : nd.num_keys ≤ max_internal_keys)
    (hs : nd.keys.Chain' (· < ·))
    (hnodup : nd.children.Nodup)
    (hch : ∀ c ∈ nd.children,
      c ≠ 0 ∧ c < st.pageCount ∧ c ≠ st.root_page_id)
    (hsep : ∀ i, i < nd.children.length →
      ∃ l, st.pages.getD (nd.children.getD i 0) .header =
          .btreePage (.leaf l) ∧ leafWF st.pageCount l ∧
        ∀ x ∈ l.keys, childIndex nd.keys x = i)
    (h : put_u64 st k v = .ok st2) :
    Inv st2 ∧
      ∀ x, absLookup st2 x =
        if x = k then some v else absLookup st x := by
  have hrl : st.root_page_id < st.pages.length := hrlt
  unfold put_u64 insert_u64 at h
  rw [show MAX_DEPTH + 2 = 65 + 1 from rfl] at h
  rw [insertInto_step] at h
  rw [get_page_eq st st.root_page_id hrlt, hnd] at h
  dsimp only at h
  rw [nodeDecode_internal_ok nd st.pageCount hk hc hcap hs
    (fun c hcm => ⟨(hch c hcm).1, (hch c hcm).2.1⟩)] at h
  dsimp only at h
  have hidxle := childIndex_le nd.keys k
  have hidxlt : childIndex nd.keys k < nd.children.length := by omega
  obtain ⟨lc, hlc, hwfc, hsepc⟩ := hsep (childIndex nd.keys k) hidxlt
  obtain ⟨hch0, hchl, hchr⟩ :=
    hch _ (getD_mem nd.children (childIndex nd.keys k) 0 hidxlt)
  cases hins : insertInto k v 65 st
      (nd.children.getD (childIndex nd.keys k) 0) with
  | error e =>
    rw [hins] at h
    exact Except.noConfusion h
  | ok q =>
    obtain ⟨res, pgr1⟩ := q
    rw [hins] at h
    have hcases := insertInto_leaf_cases k v 64 st
      (nd.children.getD (childIndex nd.keys k) 0) lc res pgr1 hlc hchl
      hwfc hins
    obtain ⟨w1, w2, w3, w4, w5⟩ := hwfc
    rcases hcases with ⟨i, hks, hres, hpg⟩ | ⟨pos, hks, hfit, hres, hpg⟩ |
      ⟨pos, hks, hover, hres, hpg⟩
    · -- in-place overwrite at the routed leaf
      subst hres
      subst hpg
      dsimp only at h
      rw [if_neg (by simp)] at h
      have hst2 := Except.ok.inj h
      subst hst2
      have hklen : lc.keys.length = lc.values.length := by omega
      constructor
      · refine ⟨hr0, ?_, Or.inr ⟨nd, ?_, hk, hc, hcap, hs, hnodup,
          ?_, ?_⟩⟩
        · dsimp only [PagerM.pageCount]
          rw [List.length_set]
          exact hrlt
        · dsimp only
          rw [getD_set_other _ _ _ _ _ hchr]
          exact hnd
        · intro c hcm
          obtain ⟨h1, h2, h3⟩ := hch c hcm
          refine ⟨h1, ?_, h3⟩
          dsimp only [PagerM.pageCount]
          rw [List.length_set]
          exact h2
        · intro j hj
          by_cases hje : j = childIndex nd.keys k
          · subst hje
            refine ⟨{ lc with values := lc.values.set i v }, ?_, ?_, ?_⟩
            · dsimp only
              rw [getD_set_self _ _ _ _ hchl]
            · refine ⟨w1, ?_, w3, w4, ?_⟩
              · dsimp only
                rw [List.length_set]
                exact w2
              · dsimp only [PagerM.pageCount]
                rw [List.length_set]
                exact w5
            · intro x hx
              exact hsepc x hx
          · obtain ⟨lj, hpj, hwfj, hsepj⟩ := hsep j hj
            have hccne : nd.children.getD j 0 ≠
                nd.children.getD (childIndex nd.keys k) 0 := by
              intro he
              exact hje (nodup_getD_inj nd.children _ _ 0 hnodup hj
                hidxlt he)
            refine ⟨lj, ?_, ?_, hsepj⟩
            · dsimp only
              rw [getD_set_other _ _ _ _ _ (Ne.symm hccne)]
              exact hpj
            · refine leafWF_mono st.pageCount _ lj hwfj ?_
              dsimp only [PagerM.pageCount]
              rw [List.length_set]
      · intro x
        unfold absLookup
        dsimp only
        rw [getD_set_other _ _ _ _ _ hchr]
        rw [hnd]
        dsimp only
        by_cases hxk : x = k
        · subst hxk
          rw [if_pos rfl]
          rw [getD_set_self _ _ _ _ hchl]
          dsimp only
          exact leafLookup_set_hit lc.keys lc.values x v i hklen hks
        · rw [if_neg hxk]
          by_cases hroute : childIndex nd.keys x = childIndex nd.keys k
          · rw [hroute]
            rw [getD_set_self _ _ _ _ hchl]
            rw [hlc]
            dsimp only
            exact leafLookup_set_ne lc.keys lc.values k x v i hks hxk
          · have hxle := childIndex_le nd.keys x
            have hccne : nd.children.getD (childIndex nd.keys x) 0 ≠
                nd.children.getD (childIndex nd.keys k) 0 := by
              intro he
              exact hroute (nodup_getD_inj nd.children _ _ 0 hnodup
                (by omega) hidxlt he)
            rw [getD_set_other _ _ _ _ _ (Ne.symm hccne)]
    · -- in-capacity insert at the routed leaf
      subst hres
      subst hpg
      dsimp only at h
      rw [if_neg (by simp)] at h
      have hst2 := Except.ok.inj h
      subst hst2
      have hpos := keySearch_inr_le lc.keys k pos hks
      have hklen1 : (lc.keys.insertIdx pos k).length =
          lc.num_keys + 1 := by
        rw [List.length_insertIdx pos lc.keys (by omega)]
        omega
      have hvlen1 : (lc.values.insertIdx pos v).length =
          lc.num_keys + 1 := by
        rw [List.length_insertIdx pos lc.values (by omega)]
        omega
      constructor
      · refine ⟨hr0, ?_, Or.inr ⟨nd, ?_, hk, hc, hcap, hs, hnodup,
          ?_, ?_⟩⟩
        · dsimp only [PagerM.pageCount]
          rw [List.length_set]
          exact hrlt
        · dsimp only
          rw [getD_set_other _ _ _ _ _ hchr]
          exact hnd
        · intro c hcm
          obtain ⟨h1, h2, h3⟩ := hch c hcm
          refine ⟨h1, ?_, h3⟩
          dsimp only [PagerM.pageCount]
          rw [List.length_set]
          exact h2
        · intro j hj
          by_cases hje : j = childIndex nd.keys k
          · subst hje
            refine ⟨⟨lc.num_keys + 1, lc.next_leaf,
              lc.keys.insertIdx pos k, lc.values.insertIdx pos v⟩,
              ?_, ?_, ?_⟩
            · dsimp only
              rw [getD_set_self _ _ _ _ hchl]
            · refine ⟨hklen1.symm, hvlen1.symm, hfit,
                chain_insertIdx lc.keys k pos w4 hks, ?_⟩
              dsimp only [PagerM.pageCount]
              rw [List.length_set]
              exact w5
            · intro x hx
              rcases List.mem_cons.mp
                ((insertIdx_perm lc.keys pos k (by omega)).mem_iff.mp
                  hx) with he | he
              · rw [he]
              · exact hsepc x he
          · obtain ⟨lj, hpj, hwfj, hsepj⟩ := hsep j hj
            have hccne : nd.children.getD j 0 ≠
                nd.children.getD (childIndex nd.keys k) 0 := by
              intro he
              exact hje (nodup_getD_inj nd.children _ _ 0 hnodup hj
                hidxlt he)
            refine ⟨lj, ?_, ?_, hsepj⟩
            · dsimp only
              rw [getD_set_other _ _ _ _ _ (Ne.symm hccne)]
              exact hpj
            · refine leafWF_mono st.pageCount _ lj hwfj ?_
              dsimp only [PagerM.pageCount]
              rw [List.length_set]
      · intro x
        unfold absLookup
        dsimp only
        rw [getD_set_other _ _ _ _ _ hchr]
        rw [hnd]
        dsimp only
        by_cases hxk : x = k
        · subst hxk
          rw [if_pos rfl]
          rw [getD_set_self _ _ _ _ hchl]
          dsimp only
          exact leafLookup_insertIdx_hit lc.keys lc.values x v pos
            (by omega) hks
        · rw [if_neg hxk]
          by_cases hroute : childIndex nd.keys x = childIndex nd.keys k
          · rw [hroute]
            rw [getD_set_self _ _ _ _ hchl]
            rw [hlc]
            dsimp only
            exact leafLookup_insertIdx_ne lc.keys lc.values k x v pos
              (by omega) hks hxk
          · have hxle := childIndex_le nd.keys x
            have hccne : nd.children.getD (childIndex nd.keys x) 0 ≠
                nd.children.getD (childIndex nd.keys k) 0 := by
              intro he
              exact hroute (nodup_getD_inj nd.children _ _ 0 hnodup
                (by omega) hidxlt he)
            rw [getD_set_other _ _ _ _ _ (Ne.symm hccne)]
    · -- the routed leaf splits
      subst hres
      subst hpg
      dsimp only [PagerM.pageCount] at h
      by_cases hfitI : nd.num_keys + 1 ≤ max_internal_keys
      · rw [if_pos hfitI] at h
        split at h
        · exact Except.noConfusion h
        · rename_i nr p7 hmatch
          split at hmatch
          · exact Except.noConfusion hmatch
          · rename_i p henc
            split at henc
            · exact Except.noConfusion henc
            · rename_i p8 hencode
              injection (Except.ok.inj henc) with hres2 hp2
              subst hp2
              injection (Except.ok.inj hmatch) with hnr2 hp72
              subst hnr2
              subst hp72
              rw [if_neg (by simp)] at h
              have hst2 := Except.ok.inj h
              obtain ⟨hp8eq, hfk, hfc, hfcap, hfchain, hfid⟩ :=
                encode_internal_inv _ _ _ _ hencode
              refine internal_fit_good st k v pos nd lc st2 hr0 hrl hnd
                hk hc hs hnodup hch hsep hlc w1 w2 w3 w4 w5 hsepc hks
                hfitI hfchain ?_ ?_
              · rw [← hst2, hp8eq]
              · rw [← hst2, hp8eq]
          · rename_i pk2 right2 p hsp
            split at hsp
            · exact Except.noConfusion hsp
            · rename_i p8 hencode
              injection (Except.ok.inj hsp) with hres2 hp2
              exact InsertResult.noConfusion hres2
      · rw [if_neg hfitI] at h
        split at h
        · exact Except.noConfusion h
        · rename_i nr p7 hmatch
          split at hmatch
          · exact Except.noConfusion hmatch
          · rename_i p hsp
            split at hsp
            · exact Except.noConfusion hsp
            · rename_i q8 hsplitI
              injection (Except.ok.inj hsp) with hres2 hp2
              exact InsertResult.noConfusion hres2
          · rename_i pk2 right2 p hsp
            split at hsp
            · exact Except.noConfusion hsp
            · rename_i q8 hsplitI
              refine (split_internal_never _ _ _ _ ?_ ?_ ?_
                hsplitI).elim
              · dsimp only
                rw [List.length_insertIdx _ _ (by omega)]
                omega
              · dsimp only
                rw [List.length_insertIdx _ _ (by omega)]
                omega
              · dsimp only
                omega

/-- A successful `put_u64` on any invariant state preserves the
invariant and updates the abstract map at exactly the written key. -/
theorem put_u64_step (st : PagerM) (k v : Nat) (st2 : PagerM)
    (hInv : Inv st) (h : put_u64 st k v = .ok st2) :
    Inv st2 ∧
      ∀ x, absLookup st2 x =
        if x = k then some v else absLookup st x := by
  obtain ⟨hr0, hrlt, hcase⟩ := hInv
  rcases hcase with ⟨l, hl, hwf⟩ |
    ⟨nd, hnd, hk, hc, hcap, hs, hnodup, hch, hsep⟩
  · exact put_u64_leaf_root st k v st2 hr0 hrlt l hl hwf h
  · exact put_u64_internal_root st k v st2 hr0 hrlt nd hnd hk hc hcap hs
      hnodup hch hsep h

/-- Folding a list of puts from an invariant state produces an invariant
state whose abstract map is the sequence of upserts. -/
theorem foldPuts_good (ps : List (Nat × Nat)) (st0 st : PagerM)
    (hInv : Inv st0)
    (h : ps.foldlM (fun s kv => put_u64 s kv.1 kv.2) st0 = .ok st) :
    Inv st ∧
      ∀ x, absLookup st x =
        (match lastValue ps x with
         | some v => some v
         | none => absLookup st0 x) := by
  induction ps generalizing st0 with
  | nil =>
    rw [List.foldlM_nil] at h
    have hst : st0 = st := Except.ok.inj h
    subst hst
    exact ⟨hInv, fun x => rfl⟩
  | cons kv rest ih =>
    obtain ⟨a, b⟩ := kv
    rw [List.foldlM_cons] at h
    cases hp : put_u64 st0 a b with
    | error e =>
      rw [hp] at h
      exact Except.noConfusion h
    | ok st1 =>
      rw [hp] at h
      have h2 : rest.foldlM (fun s kv => put_u64 s kv.1 kv.2) st1 =
          .ok st := h
      obtain ⟨hInv1, hstep⟩ := put_u64_step st0 a b st1 hInv hp
      obtain ⟨hInvF, habs⟩ := ih st1 hInv1 h2
      refine ⟨hInvF, fun x => ?_⟩
      have hcons : lastValue ((a, b) :: rest) x =
          (match lastValue rest x with
           | some v => some v
           | none => if x = a then some b else none) := rfl
      rw [hcons]
      rw [habs x]
      cases hlv : lastValue rest x with
      | some v => rfl
      | none =>
        rw [hstep x]
        by_cases hxa : x = a
        · rw [if_pos hxa]
          rw [if_pos hxa]
        · rw [if_neg hxa]
          rw [if_neg hxa]

/-- C2: for every finite sequence of successful `put_u64 (k, v)` calls
on a database, a subsequent `get_u64 k` returns `some v` where `v` is
the most recently inserted value for `k`, and `get_u64 k2` returns
`none` for every key `k2` that was never inserted: a successful run of
puts from a fresh database yields a state whose `get_u64` returns
exactly the last-written value for each key. -/
theorem put_get_functional (ps : List (Nat × Nat)) (st : PagerM)
    (k : Nat) (h : runPuts ps = .ok st) :
    get_u64 st k = .ok (lastValue ps k) := by
  unfold runPuts at h
  obtain ⟨hInv, habs⟩ := foldPuts_good ps freshPager st freshInv h
  rw [get_u64_absLookup st hInv k]
  rw [habs k]
  have hfresh : absLookup freshPager k = none := rfl
  rw [hfresh]
  cases lastValue ps k with
  | some v => rfl
  | none => rfl

/-- Witness for C2: three puts with an overwrite; the overwritten key
reads back its latest value, the other key its only value, and a key
never written reads back absent. -/
theorem put_get_functional_witness :
    ∃ st, runPuts [(5, 50), (7, 70), (5, 55)] = .ok st ∧
      get_u64 st 5 = .ok (some 55) ∧
      get_u64 st 7 = .ok (some 70) ∧
      get_u64 st 9 = .ok none := by
  refine ⟨{ pages := [.header,
              .btreePage (.leaf ⟨2, 0, [5, 7], [55, 70]⟩), .metaPage],
            root_page_id := 1 }, rfl, ?_, ?_, ?_⟩
  · exact put_get_functional [(5, 50), (7, 70), (5, 55)] _ 5 rfl
  · exact put_get_functional [(5, 50), (7, 70), (5, 55)] _ 7 rfl
  · exact put_get_functional [(5, 50), (7, 70), (5, 55)] _ 9 rfl

end INVDB
